import Mathlib

/-!
# libbitcoin-database: the storage primitives

A shallow embedding of `hashmap.ipp` (chained-bucket hash index over a header
file and a body file) together with the collaborators it calls: the record /
slab manager, the bucket-array head, and the byte writer with its deferred
finalizer; of `file_storage.cpp` (the memory-mapped file store, its system
calls an oracle); and of `arraymap.ipp`, `record.ipp` and the `strong_bk`
record.  Files are byte lists, links are natural numbers serialised
little-endian over `W` bytes.
-/

namespace Database

/-- One octet of a file. -/
abbrev Byte := Fin 256

/-- Little-endian serialisation of a value over `w` bytes (a `Link` written to disk). -/
def encode : Nat → Nat → List Byte
  | 0, _ => []
  | w + 1, v => ⟨v % 256, Nat.mod_lt v (by decide)⟩ :: encode w (v / 256)

/-- Little-endian value of a byte string (a `Link` read from disk). -/
def decode : List Byte → Nat
  | [] => 0
  | b :: bs => b.val + 256 * decode bs

/-- Raw read of `n` bytes at `pos`; bytes past the end of the file are not delivered. -/
def peek (mem : List Byte) (pos n : Nat) : List Byte :=
  (mem.drop pos).take n

/-- Raw write of `bs` at `pos`; the file keeps its length, bytes that would land
past its logical end are not recorded. -/
def poke (mem : List Byte) (pos : Nat) (bs : List Byte) : List Byte :=
  mem.take pos ++ bs.take (mem.length - pos) ++ mem.drop (pos + bs.length)

/-- Template parameters of one table: link width `W` (`Link::size`), key length
`K` (`array_count<Key>`), payload `Size` `S` (zero selects slab mode), the bucket
count `N` handed to the constructor, and the key reduction `fingerprint` that
`head.index` takes modulo `N`.  Links are natural numbers; a link value is one
below `256 ^ W`. -/
structure Params where
  W : Nat
  K : Nat
  S : Nat
  N : Nat
  fingerprint : List Byte → Nat

/-- Modelled from the spec: the `storage` interface that `head` and `manager`
wrap.  A storage is a growable byte region (here its logical content) that
serves accessors only while it is mapped; `reserved` is the size its region
has reached so far, so that the capacity is the larger of it and the logical
size (`logical_size ≤ capacity`). -/
structure Storage where
  mapped : Bool
  data : List Byte
  reserved : Nat := 0
deriving DecidableEq, Repr

/-- Modelled from the spec: `storage::capacity`, never below the logical size. -/
def Storage.capacity (b : Storage) : Nat := max b.reserved b.data.length

/-- The two files of a hash map: `head_` (bucket array) and `manager_` (elements). -/
structure State where
  head : Storage
  body : Storage
deriving DecidableEq, Repr

/-- Modelled from the spec: `Link::terminal`, the all-ones value over `W` bytes. -/
def terminal (p : Params) : Nat := 256 ^ p.W - 1

/-- Modelled from the spec: `Link::is_terminal`. -/
def is_terminal (p : Params) (link : Nat) : Bool := link == terminal p

/-- Modelled from the spec: slab mode is selected by `Size == 0`. -/
def is_slab (p : Params) : Bool := p.S == 0

/-- Modelled from the spec: `index_size`, the `[next, key]` prefix of an element. -/
def index_size (p : Params) : Nat := p.W + p.K

/-- Modelled from the spec: bytes per link unit (one byte for slabs, one whole
`[next, key, payload]` row for records). -/
def stride (p : Params) : Nat := if is_slab p then 1 else p.W + p.K + p.S

/-- Modelled from the spec: `iterator::link_to_position`. -/
def link_to_position (p : Params) (link : Nat) : Nat := link * stride p

/-- Modelled from the spec: `position_to_link` of the manager. -/
def position_to_link (p : Params) (pos : Nat) : Nat := pos / stride p

/-! ## manager -/

/-- Modelled from the spec: `manager::count`, the end of the body in link units. -/
def manager.count (p : Params) (b : Storage) : Nat :=
  position_to_link p b.data.length

/-- Modelled from the spec: `manager::truncate` (the manager is not under src);
fails if the link is terminal or beyond what the storage holds, otherwise sets
the logical end to the link.  The bound is the capacity of the storage: the
tests `manager__truncate__half_full_slab__true_changed` and
`manager__truncate__half_full_record__true_changed` truncate a body to half and
then back to its full size, and the `overflow` tests fail one unit past it.
Bytes that come back into the logical region read zero. -/
def manager.truncate (p : Params) (b : Storage) (link : Nat) : Bool × Storage :=
  if is_terminal p link || decide (Storage.capacity b < link_to_position p link) then
    (false, b)
  else (true, { b with
    data := (b.data ++ List.replicate (link_to_position p link - b.data.length) 0).take
      (link_to_position p link),
    reserved := Storage.capacity b })

/-- Modelled from the spec: `manager::allocate`; a terminal size is returned
unchanged, a closed storage yields terminal, otherwise the body grows by `size`
units (zero filled) and the previous count is returned.  Counts are natural
numbers here, while a `Link` holds `W` bytes: the model says what `allocate`
does as long as the count stays a link value (at most terminal), and the
statements about it are made within that range. -/
def manager.allocate (p : Params) (b : Storage) (size : Nat) : Nat × Storage :=
  if is_terminal p size then (size, b)
  else if !b.mapped then (terminal p, b)
  else (manager.count p b,
    { b with data := b.data ++ List.replicate (link_to_position p size) 0 })

/-- Modelled from the spec: `manager::get()`, the accessor spanning the whole body
(null when the storage is closed). -/
def manager.get (b : Storage) : Option (List Byte) :=
  if b.mapped then some b.data else none

/-- Modelled from the spec: `memory::offset`, the address of a position inside
an accessor (null when out of range). -/
def offset (mem : List Byte) (pos : Nat) : Option Nat :=
  if pos < mem.length then some pos else none

/-- Modelled from the spec: `manager::get(link)`; null if the link is terminal or
out of range, otherwise the byte address at which the accessor begins. -/
def manager.get_link (p : Params) (b : Storage) (link : Nat) : Option Nat :=
  if is_terminal p link then none
  else match manager.get b with
    | none => none
    | some mem => offset mem (link_to_position p link)

/-! ## head -/

/-- Modelled from the spec: `head::size`, `W + N*W`. -/
def head.size (p : Params) : Nat := p.W + p.N * p.W

/-- Modelled from the spec: `head::verify`, the structural size check. -/
def head.verify (p : Params) (h : Storage) : Bool :=
  h.data.length == head.size p

/-- Modelled from the spec: `head::create`, a fresh header with body count zero
and every bucket terminal (all-ones). -/
def head.create (p : Params) (h : Storage) : Bool × Storage :=
  if h.mapped then
    (true, { h with data := encode p.W 0 ++ List.replicate (p.N * p.W) 255 })
  else (false, h)

/-- Modelled from the spec: `head::get_body_count`. -/
def head.get_body_count (p : Params) (h : Storage) : Option Nat :=
  if h.mapped && decide (p.W ≤ h.data.length) then some (decode (peek h.data 0 p.W))
  else none

/-- Modelled from the spec: `head::set_body_count`. -/
def head.set_body_count (p : Params) (h : Storage) (count : Nat) : Bool × Storage :=
  if h.mapped && decide (p.W ≤ h.data.length) then
    (true, { h with data := poke h.data 0 (encode p.W count) })
  else (false, h)

/-- Modelled from the spec: `head::index`, `fingerprint(key) mod N`. -/
def head.index (p : Params) (key : List Byte) : Nat := p.fingerprint key % p.N

/-- Modelled from the spec: file position of `bucket[index]`. -/
def head.offset (p : Params) (index : Nat) : Nat := p.W + index * p.W

/-- Modelled from the spec: whether the header serves an accessor for a bucket. -/
def head.accessible (p : Params) (h : Storage) (index : Nat) : Bool :=
  h.mapped && decide (head.offset p index + p.W ≤ h.data.length)

/-- Modelled from the spec: `head::top(index)`, the current head of the chain
(terminal when the header yields no accessor). -/
def head.top (p : Params) (h : Storage) (index : Nat) : Nat :=
  if head.accessible p h index then decode (peek h.data (head.offset p index) p.W)
  else terminal p

/-- Modelled from the spec: `head::push`; reads `bucket[index]` into the next
slot (the first `W` bytes of the body element at `pos`), then sets
`bucket[index]` to the new link.  Touches nothing when the header yields no
accessor. -/
def head.push (p : Params) (st : State) (link pos index : Nat) : Bool × State :=
  if head.accessible p st.head index then
    (true,
      { head := { st.head with
          data := poke st.head.data (head.offset p index) (encode p.W link) },
        body := { st.body with
          data := poke st.body.data pos (peek st.head.data (head.offset p index) p.W) } })
  else (false, st)

/-! ## writer, reader and element codecs -/

/-- Modelled from the spec: the `finalizer` byte writer over an accessor: the
memory written to, the write position, the position at which the stream (or its
limit) ends, and the validity flag. -/
structure Sink where
  mem : List Byte
  pos : Nat
  stop : Nat
  valid : Bool
deriving DecidableEq, Repr

/-- Modelled from the spec: `skip_bytes` moves the position forward without writing. -/
def Sink.skip_bytes (s : Sink) (n : Nat) : Sink :=
  if s.valid && decide (s.pos + n ≤ s.stop) then { s with pos := s.pos + n }
  else { s with valid := false }

/-- Modelled from the spec: `write_bytes`; an overflowing write invalidates the stream. -/
def Sink.write_bytes (s : Sink) (bs : List Byte) : Sink :=
  if s.valid && decide (s.pos + bs.length ≤ s.stop) then
    { s with mem := poke s.mem s.pos bs, pos := s.pos + bs.length }
  else { s with valid := false }

/-- Modelled from the spec: `set_limit` bounds the bytes still writable. -/
def Sink.set_limit (s : Sink) (n : Nat) : Sink :=
  { s with stop := min s.stop (s.pos + n) }

/-- Modelled from the spec: the `reader` handed to `from_data`: stream validity
and the bytes it can still deliver. -/
structure Source where
  valid : Bool
  bytes : List Byte
deriving DecidableEq, Repr

/-- The caller-supplied element codec: `count()`, `to_data` (the successive
writes it issues and its own verdict; it returns that verdict and the stream
validity, as the records of the tables do with `return sink`), and `from_data`
(which updates the caller's element and returns a flag). -/
structure Codec (α : Type) where
  count : α → Nat
  to_data : α → List (List Byte) × Bool
  from_data : Source → α → Bool × α

/-- Running `element.to_data(sink)`: the sink afterwards and the returned flag. -/
def Codec.run_to_data {α : Type} (c : Codec α) (e : α) (s : Sink) : Sink × Bool :=
  let s1 := (c.to_data e).1.foldl Sink.write_bytes s
  (s1, (c.to_data e).2 && s1.valid)

/-- The sink a `put` prepares before `to_data` runs: a writer over the accessor
at `pos` (reaching to the end of the body), advanced past the next field, with
the key written and, for records, limited to `Size * count` further bytes. -/
def element_sink (p : Params) (mem : List Byte) (pos : Nat) (key : List Byte)
    (count : Nat) : Sink :=
  let sink := ((Sink.mk mem pos mem.length true).skip_bytes p.W).write_bytes key
  if is_slab p then sink else sink.set_limit (p.S * count)

/-- The bytes a reader limited as in `get` delivers out of the bytes that follow it. -/
def limited (p : Params) (bytes : List Byte) : List Byte :=
  if is_slab p then bytes else bytes.take p.S

/-- The source a `get` builds: a reader over the accessor at `pos`, advanced past
the `[next, key]` prefix and, for records, limited to `Size` bytes. -/
def element_source (p : Params) (mem : List Byte) (pos : Nat) : Source :=
  if pos + index_size p ≤ mem.length then
    { valid := true,
      bytes := limited p (mem.drop (pos + index_size p)) }
  else { valid := false, bytes := [] }

/-! ## hashmap -/

/-- The `hashmap::create` member: `head_.create() && head_.get_body_count(count) &&
manager_.truncate(count)`. -/
def hashmap.create (p : Params) (st : State) : Bool × State :=
  let r1 := head.create p st.head
  if r1.1 then
    match head.get_body_count p r1.2 with
    | none => (false, { st with head := r1.2 })
    | some count =>
      let r3 := manager.truncate p st.body count
      (r3.1, { head := r1.2, body := r3.2 })
  else (false, { st with head := r1.2 })

/-- The `hashmap::close` member: `head_.set_body_count(manager_.count())`. -/
def hashmap.close (p : Params) (st : State) : Bool × State :=
  let r := head.set_body_count p st.head (manager.count p st.body)
  (r.1, { st with head := r.2 })

/-- The `hashmap::backup` member: `head_.set_body_count(manager_.count())`. -/
def hashmap.backup (p : Params) (st : State) : Bool × State :=
  let r := head.set_body_count p st.head (manager.count p st.body)
  (r.1, { st with head := r.2 })

/-- The `hashmap::restore` member: `head_.verify() && head_.get_body_count(count) &&
manager_.truncate(count)`. -/
def hashmap.restore (p : Params) (st : State) : Bool × State :=
  if head.verify p st.head then
    match head.get_body_count p st.head with
    | none => (false, st)
    | some count =>
      let r := manager.truncate p st.body count
      (r.1, { st with body := r.2 })
  else (false, st)

/-- The `hashmap::verify` member: `head_.verify() && head_.get_body_count(count) &&
count == manager_.count()`. -/
def hashmap.verify (p : Params) (st : State) : Bool :=
  if head.verify p st.head then
    match head.get_body_count p st.head with
    | none => false
    | some count => count == manager.count p st.body
  else false

/-- The `hashmap::count` member. -/
def hashmap.count (p : Params) (st : State) : Nat := manager.count p st.body

/-- The `hashmap::top(link)` member: terminal for an index beyond the buckets. -/
def hashmap.top (p : Params) (st : State) (link : Nat) : Nat :=
  if link ≥ p.N then terminal p else head.top p st.head link

/-- The loop of `hashmap::first` over the body accessor `mem`, with `fuel`
bounding the number of loop tests (`none`: the loop is still running). -/
def hashmap.first_loop (p : Params) (mem key : List Byte) : Nat → Nat → Option Nat
  | 0, _ => none
  | fuel + 1, link =>
    if is_terminal p link then some link
    else match offset mem (link_to_position p link) with
      | none => some (terminal p)
      | some off =>
        if peek mem (off + p.W) p.K == key.take p.K then some link
        else hashmap.first_loop p mem key fuel (decode (peek mem off p.W))

/-- The `hashmap::first` member. -/
def hashmap.first (p : Params) (st : State) (key : List Byte) (fuel : Nat) : Option Nat :=
  match manager.get st.body with
  | none => some (terminal p)
  | some mem => hashmap.first_loop p mem key fuel (head.top p st.head (head.index p key))

/-- The `hashmap::exists` member: `!first(key).is_terminal()`. -/
def hashmap.exists (p : Params) (st : State) (key : List Byte) (fuel : Nat) : Option Bool :=
  (hashmap.first p st key fuel).map fun link => !is_terminal p link

/-- The `hashmap::allocate` member. -/
def hashmap.allocate (p : Params) (st : State) (size : Nat) : Nat × State :=
  let r := manager.allocate p st.body size
  (r.1, { st with body := r.2 })

/-- The `hashmap::get(link, element)` member. -/
def hashmap.get {α : Type} (p : Params) (c : Codec α) (st : State) (link : Nat)
    (element : α) : Bool × α :=
  match manager.get_link p st.body link with
  | none => (false, element)
  | some pos => c.from_data (element_source p st.body.data pos) element

/-- The `hashmap::set(link, element)` member. -/
def hashmap.set {α : Type} (p : Params) (c : Codec α) (st : State) (link : Nat)
    (element : α) : Bool × State :=
  match manager.get_link p st.body link with
  | none => (false, st)
  | some pos =>
    let sink := (Sink.mk st.body.data pos st.body.data.length true).skip_bytes (index_size p)
    let sink := if is_slab p then sink else sink.set_limit p.S
    let r := c.run_to_data element sink
    (r.2, { st with body := { st.body with data := r.1.mem } })

/-- The `hashmap::set_link(link&, element)` member: the flag, the out link, the state. -/
def hashmap.set_link_out {α : Type} (p : Params) (c : Codec α) (st : State)
    (element : α) : (Bool × Nat) × State :=
  let a := hashmap.allocate p st (c.count element)
  let r := hashmap.set p c a.2 a.1 element
  ((r.1, a.1), r.2)

/-- The `hashmap::set_link(element)` member. -/
def hashmap.set_link {α : Type} (p : Params) (c : Codec α) (st : State)
    (element : α) : Nat × State :=
  let r := hashmap.set_link_out p c st element
  (if r.1.1 then r.1.2 else terminal p, r.2)

/-- The `hashmap::put_link(link&, key, element)` member: the flag, the out link,
the state.  The last line, `element.to_data(sink) && sink.finalize()`, runs the
finalizer (the `head_.push` of the lambda) only when `to_data` returned true and
the writer is still valid. -/
def hashmap.put_link_out {α : Type} (p : Params) (c : Codec α) (st : State)
    (key : List Byte) (element : α) : (Bool × Nat) × State :=
  let count := c.count element
  let a := hashmap.allocate p st count
  let link := a.1
  match manager.get_link p a.2.body link with
  | none => ((false, link), a.2)
  | some pos =>
    let r := c.run_to_data element (element_sink p a.2.body.data pos key count)
    let st2 : State := { a.2 with body := { a.2.body with data := r.1.mem } }
    if r.2 && r.1.valid then
      let f := head.push p st2 link pos (head.index p key)
      ((f.1, link), f.2)
    else ((false, link), st2)

/-- The `hashmap::put_link(key, element)` member. -/
def hashmap.put_link {α : Type} (p : Params) (c : Codec α) (st : State)
    (key : List Byte) (element : α) : Nat × State :=
  let r := hashmap.put_link_out p c st key element
  (if r.1.1 then r.1.2 else terminal p, r.2)

/-- The `hashmap::put(key, element)` member: `!put_link(key, element).is_terminal()`. -/
def hashmap.put {α : Type} (p : Params) (c : Codec α) (st : State)
    (key : List Byte) (element : α) : Bool × State :=
  let r := hashmap.put_link p c st key element
  (!is_terminal p r.1, r.2)

/-- The `hashmap::put(link, key, element)` member; its finalizer is that of
`put_link(link&, key, element)`. -/
def hashmap.put_at {α : Type} (p : Params) (c : Codec α) (st : State) (link : Nat)
    (key : List Byte) (element : α) : Bool × State :=
  let count := c.count element
  match manager.get_link p st.body link with
  | none => (false, st)
  | some pos =>
    let r := c.run_to_data element (element_sink p st.body.data pos key count)
    let st2 : State := { st with body := { st.body with data := r.1.mem } }
    if r.2 && r.1.valid then head.push p st2 link pos (head.index p key)
    else (false, st2)

/-- The `hashmap::commit(link, key)` member. -/
def hashmap.commit (p : Params) (st : State) (link : Nat) (key : List Byte) : Bool × State :=
  match manager.get_link p st.body link with
  | none => (false, st)
  | some pos =>
    let st1 : State :=
      { st with body := { st.body with data := poke st.body.data (pos + p.W) (key.take p.K) } }
    head.push p st1 link pos (head.index p key)

/-- The `hashmap::commit_link(link, key)` member. -/
def hashmap.commit_link (p : Params) (st : State) (link : Nat) (key : List Byte) :
    Nat × State :=
  let r := hashmap.commit p st link key
  (if r.1 then link else terminal p, r.2)

/-- The situation in which a put stops before its finalizer: the link resolves
to no memory, or `to_data` returns false on the sink prepared for it. -/
def put_stops {α : Type} (p : Params) (c : Codec α) (st : State) (link : Nat)
    (key : List Byte) (element : α) : Bool :=
  match manager.get_link p st.body link with
  | none => true
  | some pos =>
    !(c.run_to_data element (element_sink p st.body.data pos key (c.count element))).2

/-! ## Sequences of calls -/

/-- One call of a public mutator of the hash map. -/
inductive Call (α : Type) where
  | allocate (size : Nat)
  | set (link : Nat) (element : α)
  | set_link (element : α)
  | put (key : List Byte) (element : α)
  | put_link (key : List Byte) (element : α)
  | put_at (link : Nat) (key : List Byte) (element : α)
  | commit (link : Nat) (key : List Byte)
  | commit_link (link : Nat) (key : List Byte)

/-- The state a call leaves behind. -/
def Call.run {α : Type} (p : Params) (c : Codec α) (st : State) : Call α → State
  | .allocate size => (hashmap.allocate p st size).2
  | .set link element => (hashmap.set p c st link element).2
  | .set_link element => (hashmap.set_link p c st element).2
  | .put key element => (hashmap.put p c st key element).2
  | .put_link key element => (hashmap.put_link p c st key element).2
  | .put_at link key element => (hashmap.put_at p c st link key element).2
  | .commit link key => (hashmap.commit p st link key).2
  | .commit_link link key => (hashmap.commit_link p st link key).2

/-- The state a sequence of calls leaves behind. -/
def run_calls {α : Type} (p : Params) (c : Codec α) (calls : List (Call α))
    (st : State) : State :=
  calls.foldl (fun s call => call.run p c s) st

/-- The calls that index nothing but an element they allocate themselves
(`allocate`, `set_link`, `put`, `put_link`), and `set` on a record table, whose
writer is limited to the payload of one record. -/
def Call.self_indexing {α : Type} (p : Params) : Call α → Bool
  | .allocate _ => true
  | .set _ _ => !is_slab p
  | .set_link _ => true
  | .put _ _ => true
  | .put_link _ _ => true
  | .put_at _ _ _ => false
  | .commit _ _ => false
  | .commit_link _ _ => false

/-- The next field of the element at a link. -/
def next_of (p : Params) (mem : List Byte) (link : Nat) : Nat :=
  decode (peek mem (link_to_position p link) p.W)

/-- Whether the walk that starts at `link` and follows next fields reaches the
terminal link within `steps` steps. -/
def chain_ends (p : Params) (mem : List Byte) : Nat → Nat → Bool
  | 0, link => is_terminal p link
  | steps + 1, link => is_terminal p link || chain_ends p mem steps (next_of p mem link)

/-- Whether every bucket's walk reaches terminal within `count()` steps. -/
def acyclic (p : Params) (st : State) : Bool :=
  (List.range p.N).all fun b =>
    chain_ends p st.body.data (hashmap.count p st) (hashmap.top p st b)

/-- The links reachable from a chain head: the head itself, if not terminal,
and the links behind its next field. -/
inductive OnChain (p : Params) (mem : List Byte) : Nat → Nat → Prop
  | head (h : Nat) : h ≠ terminal p → OnChain p mem h h
  | behind (h l : Nat) : h ≠ terminal p → OnChain p mem (next_of p mem h) l →
      OnChain p mem h l

/-- A chain in good order below the frontier `F`: every link on it has its next
field in front of `F`, and each next field is terminal or a smaller link. -/
inductive GoodChain (p : Params) (mem : List Byte) (F : Nat) : Nat → Prop
  | ended : GoodChain p mem F (terminal p)
  | link (l : Nat) : l ≠ terminal p → link_to_position p l + p.W ≤ F →
      (next_of p mem l ≠ terminal p → next_of p mem l < l) →
      GoodChain p mem F (next_of p mem l) → GoodChain p mem F l

/-- The invariant of the tables built by self-indexing calls: an intact,
mapped header, a body made of whole units, and every bucket heading a chain in
good order. -/
structure Inv (p : Params) (st : State) : Prop where
  width : 0 < p.W
  head_mapped : st.head.mapped = true
  head_size : st.head.data.length = head.size p
  aligned : stride p ∣ st.body.data.length
  chains : ∀ i, GoodChain p st.body.data st.body.data.length (head.top p st.head i)

/-- A `put` cut short by process death after its allocation and before its
`head.push`: the element is allocated, and of the writes of the put (the key,
then those of `to_data`) only the first `done` have reached the body. -/
def hashmap.put_interrupted {α : Type} (p : Params) (c : Codec α) (st : State)
    (key : List Byte) (element : α) (done : Nat) : State :=
  let a := hashmap.allocate p st (c.count element)
  match manager.get_link p a.2.body a.1 with
  | none => a.2
  | some pos =>
    let sink := (Sink.mk a.2.body.data pos a.2.body.data.length true).skip_bytes p.W
    let sink := ((key :: (c.to_data element).1).take done).foldl Sink.write_bytes sink
    { a.2 with body := { a.2.body with data := sink.mem } }

/-- The book kept along a sequence of calls, in which the conditions on
`put(link, ..)`, `commit`, `commit_link` and `set` are stated: the elements
allocated so far, each with its link and its size in link units, and the links
indexed so far, the newest first. -/
structure Ledger where
  elements : List (Nat × Nat)
  indexed : List Nat
deriving DecidableEq, Repr

/-- Whether an element of at least `bytes` bytes has been allocated at `link`. -/
def Ledger.holds (p : Params) (led : Ledger) (link bytes : Nat) : Bool :=
  led.elements.any fun el => el.1 == link && decide (bytes ≤ link_to_position p el.2)

/-- The book after an allocation of `size` units returned `link`: a terminal
link stands for no element. -/
def Ledger.allocated (p : Params) (led : Ledger) (link size : Nat) : Ledger :=
  if is_terminal p link then led else { led with elements := (link, size) :: led.elements }

/-- The book after a call that indexes `link` when it returns true. -/
def Ledger.pushed (led : Ledger) (ok : Bool) (link : Nat) : Ledger :=
  if ok then { led with indexed := link :: led.indexed } else led

/-- The book after one call made in the state `st`. -/
def Call.track {α : Type} (p : Params) (c : Codec α) (st : State) (led : Ledger) :
    Call α → Ledger
  | .allocate size => led.allocated p (hashmap.allocate p st size).1 size
  | .set _ _ => led
  | .set_link e => led.allocated p (hashmap.allocate p st (c.count e)).1 (c.count e)
  | .put key e =>
    (led.allocated p (hashmap.allocate p st (c.count e)).1 (c.count e)).pushed
      (hashmap.put_link_out p c st key e).1.1 (hashmap.put_link_out p c st key e).1.2
  | .put_link key e =>
    (led.allocated p (hashmap.allocate p st (c.count e)).1 (c.count e)).pushed
      (hashmap.put_link_out p c st key e).1.1 (hashmap.put_link_out p c st key e).1.2
  | .put_at link key e => led.pushed (hashmap.put_at p c st link key e).1 link
  | .commit link key => led.pushed (hashmap.commit p st link key).1 link
  | .commit_link link key => led.pushed (hashmap.commit p st link key).1 link

/-- The calls that respect the elements of the book: `put(link, ..)`, `commit`
and `commit_link` are applied to the link of an allocated element that is not
indexed yet and holds the bytes the call writes (next field, key and, for
`put`, the bytes of `to_data`), and a `set` on a slab table, whose writer has
no limit, stays within the element allocated at its link; or the link resolves
to no memory, and the call fails without a write.  The calls that allocate
their element themselves, and `set` on a record table, whose writer is limited
to the payload of one record, always do. -/
def Call.admissible {α : Type} (p : Params) (c : Codec α) (st : State) (led : Ledger) :
    Call α → Bool
  | .allocate _ => true
  | .set link e =>
    !is_slab p || (manager.get_link p st.body link).isNone ||
      led.holds p link (index_size p + (c.to_data e).1.flatten.length)
  | .set_link _ => true
  | .put _ _ => true
  | .put_link _ _ => true
  | .put_at link key e =>
    (manager.get_link p st.body link).isNone ||
      (!led.indexed.contains link &&
        led.holds p link (p.W + key.length + (c.to_data e).1.flatten.length))
  | .commit link _ =>
    (manager.get_link p st.body link).isNone ||
      (!led.indexed.contains link && led.holds p link (index_size p))
  | .commit_link link _ =>
    (manager.get_link p st.body link).isNone ||
      (!led.indexed.contains link && led.holds p link (index_size p))

/-- Whether every call of a sequence is admissible at its turn, the book being
kept from call to call. -/
def admissible_run {α : Type} (p : Params) (c : Codec α) :
    List (Call α) → State → Ledger → Bool
  | [], _, _ => true
  | call :: rest, st, led =>
    call.admissible p c st led &&
      admissible_run p c rest (call.run p c st) (call.track p c st led)

/-- The links of a list in the order of their indexing, the newest first: the
next field of each is terminal or a link indexed before it. -/
def Ranked (p : Params) (mem : List Byte) : List Nat → Prop
  | [] => True
  | l :: older =>
    (next_of p mem l = terminal p ∨ next_of p mem l ∈ older) ∧ Ranked p mem older

/-- The invariant of the tables built by admissible calls: an intact, mapped
header, a body made of whole units, the allocated elements inside the body and
apart from each other, every indexed link indexed once and the link of an
element that holds its next field, every bucket terminal or an indexed link,
and the next field of every indexed link terminal or a link indexed before. -/
structure Kept (p : Params) (st : State) (led : Ledger) : Prop where
  width : 0 < p.W
  head_mapped : st.head.mapped = true
  head_size : st.head.data.length = head.size p
  aligned : stride p ∣ st.body.data.length
  inside : ∀ el ∈ led.elements,
    link_to_position p el.1 + link_to_position p el.2 ≤ st.body.data.length
  apart : ∀ a ∈ led.elements, ∀ b ∈ led.elements, a.1 ≠ b.1 →
    link_to_position p a.1 + link_to_position p a.2 ≤ link_to_position p b.1 ∨
    link_to_position p b.1 + link_to_position p b.2 ≤ link_to_position p a.1
  nodup : led.indexed.Nodup
  owned : ∀ l ∈ led.indexed, l ≠ terminal p ∧ led.holds p l p.W = true
  tops : ∀ i, head.top p st.head i = terminal p ∨ head.top p st.head i ∈ led.indexed
  ranked : Ranked p st.body.data led.indexed

/-! ## A small concrete table -/

/-- A record table with one-byte links, one-byte keys, one-byte payloads and two
buckets, the bucket chosen by the leading key byte. -/
def tiny : Params := ⟨1, 1, 1, 2, fun key => decode (key.take 1)⟩

/-- A one-record codec storing a single byte. -/
def byte_codec : Codec Byte :=
  { count := fun _ => 1,
    to_data := fun e => ([[e]], true),
    from_data := fun src out =>
      match src.bytes with
      | b :: _ => (src.valid, b)
      | [] => (false, out) }

/-- A codec whose element claims one record but writes two payload bytes. -/
def wide_codec : Codec Byte :=
  { count := fun _ => 1,
    to_data := fun e => ([[e], [e]], true),
    from_data := fun _ out => (false, out) }

/-- A codec whose `count()` is the terminal value of `tiny`. -/
def void_codec : Codec Byte :=
  { count := fun _ => 255,
    to_data := fun e => ([[e]], true),
    from_data := fun _ out => (false, out) }

/-- A codec whose element takes two records of `tiny` and writes two payload
bytes. -/
def pair_codec : Codec Byte :=
  { count := fun _ => 2,
    to_data := fun e => ([[e], [1]], true),
    from_data := fun _ out => (false, out) }

/-- Two mapped, empty files. -/
def blank : State := ⟨{ mapped := true, data := [] }, { mapped := true, data := [] }⟩

/-- The table `tiny` right after `create()`. -/
def fresh : State := (hashmap.create tiny blank).2

/-- The table `tiny` after `put([7], 5)` into the fresh table. -/
def one_put : State := (hashmap.put tiny byte_codec fresh [7] 5).2

/-- The fresh table `tiny` after `allocate(1)`: one element, not indexed. -/
def one_allocated : State := (hashmap.allocate tiny fresh 1).2

/-- The table `tiny` after `put([7], 5)` and then `put([7], 6)`. -/
def two_puts : State := (hashmap.put tiny byte_codec one_put [7] 6).2

/-- A slab table with one-byte links, one-byte keys and two buckets. -/
def tiny_slab : Params := ⟨1, 1, 0, 2, fun key => decode (key.take 1)⟩

/-- A slab codec storing a byte string: `count()` is the size of the whole
element (next field, key and payload). -/
def slab_codec : Codec (List Byte) :=
  { count := fun e => 2 + e.length,
    to_data := fun e => ([e], true),
    from_data := fun src _ => (src.valid, src.bytes) }

/-- The table `tiny_slab` right after `create()`. -/
def fresh_slab : State := (hashmap.create tiny_slab blank).2

/-- The table `tiny_slab` after `put([7], [5])` and `put([7], [6])`: two
elements of three bytes each, at the links 0 and 3. -/
def two_slabs : State :=
  (hashmap.put tiny_slab slab_codec (hashmap.put tiny_slab slab_codec fresh_slab [7] [5]).2
    [7] [6]).2

/-- The state a sequence of completed `put(key, element)` calls leaves behind. -/
def run_puts {α : Type} (p : Params) (c : Codec α) (puts : List (List Byte × α))
    (st : State) : State :=
  run_calls p c (puts.map fun ke => Call.put ke.1 ke.2) st

/-- The table `tiny` after one put, `backup()`, and a second put that died after
writing its key. -/
def crashed_at_once : State :=
  hashmap.put_interrupted tiny byte_codec
    (run_puts tiny byte_codec [] (hashmap.backup tiny one_put).2) [7] 6 1

/-! ## The managers of the primitives tests -/

/-- The slab manager of the tests, `manager<uint32_t, zero>`: four-byte links,
no key, links are byte offsets. -/
def slab32 : Params := ⟨4, 0, 0, 1, fun _ => 0⟩

/-- The record manager `manager<uint16_t, 5u>` of the tests: two-byte links, no
key, records of 5 payload bytes (7 bytes per record). -/
def record16 : Params := ⟨2, 0, 5, 1, fun _ => 0⟩

/-- The record manager `manager<uint32_t, 5u>` of the size tests: four-byte
links, no key, records of 5 payload bytes (9 bytes per record). -/
def record32 : Params := ⟨4, 0, 5, 1, fun _ => 0⟩

/-- The `test::storage` over an initial buffer: it serves memory and holds
exactly the buffer. -/
def buffer_storage (buffer : List Byte) : Storage := { mapped := true, data := buffer }

/-- The links that successive `allocate(n)` calls return, and the body
afterwards. -/
def manager.allocate_all (p : Params) : List Nat → Storage → List Nat × Storage
  | [], b => ([], b)
  | n :: rest, b =>
    ((manager.allocate p b n).1 :: (manager.allocate_all p rest (manager.allocate p b n).2).1,
      (manager.allocate_all p rest (manager.allocate p b n).2).2)

/-- Modelled from the spec: the bytes seen through the accessor that
`manager::get(link)` returns, from its first byte on (`memory::data()`). -/
def manager.get_data (p : Params) (b : Storage) (link : Nat) : Option (List Byte) :=
  (manager.get_link p b link).map fun pos => b.data.drop pos

/-- The slab manager `manager<uint16_t, zero>` of the `get` tests. -/
def slab16 : Params := ⟨2, 0, 0, 1, fun _ => 0⟩

/-- The record manager `manager<uint16_t, 6u>` of the `get` tests: two-byte
links, no key, records of 6 payload bytes (8 bytes per record). -/
def record16_6 : Params := ⟨2, 0, 6, 1, fun _ => 0⟩

/-- The buffer `00 01 .. 0f` of the `get` tests. -/
def sixteen_bytes : List Byte := [0, 1, 2, 3, 4, 5, 6, 7, 8, 9, 10, 11, 12, 13, 14, 15]

/-! ## Stored elements -/

/-- The calls that insert an element they allocate themselves and index it:
`put` and `put_link`. -/
def Call.is_put {α : Type} : Call α → Bool
  | .put _ _ => true
  | .put_link _ _ => true
  | _ => false

/-- The links of the elements stored by the `put` and `put_link` calls of a
sequence: the out link of every such call that succeeded. -/
def stored_links {α : Type} (p : Params) (c : Codec α) : List (Call α) → State → List Nat
  | [], _ => []
  | call :: rest, st =>
    (match call with
      | .put key e =>
        if (hashmap.put_link_out p c st key e).1.1 then
          [(hashmap.put_link_out p c st key e).1.2]
        else []
      | .put_link key e =>
        if (hashmap.put_link_out p c st key e).1.1 then
          [(hashmap.put_link_out p c st key e).1.2]
        else []
      | _ => []) ++ stored_links p c rest (call.run p c st)

/-! ## arraymap -/

/-- Modelled from the spec: `storage::get(position)` as `arraymap` calls it on
its body, the accessor beginning at a byte position (null when the storage
serves no memory or the position is out of range). -/
def storage.get (b : Storage) (position : Nat) : Option Nat :=
  match manager.get b with
  | none => none
  | some mem => offset mem position

/-- The `arraymap::link_to_position` member: the link itself for slabs,
`value * Size` for records. -/
def arraymap.link_to_position (p : Params) (link : Nat) : Nat :=
  if is_slab p then link else link * p.S

/-- The `arraymap::at` member: the reader over the accessor at the position of
the link, limited to `Size` bytes for records; null for the terminal link and
when the body yields no memory. -/
def arraymap.at (p : Params) (b : Storage) (link : Nat) : Option Source :=
  if is_terminal p link then none
  else match storage.get b (arraymap.link_to_position p link) with
    | none => none
    | some pos => some { valid := true, bytes := limited p (b.data.drop pos) }

/-- The `arraymap::get(link, record)` member. -/
def arraymap.get {α : Type} (p : Params) (c : Codec α) (b : Storage) (link : Nat)
    (record : α) : Bool × α :=
  match arraymap.at p b link with
  | none => (false, record)
  | some source => c.from_data source record

/-- A codec that reports whether `from_data` ran, and keeps what it was given. -/
def probe_codec : Codec (List Byte) :=
  { count := fun _ => 1,
    to_data := fun e => ([e], true),
    from_data := fun src _ => (true, src.bytes) }

/-! ## record -/

/-- Modelled from the spec: `element::allocate(size)` of the base class of
`record` (element.ipp is not under src): the manager reserves `size` records,
the element remembers the link, and the memory at that link is returned. -/
def element.allocate (p : Params) (b : Storage) (size : Nat) : (Nat × Option Nat) × Storage :=
  (((manager.allocate p b size).1,
    manager.get_link p (manager.allocate p b size).2 (manager.allocate p b size).1),
   (manager.allocate p b size).2)

/-- The `record::create(next, write)` member over a `record_manager<Link, Size>`
(no key): one record is allocated, a writer over its `sizeof(Link) + Size`
bytes receives `next` little-endian and then the writes of `write`, and the
link of the element is returned.  `none` stands for the dereference of a null
memory pointer. -/
def record.create (p : Params) (b : Storage) (next : Nat) (write : List (List Byte)) :
    Option (Nat × Storage) :=
  match (element.allocate p b 1).1.2 with
  | none => none
  | some start =>
    some ((element.allocate p b 1).1.1,
      { (element.allocate p b 1).2 with
        data := (write.foldl Sink.write_bytes
          ((Sink.mk (element.allocate p b 1).2.data start (start + (p.W + p.S)) true).write_bytes
            (encode p.W next))).mem })

/-- The `record::read(read)` member of the element at `link`: the bytes of the
reader over `[start, start + Size)` that `read` receives, `start` lying
`sizeof(Link)` bytes into the element. -/
def record.read (p : Params) (b : Storage) (link : Nat) : Option (List Byte) :=
  match manager.get_link p b link with
  | none => none
  | some pos => some (peek b.data (pos + p.W) p.S)

/-! ## strong_bk -/

/-- The `strong_bk::record` element: its one member `code` is commented out. -/
structure strong_bk.record where
deriving DecidableEq, Repr

/-- The `strong_bk::record::from_data` member: `return source`, the validity of
the reader, which is handed back as it came (the `BC_ASSERT` is compiled out
of release builds). -/
def strong_bk.record.from_data (source : Source) (r : strong_bk.record) :
    (Bool × strong_bk.record) × Source :=
  ((source.valid, r), source)

/-- The `strong_bk::record::to_data` member: `return sink`, the validity of the
writer, which is handed back as it came. -/
def strong_bk.record.to_data (sink : Sink) (_r : strong_bk.record) : Bool × Sink :=
  (sink.valid, sink)

/-- The `strong_bk::record::operator==` member: `return true`. -/
def strong_bk.record.equals (_a _b : strong_bk.record) : Bool := true

/-- The `strong_bk::record` as the element codec of a hash map: one record, no
write, the validity of the stream as result. -/
def strong_bk.codec : Codec strong_bk.record :=
  { count := fun _ => 1,
    to_data := fun _ => ([], true),
    from_data := fun source r => (strong_bk.record.from_data source r).1 }

/-! ## file_storage -/

/-- A data pointer: `nullptr`, `MAP_FAILED`, or an address. -/
inductive Pointer where
  | null
  | failed
  | addr (address : Nat)
deriving DecidableEq, Repr

/-- What one member call receives from the platform: what `::mmap` and
`::mremap` return, whether `::madvise`, `::msync`, `::munmap`, `::ftruncate`
and `::fsync` succeed (return something other than `FAIL`), and `out_of_range`,
the `size_t` that `static_cast<size_t>` produces from a `double` too large for
it (the language leaves that value open and the call goes on with whatever the
conversion instruction delivers; the x86-64 sequence delivers zero). -/
structure Sys where
  mmap : Pointer
  mremap : Pointer
  madvise : Bool
  msync : Bool
  munmap : Bool
  ftruncate : Bool
  fsync : Bool
  out_of_range : Nat
deriving DecidableEq, Repr

/-- The data members of `file_storage` that its member functions read and
write: `minimum_`, `expansion_`, `mapped_`, `data_`, `capacity_`,
`logical_size_`.  The mutex is left out: calls run one at a time. -/
structure FileStorage where
  minimum : Nat
  expansion : Nat
  mapped : Bool
  data : Pointer
  capacity : Nat
  logical_size : Nat
deriving DecidableEq, Repr

/-- How a member call can fail to return: the `runtime_exception` of a closed
store and the one of a failed resize. -/
inductive Failure where
  | closed
  | resize
deriving DecidableEq, Repr

/-- The constant `file_storage::default_expansion`. -/
def file_storage.default_expansion : Nat := 50

/-- The constant `file_storage::default_capacity`. -/
def file_storage.default_capacity : Nat := 1

/-- The constructor `file_storage(filename, minimum, expansion)`; `size` is what
`file_size(file_handle_)` yields (zero for an invalid handle). -/
def file_storage.construct (size minimum expansion : Nat) : FileStorage :=
  { minimum := minimum, expansion := expansion, mapped := false, data := Pointer.null,
    capacity := size, logical_size := size }

/-- The loop behind `floor_log2`: halving until below two, at most `fuel` times. -/
def floor_log2_loop : Nat → Nat → Nat
  | 0, _ => 0
  | fuel + 1, n => if n < 2 then 0 else floor_log2_loop fuel (n / 2) + 1

/-- The position of the leading bit of a positive number, `⌊log₂ n⌋`. -/
def floor_log2 (n : Nat) : Nat := floor_log2_loop n n

/-- The `binary64` value nearest to a natural number, ties to even (the
conversion of a `size_t` to `double`, and the rounding of an exact sum or
product); numbers below `2 ^ 53` are kept. -/
def to_double (n : Nat) : Nat :=
  if n < 2 ^ 53 then n
  else
    let s := floor_log2 n - 52
    let q := n / 2 ^ s
    let r := n % 2 ^ s
    if 2 ^ s < 2 * r ∨ (2 * r = 2 ^ s ∧ q % 2 = 1) then (q + 1) * 2 ^ s else q * 2 ^ s

/-- The `binary64` value nearest to `a / b` (for `0 < b ≤ a`), ties to even,
given as a numerator over a power of two: the pair `(num, t)` stands for
`num / 2 ^ t`. -/
def double_quotient (a b : Nat) : Nat × Nat :=
  let l := floor_log2 (a / b)
  if l ≤ 52 then
    let t := 52 - l
    let q := a * 2 ^ t / b
    let r := a * 2 ^ t % b
    if b < 2 * r ∨ (2 * r = b ∧ q % 2 = 1) then (q + 1, t) else (q, t)
  else
    let s := l - 52
    let q := a / (b * 2 ^ s)
    let r := a % (b * 2 ^ s)
    if b * 2 ^ s < 2 * r ∨ (2 * r = b * 2 ^ s ∧ q % 2 = 1) then ((q + 1) * 2 ^ s, 0)
    else (q * 2 ^ s, 0)

/-- The whole part of `resize = required * ((expansion + 100.0) / 100.0)` in
`reserve`, evaluated in `binary64` arithmetic: the sum, the quotient and the
product are each rounded to nearest. -/
def double_product (required expansion : Nat) : Nat :=
  let factor := double_quotient (to_double (to_double expansion + 100)) 100
  to_double (to_double required * factor.1) / 2 ^ factor.2

/-- The expression `static_cast<size_t>(resize)` of `reserve`: the product
truncated when it fits a 64-bit `size_t`, and `out_of_range`, what the platform
makes of the conversion, when it does not; `reserve` has no check between the
two lines and goes on either way. -/
def scaled (out_of_range required expansion : Nat) : Nat :=
  if double_product required expansion < 2 ^ 64 then double_product required expansion
  else out_of_range

/-- The `file_storage::validate` member, called right after `data_` received the
result of `::mmap` or `::mremap`. -/
def file_storage.validate (s : FileStorage) (size : Nat) : Bool × FileStorage :=
  if s.data = Pointer.failed then (false, { s with capacity := 0, data := Pointer.null })
  else (true, { s with capacity := size })

/-- The `file_storage::truncate` member: `::ftruncate(file_handle_, size) != FAIL`. -/
def file_storage.truncate (sys : Sys) (_size : Nat) : Bool := sys.ftruncate

/-- The `file_storage::map(size_t)` member; an empty file is first expanded to
`minimum_` (the result of that `truncate` is not looked at). -/
def file_storage.map_size (sys : Sys) (s : FileStorage) (size : Nat) : Bool × FileStorage :=
  if size = 0 then
    file_storage.validate { s with capacity := s.minimum, data := sys.mmap } s.minimum
  else file_storage.validate { s with data := sys.mmap } size

/-- The `file_storage::unmap_` member. -/
def file_storage.unmap_ (sys : Sys) (s : FileStorage) : Bool × FileStorage :=
  (sys.munmap, { s with capacity := 0, data := Pointer.null })

/-- The `file_storage::remap` member; `mremap_maymove` tells whether the macro
`MREMAP_MAYMOVE` is defined. -/
def file_storage.remap (mremap_maymove : Bool) (sys : Sys) (s : FileStorage)
    (size : Nat) : Bool × FileStorage :=
  if mremap_maymove then file_storage.validate { s with data := sys.mremap } size
  else
    let r := file_storage.unmap_ sys s
    if r.1 then file_storage.map_size sys r.2 size else (false, r.2)

/-- The `file_storage::truncate_mapped` member. -/
def file_storage.truncate_mapped (mremap_maymove : Bool) (sys : Sys) (s : FileStorage)
    (size : Nat) : Bool × FileStorage :=
  if mremap_maymove then
    if file_storage.truncate sys size then file_storage.remap mremap_maymove sys s size
    else (false, s)
  else
    let r := file_storage.unmap_ sys s
    if r.1 then
      if file_storage.truncate sys size then file_storage.map_size sys r.2 size
      else (false, r.2)
    else (false, r.2)

/-- The `file_storage::map()` member. -/
def file_storage.map (sys : Sys) (s : FileStorage) : Bool × FileStorage :=
  if s.mapped then (false, s)
  else
    let r := file_storage.map_size sys s s.capacity
    if r.1 then
      if sys.madvise then (true, { r.2 with mapped := true }) else (false, r.2)
    else (false, r.2)

/-- The `file_storage::flush` member (const). -/
def file_storage.flush (sys : Sys) (s : FileStorage) : Bool :=
  if s.mapped then sys.msync else true

/-- The `file_storage::unmap()` member, with its assignment `mapped_ = true`. -/
def file_storage.unmap (sys : Sys) (s : FileStorage) : Bool × FileStorage :=
  if s.mapped then
    let s1 := { s with mapped := true }
    if s1.capacity < s1.logical_size then (false, s1)
    else if sys.msync then
      if sys.munmap then
        if sys.ftruncate then
          if sys.fsync then (true, s1) else (false, s1)
        else (false, s1)
      else (false, s1)
    else (false, s1)
  else (true, s)

/-- The `file_storage::mapped` member. -/
def file_storage.is_mapped (s : FileStorage) : Bool := s.mapped

/-- The `file_storage::access` member: the pointer assigned to the accessor, or
the exception; the store itself is returned as it is. -/
def file_storage.access (s : FileStorage) : Except Failure Pointer × FileStorage :=
  if s.mapped then (Except.ok s.data, s) else (Except.error Failure.closed, s)

/-- The `file_storage::reserve(required, minimum, expansion)` member: the
pointer assigned to the accessor, or the exception, and the store afterwards. -/
def file_storage.reserve_with (mremap_maymove : Bool) (sys : Sys) (s : FileStorage)
    (required minimum expansion : Nat) : Except Failure Pointer × FileStorage :=
  if s.mapped then
    if s.capacity < required then
      let target := max minimum (scaled sys.out_of_range required expansion)
      let r := file_storage.truncate_mapped mremap_maymove sys s target
      if r.1 then (Except.ok r.2.data, { r.2 with logical_size := required })
      else (Except.error Failure.resize, r.2)
    else (Except.ok s.data, { s with logical_size := required })
  else (Except.error Failure.closed, s)

/-- The `file_storage::resize(required)` member: `reserve(required, zero, zero)`. -/
def file_storage.resize (mremap_maymove : Bool) (sys : Sys) (s : FileStorage)
    (required : Nat) : Except Failure Pointer × FileStorage :=
  file_storage.reserve_with mremap_maymove sys s required 0 0

/-- The `file_storage::reserve(required)` member:
`reserve(required, minimum_, expansion_)`. -/
def file_storage.reserve (mremap_maymove : Bool) (sys : Sys) (s : FileStorage)
    (required : Nat) : Except Failure Pointer × FileStorage :=
  file_storage.reserve_with mremap_maymove sys s required s.minimum s.expansion

/-- System calls that all succeed, `mmap` and `mremap` returning addresses, on
a platform whose conversion of a `double` too large for `size_t` gives zero. -/
def all_succeed : Sys :=
  { mmap := Pointer.addr 4096, mremap := Pointer.addr 8192, madvise := true, msync := true,
    munmap := true, ftruncate := true, fsync := true, out_of_range := 0 }

/-- A store over a file of 8 bytes with the default minimum and expansion,
after a successful `map()`. -/
def open_store : FileStorage :=
  (file_storage.map all_succeed
    (file_storage.construct 8 file_storage.default_capacity
      file_storage.default_expansion)).2

/-- A store over a file of 8 bytes with minimum 1 and expansion 13 percent,
after a successful `map()`. -/
def odd_store : FileStorage :=
  (file_storage.map all_succeed (file_storage.construct 8 1 13)).2

/-- A store over a file of 8 bytes with minimum 1 and an expansion of 204800
percent (a factor of 2049), after a successful `map()`. -/
def wide_store : FileStorage :=
  (file_storage.map all_succeed (file_storage.construct 8 1 204800)).2

/-- The constructor `file_storage(filename)`: the default minimum and
expansion. -/
def file_storage.construct_default (size : Nat) : FileStorage :=
  file_storage.construct size file_storage.default_capacity file_storage.default_expansion

/-- One call of a public member of `file_storage`. -/
inductive StoreCall where
  | map
  | flush
  | unmap
  | access
  | resize (required : Nat)
  | reserve (required : Nat)
deriving DecidableEq, Repr

/-- Whether a member call that hands out an accessor returned normally or
threw the closed-store exception. -/
def returned_or_closed : Except Failure Pointer → Bool
  | Except.ok _ => true
  | Except.error Failure.closed => true
  | Except.error Failure.resize => false

/-- One member call under the outcomes `sys` of its system calls: whether the
mapping survived it, and the store afterwards.  The mapping is lost when
`map()` of an unmapped store fails, and when `resize` or `reserve` throws the
resize failure. -/
def StoreCall.run (mremap_maymove : Bool) (sys : Sys) (s : FileStorage) :
    StoreCall → Bool × FileStorage
  | StoreCall.map => (s.mapped || (file_storage.map sys s).1, (file_storage.map sys s).2)
  | StoreCall.flush => (true, s)
  | StoreCall.unmap => (true, (file_storage.unmap sys s).2)
  | StoreCall.access => (true, (file_storage.access s).2)
  | StoreCall.resize required =>
    (returned_or_closed (file_storage.resize mremap_maymove sys s required).1,
      (file_storage.resize mremap_maymove sys s required).2)
  | StoreCall.reserve required =>
    (returned_or_closed (file_storage.reserve mremap_maymove sys s required).1,
      (file_storage.reserve mremap_maymove sys s required).2)

/-- The size a call asks for (zero for the calls without one). -/
def StoreCall.required : StoreCall → Nat
  | StoreCall.resize required => required
  | StoreCall.reserve required => required
  | _ => 0

/-- The whole part of the `double` that a call converts to `size_t` when it has
to grow the file of a store with the given expansion: `resize` multiplies by
the factor of no expansion, `reserve` by that of the store; the other calls
convert nothing. -/
def StoreCall.product (expansion : Nat) : StoreCall → Nat
  | StoreCall.resize required => double_product required 0
  | StoreCall.reserve required => double_product required expansion
  | _ => 0

/-- The store after a sequence of member calls, each with the outcomes of its
system calls. -/
def run_store (mremap_maymove : Bool) : List (Sys × StoreCall) → FileStorage → FileStorage
  | [], s => s
  | (sys, call) :: rest, s =>
    run_store mremap_maymove rest (StoreCall.run mremap_maymove sys s call).2

/-- Whether the mapping survived every call of a sequence. -/
def mapping_kept (mremap_maymove : Bool) : List (Sys × StoreCall) → FileStorage → Bool
  | [], _ => true
  | (sys, call) :: rest, s =>
    (StoreCall.run mremap_maymove sys s call).1 &&
      mapping_kept mremap_maymove rest (StoreCall.run mremap_maymove sys s call).2

/-- System calls of which `::mmap` fails and the others succeed. -/
def mmap_fails : Sys := { all_succeed with mmap := Pointer.failed }

/-- System calls that all fail. -/
def all_fail : Sys :=
  { mmap := Pointer.failed, mremap := Pointer.failed, madvise := false, msync := false,
    munmap := false, ftruncate := false, fsync := false, out_of_range := 0 }

/-! ## The reference chain search -/

/-- The chain search in the words of the specification, as a relation between
the link at which the walk stands and its result: the walk ends at the terminal
link, ends with terminal at a link that resolves to no offset, returns the first
link whose stored key (the `K` bytes after the `W`-byte next field) equals the
key, and otherwise follows the next field of the element. -/
inductive ChainSearch (p : Params) (mem key : List Byte) : Nat → Nat → Prop
  | ended (link : Nat) : link = terminal p → ChainSearch p mem key link (terminal p)
  | fault (link : Nat) : link ≠ terminal p →
      ¬ link_to_position p link < mem.length → ChainSearch p mem key link (terminal p)
  | found (link : Nat) : link ≠ terminal p → link_to_position p link < mem.length →
      peek mem (link_to_position p link + p.W) p.K = key.take p.K →
      ChainSearch p mem key link link
  | next (link result : Nat) : link ≠ terminal p → link_to_position p link < mem.length →
      peek mem (link_to_position p link + p.W) p.K ≠ key.take p.K →
      ChainSearch p mem key (decode (peek mem (link_to_position p link) p.W)) result →
      ChainSearch p mem key link result

/-- The reference result of `first(key)`: terminal when the body serves no
accessor, otherwise the chain search started at `head.top(key)`. -/
def reference_first (p : Params) (st : State) (key : List Byte) (result : Nat) : Prop :=
  if st.body.mapped then
    ChainSearch p st.body.data key (head.top p st.head (head.index p key)) result
  else result = terminal p

/-! ## Bytes and links -/

theorem length_encode (w v : Nat) : (encode w v).length = w := by
  induction w generalizing v with
  | zero => rfl
  | succ n ih => simp [encode, ih]

theorem decode_encode (w v : Nat) : decode (encode w v) = v % 256 ^ w := by
  induction w generalizing v with
  | zero => simp [encode, decode, Nat.mod_one]
  | succ n ih =>
    simp only [encode, decode, ih]
    rw [pow_succ', Nat.mod_mul]

theorem decode_replicate_ones (w : Nat) :
    decode (List.replicate w (255 : Byte)) = 256 ^ w - 1 := by
  induction w with
  | zero => rfl
  | succ n ih =>
    have hpos : 0 < 256 ^ n := by positivity
    simp only [List.replicate_succ, decode, ih, pow_succ]
    have : ((255 : Byte) : Nat) = 255 := rfl
    omega

theorem decode_lt (bs : List Byte) : decode bs < 256 ^ bs.length := by
  induction bs with
  | nil => simp [decode]
  | cons b bs ih =>
    have hb : b.val < 256 := b.isLt
    simp only [decode, List.length_cons, pow_succ]
    omega

theorem length_poke (m : List Byte) (i : Nat) (b : List Byte) :
    (poke m i b).length = m.length := by
  simp only [poke, List.length_append, List.length_take, List.length_drop]
  omega

theorem getElem?_poke (m : List Byte) (i : Nat) (b : List Byte) (j : Nat) :
    (poke m i b)[j]? =
      if i ≤ j ∧ j < i + b.length ∧ j < m.length then b[j - i]? else m[j]? := by
  unfold poke
  by_cases h1 : j < i
  · have hc : ¬ (i ≤ j ∧ j < i + b.length ∧ j < m.length) := by omega
    rw [if_neg hc]
    by_cases h2 : j < m.length
    · rw [List.append_assoc, List.getElem?_append_left (by simp; omega),
        List.getElem?_take_of_lt h1]
    · rw [List.getElem?_eq_none (by simp; omega), List.getElem?_eq_none (by omega)]
  · by_cases h2 : j < m.length
    · by_cases h3 : j < i + b.length
      · have hc : i ≤ j ∧ j < i + b.length ∧ j < m.length := by omega
        rw [if_pos hc, List.append_assoc, List.getElem?_append_right (by simp; omega),
          List.getElem?_append_left (by simp; omega)]
        simp only [List.length_take]
        rw [List.getElem?_take_of_lt (by omega)]
        congr 1
        omega
      · have hc : ¬ (i ≤ j ∧ j < i + b.length ∧ j < m.length) := by omega
        rw [if_neg hc, List.getElem?_append_right (by simp; omega), List.getElem?_drop]
        congr 1
        simp only [List.length_append, List.length_take]
        omega
    · have hl := length_poke m i b
      unfold poke at hl
      rw [List.getElem?_eq_none (by omega)]
      split
      · omega
      · rw [List.getElem?_eq_none (by omega)]

theorem getElem?_peek (m : List Byte) (i n j : Nat) :
    (peek m i n)[j]? = if j < n then m[i + j]? else none := by
  simp [peek, List.getElem?_take, List.getElem?_drop]

theorem length_peek (m : List Byte) (i n : Nat) :
    (peek m i n).length = min n (m.length - i) := by
  simp [peek]

theorem length_peek_of_le (m : List Byte) (i n : Nat) (h : i + n ≤ m.length) :
    (peek m i n).length = n := by
  rw [length_peek]; omega

theorem peek_poke_disjoint (m : List Byte) (i : Nat) (b : List Byte) (j n : Nat)
    (h : j + n ≤ i ∨ i + b.length ≤ j) : peek (poke m i b) j n = peek m j n := by
  apply List.ext_getElem?
  intro k
  rw [getElem?_peek, getElem?_peek]
  split
  · rw [getElem?_poke, if_neg (by omega)]
  · rfl

theorem peek_poke_self (m : List Byte) (i : Nat) (b : List Byte)
    (h : i + b.length ≤ m.length) : peek (poke m i b) i b.length = b := by
  apply List.ext_getElem?
  intro k
  rw [getElem?_peek]
  split
  · rw [getElem?_poke, if_pos (by omega)]
    congr 1
    omega
  · rw [List.getElem?_eq_none (by omega)]

theorem drop_poke_self (m : List Byte) (i : Nat) (b : List Byte)
    (h : i + b.length ≤ m.length) : (poke m i b).drop i = b ++ m.drop (i + b.length) := by
  apply List.ext_getElem?
  intro k
  rw [List.getElem?_drop, getElem?_poke, List.getElem?_append]
  by_cases hk : k < b.length
  · rw [if_pos (by omega), if_pos hk]
    congr 1
    omega
  · rw [if_neg (by omega), if_neg hk, List.getElem?_drop]
    congr 1
    omega

theorem drop_poke_before (m : List Byte) (i : Nat) (b : List Byte) (j : Nat)
    (h : i + b.length ≤ j) : (poke m i b).drop j = m.drop j := by
  apply List.ext_getElem?
  intro k
  rw [List.getElem?_drop, getElem?_poke, if_neg (by omega), List.getElem?_drop]

theorem take_poke_after (m : List Byte) (i : Nat) (b : List Byte) (j : Nat)
    (h : j ≤ i) : (poke m i b).take j = m.take j := by
  apply List.ext_getElem?
  intro k
  rw [List.getElem?_take, List.getElem?_take]
  split
  · rw [getElem?_poke, if_neg (by omega)]
  · rfl

theorem poke_poke_adjacent (m : List Byte) (i : Nat) (a b : List Byte)
    (h : i + a.length + b.length ≤ m.length) :
    poke (poke m i a) (i + a.length) b = poke m i (a ++ b) := by
  apply List.ext_getElem?
  intro k
  rw [getElem?_poke, getElem?_poke, getElem?_poke, length_poke, List.length_append,
    List.getElem?_append]
  by_cases h1 : k < i
  · rw [if_neg (by omega), if_neg (by omega), if_neg (by omega)]
  · by_cases h2 : k < i + a.length
    · rw [if_neg (by omega), if_pos (by omega), if_pos (by omega), if_pos (by omega)]
    · by_cases h3 : k < i + a.length + b.length
      · rw [if_pos (by omega), if_pos (by omega), if_neg (by omega)]
        congr 1
        omega
      · rw [if_neg (by omega), if_neg (by omega), if_neg (by omega)]

theorem poke_nil (m : List Byte) (i : Nat) : poke m i [] = m := by
  apply List.ext_getElem?
  intro k
  rw [getElem?_poke, if_neg (by simp only [List.length_nil]; omega)]

/-! ### The writer -/

theorem foldl_write_bytes_invalid (chunks : List (List Byte)) (s : Sink)
    (h : s.valid = false) : chunks.foldl Sink.write_bytes s = s := by
  induction chunks with
  | nil => rfl
  | cons b bs ih =>
    have e : s.write_bytes b = s := by
      cases s
      simp_all [Sink.write_bytes]
    simp [List.foldl_cons, e, ih]

/-- What a run of writes does: the stream end and the memory length stay, bytes
before the start position stay, and the run is valid exactly when the sink was
valid and all bytes fit, in which case they sit at the start position. -/
theorem foldl_write_bytes (chunks : List (List Byte)) (s : Sink)
    (hs : s.stop ≤ s.mem.length) (hp : s.valid = true → s.pos ≤ s.stop) :
    (chunks.foldl Sink.write_bytes s).stop = s.stop ∧
    (chunks.foldl Sink.write_bytes s).mem.length = s.mem.length ∧
    (∀ j n, j + n ≤ s.pos →
      peek (chunks.foldl Sink.write_bytes s).mem j n = peek s.mem j n) ∧
    ((chunks.foldl Sink.write_bytes s).valid = true ↔
      s.valid = true ∧ s.pos + chunks.flatten.length ≤ s.stop) ∧
    ((chunks.foldl Sink.write_bytes s).valid = true →
      (chunks.foldl Sink.write_bytes s).mem = poke s.mem s.pos chunks.flatten ∧
      (chunks.foldl Sink.write_bytes s).pos = s.pos + chunks.flatten.length) := by
  induction chunks generalizing s with
  | nil => simpa [poke_nil] using hp
  | cons b bs ih =>
    rw [List.foldl_cons]
    by_cases hv : s.valid = true ∧ s.pos + b.length ≤ s.stop
    · have e : s.write_bytes b =
          { s with mem := poke s.mem s.pos b, pos := s.pos + b.length } := by
        simp [Sink.write_bytes, hv.1, hv.2]
      rw [e]
      obtain ⟨i1, i2, i3, i4, i5⟩ :=
        ih { s with mem := poke s.mem s.pos b, pos := s.pos + b.length }
          (by simpa [length_poke] using hs) (fun _ => hv.2)
      simp only [length_poke] at i1 i2 i3 i4 i5
      refine ⟨i1, i2, ?_, ?_, ?_⟩
      · intro j n hj
        rw [i3 j n (by omega), peek_poke_disjoint _ _ _ _ _ (Or.inl hj)]
      · rw [i4]
        simp only [List.flatten_cons, List.length_append, hv.1, true_and]
        omega
      · intro hval
        obtain ⟨m1, m2⟩ := i5 hval
        have hfit := (i4.mp hval).2
        rw [m1, m2, List.flatten_cons, List.length_append,
          poke_poke_adjacent _ _ _ _ (by omega)]
        exact ⟨rfl, by omega⟩
    · have e : s.write_bytes b = { s with valid := false } := by
        unfold Sink.write_bytes
        rw [if_neg]
        simpa using hv
      rw [e, foldl_write_bytes_invalid _ _ rfl]
      refine ⟨rfl, rfl, fun _ _ _ => rfl, ?_, ?_⟩
      · simp only [List.flatten_cons, List.length_append]
        constructor
        · intro h; cases h
        · rintro ⟨h1, h2⟩
          exact absurd ⟨h1, by omega⟩ hv
      · intro h; cases h

theorem get_link_eq_some (p : Params) (b : Storage) (link pos : Nat) :
    manager.get_link p b link = some pos ↔
      link ≠ terminal p ∧ b.mapped = true ∧ link_to_position p link < b.data.length ∧
        pos = link_to_position p link := by
  unfold manager.get_link manager.get offset is_terminal
  by_cases ht : link = terminal p
  · simp [ht]
  · cases hm : b.mapped with
    | false => simp [ht]
    | true =>
      by_cases hr : link_to_position p link < b.data.length
      · simp only [ht, hm, hr, beq_iff_eq, if_false, if_true, Option.some.injEq, ne_eq,
          not_false_eq_true, true_and]
        exact eq_comm
      · simp [ht, hr]

theorem get_link_eq_none (p : Params) (b : Storage) (link : Nat) :
    manager.get_link p b link = none ↔
      (link = terminal p ∨ b.mapped = false ∨ b.data.length ≤ link_to_position p link) := by
  unfold manager.get_link manager.get offset is_terminal
  by_cases ht : link = terminal p
  · simp [ht]
  · cases hm : b.mapped with
    | false => simp [ht]
    | true =>
      by_cases hr : link_to_position p link < b.data.length
      · simp [ht, hr]
      · simp [ht, hr]; omega

/-- What `to_data` leaves behind when run on the sink a `put` prepares. -/
theorem run_element_sink {α : Type} (p : Params) (c : Codec α) (e : α)
    (mem : List Byte) (pos : Nat) (key : List Byte) (n : Nat) :
    (c.run_to_data e (element_sink p mem pos key n)).1.mem.length = mem.length ∧
    (∀ j m, j + m ≤ pos + p.W →
      peek (c.run_to_data e (element_sink p mem pos key n)).1.mem j m = peek mem j m) ∧
    ((c.run_to_data e (element_sink p mem pos key n)).2 = true →
      (c.to_data e).2 = true ∧
      (c.run_to_data e (element_sink p mem pos key n)).1.valid = true ∧
      pos + p.W + key.length + (c.to_data e).1.flatten.length ≤ mem.length ∧
      (is_slab p = false → (c.to_data e).1.flatten.length ≤ p.S * n) ∧
      (c.run_to_data e (element_sink p mem pos key n)).1.mem =
        poke (poke mem (pos + p.W) key) (pos + p.W + key.length) (c.to_data e).1.flatten) := by
  -- the sink after `skip_bytes` and `write_bytes(key)`
  have hsink : ∀ s : Sink, s = element_sink p mem pos key n →
      s.stop ≤ s.mem.length ∧ (s.valid = true → s.pos ≤ s.stop) ∧
      s.mem.length = mem.length ∧
      (∀ j m, j + m ≤ pos + p.W → peek s.mem j m = peek mem j m) ∧
      (s.valid = true →
        pos + p.W + key.length ≤ mem.length ∧ s.pos = pos + p.W + key.length ∧
        s.mem = poke mem (pos + p.W) key ∧
        s.stop = (if is_slab p then mem.length
          else min mem.length (pos + p.W + key.length + p.S * n))) := by
    intro s hs
    subst hs
    unfold element_sink Sink.skip_bytes Sink.write_bytes Sink.set_limit
    by_cases h1 : pos + p.W ≤ mem.length
    · by_cases h2 : pos + p.W + key.length ≤ mem.length
      · cases hsl : is_slab p <;>
          simp [h1, h2, length_poke, Nat.le_refl] <;>
          exact fun j m hj => peek_poke_disjoint _ _ _ _ _ (Or.inl hj)
      · cases hsl : is_slab p <;> simp [h1, h2]
    · cases hsl : is_slab p <;> simp [h1]
  obtain ⟨a1, a2, a3, a4, a5⟩ := hsink _ rfl
  obtain ⟨w1, w2, w3, w4, w5⟩ :=
    foldl_write_bytes (c.to_data e).1 (element_sink p mem pos key n) a1 a2
  unfold Codec.run_to_data
  simp only
  refine ⟨by rw [w2, a3], ?_, ?_⟩
  · intro j m hj
    by_cases hv : (element_sink p mem pos key n).valid = true
    · rw [w3 j m (by rw [(a5 hv).2.1]; omega), a4 j m hj]
    · rw [foldl_write_bytes_invalid _ _ (by simpa using hv), a4 j m hj]
  · intro hok
    rw [Bool.and_eq_true] at hok
    obtain ⟨hverdict, hvalid⟩ := hok
    obtain ⟨hv0, hfit⟩ := w4.mp hvalid
    obtain ⟨b1, b2, b3, b4⟩ := a5 hv0
    obtain ⟨m1, _⟩ := w5 hvalid
    refine ⟨hverdict, hvalid, ?_, ?_, ?_⟩
    · rw [b2, b4] at hfit
      split at hfit <;> omega
    · intro hsl
      rw [b2, b4, hsl] at hfit
      simp only [Bool.false_eq_true, if_false] at hfit
      omega
    · rw [m1, b2, b3]

/-! ### Insertion -/

/-- The duplicated bodies of `put_link(link&, key, element)` and
`put(link, key, element)` agree: the former is `allocate` followed by the latter. -/
theorem put_link_out_eq {α : Type} (p : Params) (c : Codec α) (st : State)
    (key : List Byte) (e : α) :
    hashmap.put_link_out p c st key e =
      (((hashmap.put_at p c (hashmap.allocate p st (c.count e)).2
          (hashmap.allocate p st (c.count e)).1 key e).1,
        (hashmap.allocate p st (c.count e)).1),
       (hashmap.put_at p c (hashmap.allocate p st (c.count e)).2
          (hashmap.allocate p st (c.count e)).1 key e).2) := by
  unfold hashmap.put_link_out hashmap.put_at
  simp only
  cases hg : manager.get_link p (hashmap.allocate p st (c.count e)).2.body
      (hashmap.allocate p st (c.count e)).1 with
  | none => rfl
  | some pos =>
    simp only
    split <;> rfl

theorem push_true (p : Params) (st st' : State) (link pos index : Nat)
    (h : head.push p st link pos index = (true, st')) :
    head.accessible p st.head index = true ∧
    st'.head = { st.head with
      data := poke st.head.data (head.offset p index) (encode p.W link) } ∧
    st'.body = { st.body with
      data := poke st.body.data pos (peek st.head.data (head.offset p index) p.W) } := by
  unfold head.push at h
  split at h
  · rename_i ha
    simp only [Prod.mk.injEq, true_and] at h
    subst h
    exact ⟨ha, rfl, rfl⟩
  · simp at h

theorem push_false (p : Params) (st st' : State) (link pos index : Nat)
    (h : head.push p st link pos index = (false, st')) : st' = st := by
  unfold head.push at h
  split at h
  · simp at h
  · simp only [Prod.mk.injEq, true_and] at h
    exact h.symm

/-- A successful `put(link, key, element)`: the link resolves, everything
written fits, the bucket is accessible, the header differs only in the bucket
(now the link) and the body holds key and payload behind the previous bucket
bytes. -/
theorem put_at_true {α : Type} (p : Params) (c : Codec α) (st st' : State)
    (link : Nat) (key : List Byte) (e : α)
    (h : hashmap.put_at p c st link key e = (true, st')) :
    link ≠ terminal p ∧ st.body.mapped = true ∧
    link_to_position p link + p.W + key.length + (c.to_data e).1.flatten.length
      ≤ st.body.data.length ∧
    (is_slab p = false → (c.to_data e).1.flatten.length ≤ p.S * c.count e) ∧
    (c.to_data e).2 = true ∧
    head.accessible p st.head (head.index p key) = true ∧
    st'.head = { st.head with
      data := poke st.head.data (head.offset p (head.index p key)) (encode p.W link) } ∧
    st'.body = { st.body with
      data := poke
        (poke (poke st.body.data (link_to_position p link + p.W) key)
          (link_to_position p link + p.W + key.length) (c.to_data e).1.flatten)
        (link_to_position p link)
        (peek st.head.data (head.offset p (head.index p key)) p.W) } := by
  unfold hashmap.put_at at h
  cases hg : manager.get_link p st.body link with
  | none => simp [hg] at h
  | some pos =>
    obtain ⟨g1, g2, g3, g4⟩ := (get_link_eq_some p st.body link pos).mp hg
    subst g4
    simp only [hg] at h
    obtain ⟨r1, r2, r3⟩ :=
      run_element_sink p c e st.body.data (link_to_position p link) key (c.count e)
    split at h
    · rename_i hok
      rw [Bool.and_eq_true] at hok
      obtain ⟨q1, q2, q3, q4, q5⟩ := r3 hok.1
      obtain ⟨u1, u2, u3⟩ := push_true p _ _ _ _ _ h
      refine ⟨g1, g2, q3, q4, q1, u1, u2, ?_⟩
      rw [u3]
      simp only [q5]
    · simp at h

/-- A failing `put(link, key, element)` leaves the header as it was. -/
theorem put_at_false {α : Type} (p : Params) (c : Codec α) (st st' : State)
    (link : Nat) (key : List Byte) (e : α)
    (h : hashmap.put_at p c st link key e = (false, st')) : st'.head = st.head := by
  unfold hashmap.put_at at h
  cases hg : manager.get_link p st.body link with
  | none =>
    simp only [hg, Prod.mk.injEq, true_and] at h
    rw [← h]
  | some pos =>
    simp only [hg] at h
    split at h
    · rw [push_false p _ _ _ _ _ h]
    · simp only [Prod.mk.injEq, true_and] at h
      rw [← h]

/-- A successful `commit(link, key)`: the link resolves, the bucket is
accessible, the header differs only in the bucket (now the link), and the body
holds the key behind the previous bucket bytes. -/
theorem commit_true (p : Params) (st st' : State) (link : Nat) (key : List Byte)
    (h : hashmap.commit p st link key = (true, st')) :
    link ≠ terminal p ∧ st.body.mapped = true ∧
    link_to_position p link < st.body.data.length ∧
    head.accessible p st.head (head.index p key) = true ∧
    st'.head = { st.head with
      data := poke st.head.data (head.offset p (head.index p key)) (encode p.W link) } ∧
    st'.body = { st.body with
      data := poke (poke st.body.data (link_to_position p link + p.W) (key.take p.K))
        (link_to_position p link)
        (peek st.head.data (head.offset p (head.index p key)) p.W) } := by
  unfold hashmap.commit at h
  cases hg : manager.get_link p st.body link with
  | none => simp [hg] at h
  | some pos =>
    obtain ⟨g1, g2, g3, g4⟩ := (get_link_eq_some p st.body link pos).mp hg
    subst g4
    simp only [hg] at h
    obtain ⟨u1, u2, u3⟩ := push_true p _ _ _ _ _ h
    exact ⟨g1, g2, g3, u1, u2, u3⟩

/-- Whatever its outcome, `put(link, key, element)` keeps both files' lengths
and mapping flags and every body byte in front of the element. -/
theorem put_at_frame {α : Type} (p : Params) (c : Codec α) (st : State)
    (link : Nat) (key : List Byte) (e : α) :
    (hashmap.put_at p c st link key e).2.body.mapped = st.body.mapped ∧
    (hashmap.put_at p c st link key e).2.body.data.length = st.body.data.length ∧
    (hashmap.put_at p c st link key e).2.head.mapped = st.head.mapped ∧
    (hashmap.put_at p c st link key e).2.head.data.length = st.head.data.length ∧
    (∀ j m, j + m ≤ link_to_position p link →
      peek (hashmap.put_at p c st link key e).2.body.data j m = peek st.body.data j m) := by
  unfold hashmap.put_at
  cases hg : manager.get_link p st.body link with
  | none => simp
  | some pos =>
    obtain ⟨g1, g2, g3, g4⟩ := (get_link_eq_some p st.body link pos).mp hg
    subst g4
    obtain ⟨r1, r2, r3⟩ :=
      run_element_sink p c e st.body.data (link_to_position p link) key (c.count e)
    simp only
    split
    · unfold head.push
      split
      · simp only [length_poke]
        refine ⟨trivial, r1, trivial, trivial, ?_⟩
        intro j m hj
        rw [peek_poke_disjoint _ _ _ _ _ (Or.inl hj), r2 j m (by omega)]
      · exact ⟨rfl, r1, rfl, rfl, fun j m hj => r2 j m (by omega)⟩
    · exact ⟨rfl, r1, rfl, rfl, fun j m hj => r2 j m (by omega)⟩

theorem stride_pos (p : Params) : 0 < stride p := by
  unfold stride is_slab
  by_cases h : p.S = 0
  · simp [h]
  · simp [h]; omega

theorem terminal_lt (p : Params) : terminal p < 256 ^ p.W := by
  have : 0 < 256 ^ p.W := by positivity
  unfold terminal
  omega

/-- The three outcomes of `allocate`: nothing happens and terminal is returned
(terminal size or closed body), or the body grows by `size` zeroed units and the
previous count is returned. -/
theorem allocate_cases (p : Params) (st : State) (n : Nat) :
    (hashmap.allocate p st n = (terminal p, st) ∧
      (n = terminal p ∨ st.body.mapped = false)) ∨
    (n ≠ terminal p ∧ st.body.mapped = true ∧
      hashmap.allocate p st n = (manager.count p st.body,
        { st with body := { st.body with
            data := st.body.data ++ List.replicate (link_to_position p n) 0 } })) := by
  unfold hashmap.allocate manager.allocate is_terminal
  by_cases ht : n = terminal p
  · left
    simp [ht]
  · cases hm : st.body.mapped with
    | false =>
      left
      simp [ht]
    | true =>
      right
      simp [ht, hm]

/-- A successful `put_link(link&, key, element)` in full: the link is the
previous count, the body grew by `count()` units, the element prefix, key and
payload fit into it, and header and body are as `put(link, key, element)`
leaves them. -/
theorem put_link_out_true {α : Type} (p : Params) (c : Codec α) (st st' : State)
    (key : List Byte) (e : α) (link : Nat)
    (h : hashmap.put_link_out p c st key e = ((true, link), st')) :
    link = manager.count p st.body ∧ link ≠ terminal p ∧ c.count e ≠ terminal p ∧
    st.body.mapped = true ∧ (c.to_data e).2 = true ∧
    link_to_position p link + p.W + key.length + (c.to_data e).1.flatten.length
      ≤ st.body.data.length + link_to_position p (c.count e) ∧
    (is_slab p = false → (c.to_data e).1.flatten.length ≤ p.S * c.count e) ∧
    head.accessible p st.head (head.index p key) = true ∧
    st'.head = { st.head with
      data := poke st.head.data (head.offset p (head.index p key)) (encode p.W link) } ∧
    st'.body = { st.body with
      data := poke
        (poke (poke (st.body.data ++ List.replicate (link_to_position p (c.count e)) 0)
            (link_to_position p link + p.W) key)
          (link_to_position p link + p.W + key.length) (c.to_data e).1.flatten)
        (link_to_position p link)
        (peek st.head.data (head.offset p (head.index p key)) p.W) } := by
  rw [put_link_out_eq] at h
  simp only [Prod.mk.injEq] at h
  obtain ⟨⟨h1, h2⟩, h3⟩ := h
  have hput : hashmap.put_at p c (hashmap.allocate p st (c.count e)).2
      (hashmap.allocate p st (c.count e)).1 key e = (true, st') := Prod.ext h1 h3
  obtain ⟨t1, t2, t3, t4, t5, t6, t7, t8⟩ := put_at_true p c _ _ _ _ _ hput
  rcases allocate_cases p st (c.count e) with ⟨ha, _⟩ | ⟨a1, a2, ha⟩
  · rw [ha] at t1
    exact absurd rfl t1
  · rw [ha] at t3 t6 t7 t8 h2
    simp only at t3 t6 t7 t8 h2
    subst h2
    refine ⟨rfl, ?_, a1, a2, t5, ?_, t4, t6, t7, t8⟩
    · rw [ha] at t1; exact t1
    · simpa using t3

/-- A link that is not terminal and at most terminal forces a positive link width. -/
theorem width_pos_of_link (p : Params) (link : Nat) (h1 : link ≠ terminal p)
    (h2 : link ≤ terminal p) : 0 < p.W := by
  rcases Nat.eq_zero_or_pos p.W with h0 | h0
  · exfalso
    apply h1
    simp only [terminal, h0, pow_zero] at h2 ⊢
    omega
  · exact h0

/-- Reading a bucket back after it was set. -/
theorem top_after_poke (p : Params) (h : Storage) (index link : Nat)
    (hacc : head.accessible p h index = true) (hlt : link < 256 ^ p.W) :
    head.top p { h with data := poke h.data (head.offset p index) (encode p.W link) } index
      = link := by
  have hle : head.offset p index + p.W ≤ h.data.length := by
    simp only [head.accessible, Bool.and_eq_true, decide_eq_true_eq] at hacc
    exact hacc.2
  unfold head.top head.accessible
  simp only [length_poke]
  simp only [head.accessible] at hacc
  rw [hacc]
  simp only [if_true]
  have := peek_poke_self h.data (head.offset p index) (encode p.W link)
    (by rw [length_encode]; exact hle)
  rw [length_encode] at this
  rw [this, decode_encode, Nat.mod_eq_of_lt hlt]

/-- After a successful `put_link(link&, key, element)` the key is found at the
new link and the element reads back. -/
theorem put_link_out_lookup {α : Type} (p : Params) (c : Codec α) (st st' : State)
    (key : List Byte) (e : α) (link : Nat)
    (hkey : key.length = p.K)
    (hcap : manager.count p st.body ≤ terminal p)
    (hinv : ∀ rest out,
      c.from_data ⟨true, limited p ((c.to_data e).1.flatten ++ rest)⟩ out = (true, e))
    (hout : hashmap.put_link_out p c st key e = ((true, link), st')) :
    (∀ fuel, hashmap.first p st' key (fuel + 1) = some link) ∧
    (∀ out, hashmap.get p c st' link out = (true, e)) := by
  obtain ⟨k1, k2, k3, k4, k5, k6, k7, k8, k9, k10⟩ := put_link_out_true p c st st' key e link hout
  have hW : 0 < p.W := width_pos_of_link p link k2 (by rw [k1]; exact hcap)
  have hlt : link < 256 ^ p.W := by
    have := terminal_lt p
    omega
  have hacc : head.offset p (head.index p key) + p.W ≤ st.head.data.length := by
    simp only [head.accessible, Bool.and_eq_true, decide_eq_true_eq] at k8
    exact k8.2
  have hHb : (peek st.head.data (head.offset p (head.index p key)) p.W).length = p.W :=
    length_peek_of_le _ _ _ hacc
  have hlen0 : (st.body.data ++ List.replicate (link_to_position p (c.count e)) (0 : Byte)).length
      = st.body.data.length + link_to_position p (c.count e) := by
    simp
  constructor
  · intro fuel
    unfold hashmap.first manager.get
    rw [k10, k9]
    simp only [k4, if_true]
    rw [top_after_poke p st.head _ link k8 hlt]
    unfold hashmap.first_loop
    have hnt : is_terminal p link = false := by simp [is_terminal, k2]
    rw [hnt]
    simp only [Bool.false_eq_true, if_false]
    have hoff : offset (poke
        (poke (poke (st.body.data ++ List.replicate (link_to_position p (c.count e)) 0)
            (link_to_position p link + p.W) key)
          (link_to_position p link + p.W + key.length) (c.to_data e).1.flatten)
        (link_to_position p link)
        (peek st.head.data (head.offset p (head.index p key)) p.W))
        (link_to_position p link) = some (link_to_position p link) := by
      unfold offset
      rw [if_pos]
      simp only [length_poke]
      rw [hlen0]
      omega
    rw [hoff]
    simp only
    rw [peek_poke_disjoint _ _ _ _ _ (Or.inr (by rw [hHb])),
      peek_poke_disjoint _ _ _ _ _ (Or.inl (by omega)), ← hkey,
      peek_poke_self _ _ _ (by rw [hlen0]; omega), List.take_length]
    simp
  · intro out
    unfold hashmap.get
    have hg : manager.get_link p st'.body link = some (link_to_position p link) := by
      rw [get_link_eq_some]
      refine ⟨k2, ?_, ?_, rfl⟩
      · rw [k10]; exact k4
      · rw [k10]
        simp only [length_poke]
        rw [hlen0]
        omega
    rw [hg]
    simp only
    have hsrc : element_source p st'.body.data (link_to_position p link) =
        ⟨true, limited p ((c.to_data e).1.flatten ++
          (poke (st.body.data ++ List.replicate (link_to_position p (c.count e)) 0)
            (link_to_position p link + p.W) key).drop
            (link_to_position p link + p.W + key.length + (c.to_data e).1.flatten.length))⟩ := by
      unfold element_source index_size
      rw [k10]
      simp only [length_poke]
      rw [hlen0, if_pos (by omega), ← hkey, ← Nat.add_assoc,
        drop_poke_before _ _ _ _ (by rw [hHb]; omega),
        drop_poke_self _ _ _ (by simp only [length_poke]; rw [hlen0]; omega)]
    rw [hsrc]
    exact hinv _ out

theorem peek_append_left (a b : List Byte) (j m : Nat) (h : j + m ≤ a.length) :
    peek (a ++ b) j m = peek a j m := by
  apply List.ext_getElem?
  intro k
  rw [getElem?_peek, getElem?_peek]
  split
  · rw [List.getElem?_append_left (by omega)]
  · rfl

theorem peek_zero (mem : List Byte) (n : Nat) : peek mem 0 n = mem.take n := by
  simp [peek]

/-- Two buckets never overlap. -/
theorem bucket_disjoint (p : Params) (i j : Nat) (h : i ≠ j) :
    head.offset p i + p.W ≤ head.offset p j ∨ head.offset p j + p.W ≤ head.offset p i := by
  unfold head.offset
  rcases Nat.lt_or_gt_of_ne h with hlt | hgt
  · left
    have := Nat.mul_le_mul_right p.W (Nat.succ_le_of_lt hlt)
    rw [Nat.succ_mul] at this
    omega
  · right
    have := Nat.mul_le_mul_right p.W (Nat.succ_le_of_lt hgt)
    rw [Nat.succ_mul] at this
    omega

/-- Setting one bucket leaves the other buckets and the body count alone. -/
theorem head_frame_after_poke (p : Params) (h : Storage) (index : Nat) (bs : List Byte)
    (hbs : bs.length = p.W) :
    (∀ i, i ≠ index →
      head.top p { h with data := poke h.data (head.offset p index) bs } i = head.top p h i) ∧
    head.get_body_count p { h with data := poke h.data (head.offset p index) bs }
      = head.get_body_count p h ∧
    head.verify p { h with data := poke h.data (head.offset p index) bs } = head.verify p h := by
  refine ⟨?_, ?_, ?_⟩
  · intro i hi
    unfold head.top head.accessible
    simp only [length_poke]
    rw [peek_poke_disjoint _ _ _ _ _ (by rw [hbs]; exact bucket_disjoint p i index hi)]
  · unfold head.get_body_count
    simp only [length_poke]
    rw [peek_poke_disjoint _ _ _ _ _ (Or.inl (by unfold head.offset; omega))]
  · unfold head.verify
    simp only [length_poke]

/-- After a successful `put_link(link&, key, element)`: the bucket of the key
holds the new link, the next field of the new element holds the previous head,
every other bucket, the body count and the header size are as before. -/
theorem put_link_out_splice {α : Type} (p : Params) (c : Codec α) (st st' : State)
    (key : List Byte) (e : α) (link : Nat)
    (hout : hashmap.put_link_out p c st key e = ((true, link), st')) :
    (manager.count p st.body ≤ terminal p →
      head.top p st'.head (head.index p key) = link) ∧
    decode (peek st'.body.data (link_to_position p link) p.W)
      = head.top p st.head (head.index p key) ∧
    (∀ i, i ≠ head.index p key → head.top p st'.head i = head.top p st.head i) ∧
    head.get_body_count p st'.head = head.get_body_count p st.head ∧
    head.verify p st'.head = head.verify p st.head := by
  obtain ⟨k1, k2, k3, k4, k5, k6, k7, k8, k9, k10⟩ := put_link_out_true p c st st' key e link hout
  have hacc : head.offset p (head.index p key) + p.W ≤ st.head.data.length := by
    simp only [head.accessible, Bool.and_eq_true, decide_eq_true_eq] at k8
    exact k8.2
  have hHb : (peek st.head.data (head.offset p (head.index p key)) p.W).length = p.W :=
    length_peek_of_le _ _ _ hacc
  obtain ⟨f1, f2, f3⟩ := head_frame_after_poke p st.head (head.index p key)
    (encode p.W link) (length_encode _ _)
  rw [k9]
  refine ⟨?_, ?_, f1, f2, f3⟩
  · intro hcap
    have := terminal_lt p
    exact top_after_poke p st.head _ link k8 (by omega)
  · rw [k10]
    simp only
    have := peek_poke_self
      (poke (poke (st.body.data ++ List.replicate (link_to_position p (c.count e)) 0)
          (link_to_position p link + p.W) key)
        (link_to_position p link + p.W + key.length) (c.to_data e).1.flatten)
      (link_to_position p link)
      (peek st.head.data (head.offset p (head.index p key)) p.W)
      (by simp only [length_poke, List.length_append, List.length_replicate]; rw [hHb]; omega)
    rw [hHb] at this
    rw [this]
    unfold head.top
    rw [k8]
    simp

/-- Whatever its outcome, `put_link(link&, key, element)` keeps the mapping
flags and the header size, never shrinks the body, and leaves every body byte
in front of the allocation frontier as it was. -/
theorem put_link_out_frame {α : Type} (p : Params) (c : Codec α) (st : State)
    (key : List Byte) (e : α) :
    (hashmap.put_link_out p c st key e).2.body.mapped = st.body.mapped ∧
    (hashmap.put_link_out p c st key e).2.head.mapped = st.head.mapped ∧
    (hashmap.put_link_out p c st key e).2.head.data.length = st.head.data.length ∧
    st.body.data.length ≤ (hashmap.put_link_out p c st key e).2.body.data.length ∧
    (∀ j m, j + m ≤ link_to_position p (manager.count p st.body) →
      peek (hashmap.put_link_out p c st key e).2.body.data j m = peek st.body.data j m) := by
  rw [put_link_out_eq]
  simp only
  obtain ⟨r1, r2, r3, r4, r5⟩ := put_at_frame p c (hashmap.allocate p st (c.count e)).2
    (hashmap.allocate p st (c.count e)).1 key e
  have hfront : link_to_position p (manager.count p st.body) ≤ st.body.data.length := by
    unfold link_to_position manager.count position_to_link
    exact Nat.div_mul_le_self _ _
  rcases allocate_cases p st (c.count e) with ⟨ha, _⟩ | ⟨a1, a2, ha⟩
  · rw [ha] at r1 r2 r3 r4 r5 ⊢
    simp only at r1 r2 r3 r4 r5 ⊢
    have hg : manager.get_link p st.body (terminal p) = none := by
      rw [get_link_eq_none]; exact Or.inl rfl
    refine ⟨r1, r3, r4, by omega, ?_⟩
    intro j m _
    unfold hashmap.put_at
    rw [hg]
  · rw [ha] at r1 r2 r3 r4 r5 ⊢
    simp only [List.length_append, List.length_replicate] at r1 r2 r3 r4 r5 ⊢
    refine ⟨r1, r3, r4, by omega, ?_⟩
    intro j m hj
    rw [r5 j m hj, peek_append_left _ _ _ _ (by omega)]

/-- The state a successful `create` leaves: an empty body and a fresh header. -/
theorem create_true (p : Params) (st0 st : State) (h : hashmap.create p st0 = (true, st)) :
    0 < p.W ∧ st.head.mapped = true ∧ st.body.mapped = st0.body.mapped ∧
    st.body.data = [] ∧
    st.head.data = encode p.W 0 ++ List.replicate (p.N * p.W) 255 := by
  unfold hashmap.create head.create at h
  cases hm : st0.head.mapped with
  | false => simp [hm] at h
  | true =>
    simp only [hm, if_true] at h
    have hc : head.get_body_count p
        { mapped := true, data := encode p.W 0 ++ List.replicate (p.N * p.W) 255,
          reserved := st0.head.reserved } = some 0 := by
      unfold head.get_body_count
      simp only [List.length_append, length_encode, List.length_replicate, Bool.true_and]
      rw [if_pos (by simp)]
      have := peek_append_left (encode p.W 0) (List.replicate (p.N * p.W) 255) 0 p.W
        (by rw [length_encode]; omega)
      rw [this, peek_zero, List.take_of_length_le (by rw [length_encode]), decode_encode]
      simp
    rw [hc] at h
    simp only [manager.truncate, Prod.mk.injEq] at h
    obtain ⟨h1, h2⟩ := h
    split at h1
    · simp at h1
    · rename_i hcond
      simp only [Bool.or_eq_true, decide_eq_true_eq, not_or, is_terminal, beq_iff_eq] at hcond
      have hW : 0 < p.W := width_pos_of_link p 0 hcond.1 (Nat.zero_le _)
      have hnt : is_terminal p 0 = false := by simp [is_terminal, hcond.1]
      subst h2
      simp [hW, link_to_position, hnt]

/-- In a fresh header every bucket reads terminal. -/
theorem top_fresh (p : Params) (h : Storage)
    (hd : h.data = encode p.W 0 ++ List.replicate (p.N * p.W) 255) (i : Nat) :
    head.top p h i = terminal p := by
  unfold head.top
  split
  · rename_i hacc
    simp only [head.accessible, Bool.and_eq_true, decide_eq_true_eq, hd, List.length_append,
      length_encode, List.length_replicate, head.offset] at hacc
    have e1 : peek h.data (head.offset p i) p.W = List.replicate p.W 255 := by
      apply List.ext_getElem?
      intro k
      rw [getElem?_peek, hd, List.getElem?_replicate]
      split
      · rw [List.getElem?_append_right (by rw [length_encode]; unfold head.offset; omega),
          List.getElem?_replicate, if_pos]
        rw [length_encode]
        unfold head.offset
        omega
      · rfl
    rw [e1, decode_replicate_ones]
    rfl
  · rfl

theorem poke_poke_same (m : List Byte) (i : Nat) (b : List Byte) :
    poke (poke m i b) i b = poke m i b := by
  apply List.ext_getElem?
  intro k
  rw [getElem?_poke, getElem?_poke, length_poke]
  split <;> rfl

/-- A successful `set_body_count`: the header is mapped, holds the count field,
and differs only in that field. -/
theorem set_body_count_true (p : Params) (h h' : Storage) (count : Nat)
    (hs : head.set_body_count p h count = (true, h')) :
    h.mapped = true ∧ p.W ≤ h.data.length ∧
    h' = { h with data := poke h.data 0 (encode p.W count) } := by
  unfold head.set_body_count at hs
  split at hs
  · rename_i hc
    simp only [Bool.and_eq_true, decide_eq_true_eq] at hc
    simp only [Prod.mk.injEq, true_and] at hs
    exact ⟨hc.1, hc.2, hs.symm⟩
  · simp at hs

/-- Truncating to a link within the capacity makes that link the count. -/
theorem count_after_truncate (p : Params) (b b' : Storage) (link : Nat)
    (h : manager.truncate p b link = (true, b')) :
    manager.count p b' = link ∧ b'.mapped = b.mapped ∧ link ≠ terminal p := by
  unfold manager.truncate at h
  split at h
  · simp at h
  · rename_i hc
    simp only [Bool.or_eq_true, decide_eq_true_eq, not_or, not_lt, is_terminal,
      beq_iff_eq] at hc
    simp only [Prod.mk.injEq, true_and] at h
    subst h
    refine ⟨?_, rfl, hc.1⟩
    unfold manager.count position_to_link
    simp only [List.length_take, List.length_append, List.length_replicate]
    rw [Nat.min_eq_left (by omega)]
    unfold link_to_position
    exact Nat.mul_div_cancel _ (stride_pos p)

theorem drop_eq_of_peek (mem : List Byte) (x : Nat) (d : List Byte)
    (h : peek mem x d.length = d) : mem.drop x = d ++ mem.drop (x + d.length) := by
  have := List.take_append_drop d.length (mem.drop x)
  unfold peek at h
  rw [h, List.drop_drop] at this
  exact this.symm

/-- Reading an element whose payload bytes are known: `get` hands `from_data`
a reader over those bytes and what follows them. -/
theorem get_of_peek {α : Type} (p : Params) (c : Codec α) (st : State) (link : Nat)
    (e : α) (d : List Byte)
    (hl : link ≠ terminal p) (hm : st.body.mapped = true)
    (hfit : link_to_position p link + index_size p + d.length ≤ st.body.data.length)
    (hpos : link_to_position p link < st.body.data.length)
    (hd : peek st.body.data (link_to_position p link + index_size p) d.length = d)
    (hinv : ∀ rest out, c.from_data ⟨true, limited p (d ++ rest)⟩ out = (true, e))
    (out : α) : hashmap.get p c st link out = (true, e) := by
  unfold hashmap.get
  rw [(get_link_eq_some p st.body link _).mpr ⟨hl, hm, hpos, rfl⟩]
  simp only
  unfold element_source
  rw [if_pos (by omega), drop_eq_of_peek _ _ _ hd]
  exact hinv _ out

/-- After a successful `put_link(link&, key, element)` the key and the payload
bytes sit behind the next field of the new element. -/
theorem put_link_out_payload {α : Type} (p : Params) (c : Codec α) (st st' : State)
    (key : List Byte) (e : α) (link : Nat)
    (hout : hashmap.put_link_out p c st key e = ((true, link), st')) :
    st'.body.mapped = true ∧
    st'.body.data.length = st.body.data.length + link_to_position p (c.count e) ∧
    link_to_position p link + p.W + key.length + (c.to_data e).1.flatten.length
      ≤ st'.body.data.length ∧
    peek st'.body.data (link_to_position p link + p.W) key.length = key ∧
    peek st'.body.data (link_to_position p link + p.W + key.length)
      (c.to_data e).1.flatten.length = (c.to_data e).1.flatten := by
  obtain ⟨k1, k2, k3, k4, k5, k6, k7, k8, k9, k10⟩ := put_link_out_true p c st st' key e link hout
  have hacc : head.offset p (head.index p key) + p.W ≤ st.head.data.length := by
    simp only [head.accessible, Bool.and_eq_true, decide_eq_true_eq] at k8
    exact k8.2
  have hHb : (peek st.head.data (head.offset p (head.index p key)) p.W).length = p.W :=
    length_peek_of_le _ _ _ hacc
  have hlen0 : (st.body.data ++ List.replicate (link_to_position p (c.count e)) (0 : Byte)).length
      = st.body.data.length + link_to_position p (c.count e) := by
    simp
  rw [k10]
  simp only [length_poke]
  refine ⟨k4, hlen0, by rw [hlen0]; exact k6, ?_, ?_⟩
  · rw [peek_poke_disjoint _ _ _ _ _ (Or.inr (by rw [hHb])),
      peek_poke_disjoint _ _ _ _ _ (Or.inl (by omega)),
      peek_poke_self _ _ _ (by rw [hlen0]; omega)]
  · rw [peek_poke_disjoint _ _ _ _ _ (Or.inr (by rw [hHb]; omega)),
      peek_poke_self _ _ _ (by simp only [length_poke]; rw [hlen0]; omega)]

/-! ### Chains -/

theorem chain_ends_terminal (p : Params) (mem : List Byte) (steps : Nat) :
    chain_ends p mem steps (terminal p) = true := by
  cases steps <;> simp [chain_ends, is_terminal]

theorem chain_ends_mono (p : Params) (mem : List Byte) :
    ∀ (n m link : Nat), n ≤ m → chain_ends p mem n link = true →
      chain_ends p mem m link = true := by
  intro n
  induction n with
  | zero =>
    intro m link _ h
    simp only [chain_ends, is_terminal, beq_iff_eq] at h
    rw [h]
    exact chain_ends_terminal p mem m
  | succ k ih =>
    intro m link hm h
    cases m with
    | zero => omega
    | succ m' =>
      simp only [chain_ends, Bool.or_eq_true] at h ⊢
      rcases h with h | h
      · exact Or.inl h
      · exact Or.inr (ih m' _ (by omega) h)

/-- A chain in good order ends within as many steps as its head link plus one. -/
theorem GoodChain.ends (p : Params) (mem : List Byte) (F : Nat) (l : Nat)
    (h : GoodChain p mem F l) :
    l = terminal p ∨ chain_ends p mem (l + 1) l = true := by
  induction h with
  | ended => exact Or.inl rfl
  | link l hl _ hdesc _ ih =>
    right
    simp only [chain_ends, Bool.or_eq_true]
    right
    by_cases hne : next_of p mem l = terminal p
    · rw [hne]
      exact chain_ends_terminal p mem l
    · rcases ih with ih | ih
      · exact absurd ih hne
      · exact chain_ends_mono p mem _ _ _ (hdesc hne) ih

/-- The head of a chain in good order, if not terminal, has its next field below
the frontier. -/
theorem GoodChain.bound (p : Params) (mem : List Byte) (F : Nat) (l : Nat)
    (h : GoodChain p mem F l) (hl : l ≠ terminal p) : link_to_position p l + p.W ≤ F := by
  cases h with
  | ended => exact absurd rfl hl
  | link _ _ hb _ _ => exact hb

/-- A chain in good order stays so in any memory that agrees on the next
fields below the frontier. -/
theorem GoodChain.frame (p : Params) (mem mem' : List Byte) (F F' : Nat) (l : Nat)
    (h : GoodChain p mem F l) (hF : F ≤ F')
    (hframe : ∀ x, link_to_position p x + p.W ≤ F →
      peek mem' (link_to_position p x) p.W = peek mem (link_to_position p x) p.W) :
    GoodChain p mem' F' l := by
  induction h with
  | ended => exact GoodChain.ended
  | link l hl hb hdesc _ ih =>
    have hn : next_of p mem' l = next_of p mem l := by
      unfold next_of
      rw [hframe l hb]
    apply GoodChain.link l hl (by omega)
    · rw [hn]; exact hdesc
    · rw [hn]; exact ih

/-- Every link on a chain in good order has its next field below the frontier. -/
theorem GoodChain.on_chain (p : Params) (mem : List Byte) (F : Nat) (h l : Nat)
    (hg : GoodChain p mem F h) (ho : OnChain p mem h l) :
    l ≠ terminal p ∧ link_to_position p l + p.W ≤ F := by
  induction ho with
  | head h hh =>
    cases hg with
    | ended => exact absurd rfl hh
    | link _ _ hb _ _ => exact ⟨hh, hb⟩
  | behind h l hh _ ih =>
    cases hg with
    | ended => exact absurd rfl hh
    | link _ _ _ _ hnext => exact ih hnext

/-- A link whose next field lies below the end of an aligned body is below the count. -/
theorem link_lt_count (p : Params) (b : Storage) (l : Nat) (hW : 0 < p.W)
    (ha : stride p ∣ b.data.length)
    (h : link_to_position p l + p.W ≤ b.data.length) : l < manager.count p b := by
  unfold manager.count position_to_link
  unfold link_to_position at h
  have hc := Nat.div_mul_cancel ha
  apply Nat.lt_of_mul_lt_mul_right (a := stride p)
  omega

/-! ### Frames of the other mutators -/

/-- A run of writes touches nothing at or behind the end of the stream. -/
theorem foldl_write_bytes_beyond (chunks : List (List Byte)) (s : Sink) (j m : Nat)
    (hj : s.stop ≤ j) : peek (chunks.foldl Sink.write_bytes s).mem j m = peek s.mem j m := by
  induction chunks generalizing s with
  | nil => rfl
  | cons b bs ih =>
    rw [List.foldl_cons]
    by_cases hv : s.valid = true ∧ s.pos + b.length ≤ s.stop
    · have e : s.write_bytes b =
          { s with mem := poke s.mem s.pos b, pos := s.pos + b.length } := by
        simp [Sink.write_bytes, hv.1, hv.2]
      rw [e, ih { s with mem := poke s.mem s.pos b, pos := s.pos + b.length } hj]
      exact peek_poke_disjoint _ _ _ _ _ (Or.inr (by omega))
    · have e : s.write_bytes b = { s with valid := false } := by
        unfold Sink.write_bytes
        rw [if_neg]
        simpa using hv
      rw [e, foldl_write_bytes_invalid _ _ rfl]

/-- The frame of `set(link, element)`: the header, the mapping flag and the
length of the body stay; so does every body byte in front of the payload of
the element and, on a record table, every byte behind that payload. -/
theorem set_frame {α : Type} (p : Params) (c : Codec α) (st : State) (link : Nat) (e : α) :
    (hashmap.set p c st link e).2.head = st.head ∧
    (hashmap.set p c st link e).2.body.mapped = st.body.mapped ∧
    (hashmap.set p c st link e).2.body.data.length = st.body.data.length ∧
    (∀ j m, j + m ≤ link_to_position p link + index_size p →
      peek (hashmap.set p c st link e).2.body.data j m = peek st.body.data j m) ∧
    (is_slab p = false → ∀ j m, link_to_position p link + index_size p + p.S ≤ j →
      peek (hashmap.set p c st link e).2.body.data j m = peek st.body.data j m) := by
  unfold hashmap.set
  cases hg : manager.get_link p st.body link with
  | none => exact ⟨rfl, rfl, rfl, fun _ _ _ => rfl, fun _ _ _ _ => rfl⟩
  | some pos =>
    obtain ⟨_, _, _, g4⟩ := (get_link_eq_some p st.body link pos).mp hg
    subst g4
    simp only [Codec.run_to_data]
    by_cases hfit : link_to_position p link + index_size p ≤ st.body.data.length
    · have hskip : (Sink.mk st.body.data (link_to_position p link) st.body.data.length
          true).skip_bytes (index_size p) =
          ⟨st.body.data, link_to_position p link + index_size p, st.body.data.length, true⟩ := by
        simp [Sink.skip_bytes, hfit]
      rw [hskip]
      cases hsl : is_slab p with
      | true =>
        simp only [if_true]
        obtain ⟨w1, w2, w3, _, _⟩ := foldl_write_bytes (c.to_data e).1
          ⟨st.body.data, link_to_position p link + index_size p, st.body.data.length, true⟩
          (Nat.le_refl _) (fun _ => hfit)
        exact ⟨trivial, trivial, w2, fun j m hj => w3 j m hj, fun h => by simp at h⟩
      | false =>
        simp only [Bool.false_eq_true, if_false, Sink.set_limit]
        obtain ⟨w1, w2, w3, _, _⟩ := foldl_write_bytes (c.to_data e).1
          ⟨st.body.data, link_to_position p link + index_size p,
            min st.body.data.length (link_to_position p link + index_size p + p.S), true⟩
          (Nat.min_le_left _ _) (fun _ => by simp only [Nat.le_min]; omega)
        refine ⟨trivial, trivial, w2, fun j m hj => w3 j m hj, fun _ j m hj => ?_⟩
        exact foldl_write_bytes_beyond _ _ j m (by simp only; omega)
    · have hskip : (Sink.mk st.body.data (link_to_position p link) st.body.data.length
          true).skip_bytes (index_size p) =
          ⟨st.body.data, link_to_position p link, st.body.data.length, false⟩ := by
        simp [Sink.skip_bytes, hfit]
      rw [hskip]
      cases hsl : is_slab p <;>
        simp only [if_true, Bool.false_eq_true, if_false, Sink.set_limit] <;>
        rw [foldl_write_bytes_invalid _ _ rfl] <;>
        exact ⟨trivial, trivial, rfl, fun _ _ _ => rfl, fun _ _ _ _ => rfl⟩

theorem frontier_eq_length (p : Params) (b : Storage) (ha : stride p ∣ b.data.length) :
    link_to_position p (manager.count p b) = b.data.length := by
  unfold link_to_position manager.count position_to_link
  exact Nat.div_mul_cancel ha

theorem count_mono (p : Params) (b b' : Storage) (h : b.data.length ≤ b'.data.length) :
    manager.count p b ≤ manager.count p b' := by
  unfold manager.count position_to_link
  exact Nat.div_le_div_right h

/-- The invariant after `create()`. -/
theorem Inv.of_create (p : Params) (st0 st : State)
    (h : hashmap.create p st0 = (true, st)) : Inv p st := by
  obtain ⟨hW, c1, _, c3, c4⟩ := create_true p st0 st h
  refine ⟨hW, c1, ?_, ?_, ?_⟩
  · rw [c4]
    simp [head.size, length_encode]
  · rw [c3]
    exact dvd_zero _
  · intro i
    rw [top_fresh p st.head c4 i]
    exact GoodChain.ended

/-- The invariant survives any step that keeps the header, does not shrink the
body, keeps it made of whole units and keeps the next fields in front of the
old end of the body. -/
theorem Inv.of_frame (p : Params) (st st' : State) (h : Inv p st)
    (hhead : st'.head = st.head)
    (hlen : st.body.data.length ≤ st'.body.data.length)
    (hal : stride p ∣ st'.body.data.length)
    (hframe : ∀ x, link_to_position p x + p.W ≤ st.body.data.length →
      peek st'.body.data (link_to_position p x) p.W
        = peek st.body.data (link_to_position p x) p.W) : Inv p st' := by
  refine ⟨h.width, by rw [hhead]; exact h.head_mapped, by rw [hhead]; exact h.head_size,
    hal, ?_⟩
  intro i
  rw [hhead]
  exact GoodChain.frame p _ _ _ _ _ (h.chains i) hlen hframe

theorem Inv.allocate (p : Params) (st : State) (n : Nat) (h : Inv p st) :
    Inv p (hashmap.allocate p st n).2 ∧
    st.body.data.length ≤ (hashmap.allocate p st n).2.body.data.length := by
  rcases allocate_cases p st n with ⟨ha, _⟩ | ⟨_, _, ha⟩
  · rw [ha]
    exact ⟨h, Nat.le_refl _⟩
  · rw [ha]
    simp only [List.length_append, List.length_replicate]
    refine ⟨Inv.of_frame p st _ h rfl (by simp) ?_ ?_, by omega⟩
    · simp only [List.length_append, List.length_replicate, link_to_position]
      exact Dvd.dvd.add h.aligned (Dvd.intro_left _ rfl)
    · intro x hx
      exact peek_append_left _ _ _ _ hx

theorem Inv.set_link {α : Type} (p : Params) (c : Codec α) (st : State) (e : α)
    (h : Inv p st) :
    Inv p (hashmap.set_link p c st e).2 ∧
    st.body.data.length ≤ (hashmap.set_link p c st e).2.body.data.length := by
  have hrun : (hashmap.set_link p c st e).2 =
      (hashmap.set p c (hashmap.allocate p st (c.count e)).2
        (hashmap.allocate p st (c.count e)).1 e).2 := rfl
  rw [hrun]
  obtain ⟨s1, s2, s3, s4, _⟩ := set_frame p c (hashmap.allocate p st (c.count e)).2
    (hashmap.allocate p st (c.count e)).1 e
  obtain ⟨ia, la⟩ := Inv.allocate p st (c.count e) h
  rcases allocate_cases p st (c.count e) with ⟨ha, _⟩ | ⟨_, _, ha⟩
  · rw [ha] at s1 s2 s3 s4 ⊢
    simp only at s1 s3 s4 ⊢
    have hg : manager.get_link p st.body (terminal p) = none :=
      (get_link_eq_none p st.body (terminal p)).mpr (Or.inl rfl)
    have : (hashmap.set p c st (terminal p) e).2 = st := by
      unfold hashmap.set
      rw [hg]
    rw [this]
    exact ⟨h, Nat.le_refl _⟩
  · rw [ha] at s1 s3 s4 ia la ⊢
    simp only [List.length_append, List.length_replicate] at s1 s3 s4 la ⊢
    refine ⟨Inv.of_frame p st _ h s1 (by omega) ?_ ?_, by omega⟩
    · rw [s3]
      have := ia.aligned
      simpa using this
    · intro x hx
      rw [s4 _ _ (by rw [frontier_eq_length p st.body h.aligned]; omega)]
      exact peek_append_left _ _ _ _ hx

theorem Inv.set {α : Type} (p : Params) (c : Codec α) (st : State) (link : Nat) (e : α)
    (hrec : is_slab p = false) (h : Inv p st) :
    Inv p (hashmap.set p c st link e).2 ∧
    st.body.data.length ≤ (hashmap.set p c st link e).2.body.data.length := by
  obtain ⟨s1, s2, s3, s4, s5⟩ := set_frame p c st link e
  refine ⟨Inv.of_frame p st _ h s1 (by omega) (by rw [s3]; exact h.aligned) ?_, by omega⟩
  intro x _
  have hstride : stride p = p.W + p.K + p.S := by simp [stride, hrec]
  unfold link_to_position index_size at s4 s5
  unfold link_to_position
  rcases Nat.lt_or_ge link x with hlt | hge
  · apply s5 hrec
    have := Nat.mul_le_mul_right (stride p) (Nat.succ_le_of_lt hlt)
    rw [Nat.succ_mul] at this
    omega
  · apply s4
    have := Nat.mul_le_mul_right (stride p) hge
    omega

theorem Inv.put_link_out {α : Type} (p : Params) (c : Codec α) (st : State)
    (key : List Byte) (e : α) (h : Inv p st) (hcap : manager.count p st.body ≤ terminal p) :
    Inv p (hashmap.put_link_out p c st key e).2 ∧
    st.body.data.length ≤ (hashmap.put_link_out p c st key e).2.body.data.length := by
  obtain ⟨f1, f2, f3, f4, f5⟩ := put_link_out_frame p c st key e
  refine ⟨?_, f4⟩
  have hfront := frontier_eq_length p st.body h.aligned
  rw [hfront] at f5
  -- the body consists of whole units: it is as long as the allocation made it
  have hal : stride p ∣ (hashmap.put_link_out p c st key e).2.body.data.length := by
    rw [put_link_out_eq]
    simp only
    rw [(put_at_frame p c _ _ key e).2.1]
    exact (Inv.allocate p st (c.count e) h).1.aligned
  cases hflag : (hashmap.put_link_out p c st key e).1.1 with
  | false =>
    have hhead : (hashmap.put_link_out p c st key e).2.head = st.head := by
      rw [put_link_out_eq] at hflag ⊢
      simp only at hflag ⊢
      exact put_at_false p c (hashmap.allocate p st (c.count e)).2 _
        (hashmap.allocate p st (c.count e)).1 key e (Prod.ext hflag rfl)
    exact Inv.of_frame p st _ h hhead f4 hal (fun x hx => f5 _ _ hx)
  | true =>
    have hout : hashmap.put_link_out p c st key e =
        ((true, (hashmap.put_link_out p c st key e).1.2),
          (hashmap.put_link_out p c st key e).2) := Prod.ext (Prod.ext hflag rfl) rfl
    generalize (hashmap.put_link_out p c st key e).1.2 = link at hout
    generalize (hashmap.put_link_out p c st key e).2 = st' at *
    obtain ⟨k1, k2, _, _, _, _, _, k8, k9, _⟩ := put_link_out_true p c st st' key e link hout
    obtain ⟨p1, p2, p3, _, _⟩ := put_link_out_payload p c st st' key e link hout
    obtain ⟨t1, t2, t3, _, _⟩ := put_link_out_splice p c st st' key e link hout
    refine ⟨h.width, by rw [k9]; exact h.head_mapped, ?_, hal, ?_⟩
    · rw [k9]
      simp only [length_poke]
      exact h.head_size
    · intro i
      by_cases hi : i = head.index p key
      · subst hi
        rw [t1 hcap]
        have hold := GoodChain.frame p _ _ _ _ _ (h.chains (head.index p key)) f4
          (fun x hx => f5 _ _ hx)
        have hnext : next_of p st'.body.data link = head.top p st.head (head.index p key) := t2
        apply GoodChain.link link k2 (by omega)
        · rw [hnext]
          intro hne
          have hb := GoodChain.bound p _ _ _ (h.chains (head.index p key)) hne
          rw [← hfront, ← k1] at hb
          unfold link_to_position at hb
          have hw := h.width
          apply Nat.lt_of_mul_lt_mul_right (a := stride p)
          omega
        · rw [hnext]
          exact hold
      · rw [t3 i hi]
        exact GoodChain.frame p _ _ _ _ _ (h.chains i) f4 (fun x hx => f5 _ _ hx)

/-- One self-indexing call keeps the invariant (while the count is a link
value) and never shrinks the body. -/
theorem Inv.step {α : Type} (p : Params) (c : Codec α) (st : State) (call : Call α)
    (hsafe : call.self_indexing p = true) :
    st.body.data.length ≤ (call.run p c st).body.data.length ∧
    (Inv p st → manager.count p st.body ≤ terminal p → Inv p (call.run p c st)) := by
  cases call with
  | allocate n =>
    refine ⟨?_, fun h _ => (Inv.allocate p st n h).1⟩
    rcases allocate_cases p st n with ⟨ha, _⟩ | ⟨_, _, ha⟩ <;>
      simp [Call.run, ha]
  | set link e =>
    have hrec : is_slab p = false := by simpa [Call.self_indexing] using hsafe
    obtain ⟨_, _, s3, _, _⟩ := set_frame p c st link e
    exact ⟨by simp only [Call.run]; omega, fun h _ => (Inv.set p c st link e hrec h).1⟩
  | set_link e =>
    refine ⟨?_, fun h _ => (Inv.set_link p c st e h).1⟩
    have hrun : (hashmap.set_link p c st e).2 =
        (hashmap.set p c (hashmap.allocate p st (c.count e)).2
          (hashmap.allocate p st (c.count e)).1 e).2 := rfl
    simp only [Call.run]
    rw [hrun, (set_frame p c _ _ e).2.2.1]
    rcases allocate_cases p st (c.count e) with ⟨ha, _⟩ | ⟨_, _, ha⟩ <;>
      simp [ha]
  | put key e =>
    exact ⟨(put_link_out_frame p c st key e).2.2.2.1,
      fun h hcap => (Inv.put_link_out p c st key e h hcap).1⟩
  | put_link key e =>
    exact ⟨(put_link_out_frame p c st key e).2.2.2.1,
      fun h hcap => (Inv.put_link_out p c st key e h hcap).1⟩
  | put_at _ _ _ => simp [Call.self_indexing] at hsafe
  | commit _ _ => simp [Call.self_indexing] at hsafe
  | commit_link _ _ => simp [Call.self_indexing] at hsafe

/-- Self-indexing calls keep the invariant as long as the final count is a
link value, and never shrink the body. -/
theorem Inv.after_calls {α : Type} (p : Params) (c : Codec α) (calls : List (Call α)) :
    ∀ (st : State), (∀ call ∈ calls, call.self_indexing p = true) →
      st.body.data.length ≤ (run_calls p c calls st).body.data.length ∧
      (Inv p st → manager.count p (run_calls p c calls st).body ≤ terminal p →
        Inv p (run_calls p c calls st)) := by
  induction calls with
  | nil => intro st _; exact ⟨Nat.le_refl _, fun h _ => h⟩
  | cons call rest ih =>
    intro st hsafe
    obtain ⟨s1, s2⟩ := Inv.step p c st call (hsafe call (List.mem_cons_self _ _))
    obtain ⟨r1, r2⟩ := ih (call.run p c st)
      (fun x hx => hsafe x (List.mem_cons_of_mem _ hx))
    have hrun : run_calls p c (call :: rest) st = run_calls p c rest (call.run p c st) := rfl
    rw [hrun]
    refine ⟨by omega, fun h hcap => r2 (s2 h ?_) hcap⟩
    exact le_trans (count_mono p _ _ (le_trans s1 r1)) hcap

/-- Completed puts never touch the body count stored in the header. -/
theorem body_count_after_puts {α : Type} (p : Params) (c : Codec α)
    (puts : List (List Byte × α)) :
    ∀ st : State, head.get_body_count p (run_puts p c puts st).head
      = head.get_body_count p st.head := by
  induction puts with
  | nil => intro st; rfl
  | cons ke rest ih =>
    intro st
    have hrun : run_puts p c (ke :: rest) st
        = run_puts p c rest (hashmap.put_link_out p c st ke.1 ke.2).2 := rfl
    rw [hrun, ih]
    cases hflag : (hashmap.put_link_out p c st ke.1 ke.2).1.1 with
    | false =>
      have hhead : (hashmap.put_link_out p c st ke.1 ke.2).2.head = st.head := by
        rw [put_link_out_eq] at hflag ⊢
        simp only at hflag ⊢
        exact put_at_false p c (hashmap.allocate p st (c.count ke.2)).2 _
          (hashmap.allocate p st (c.count ke.2)).1 ke.1 ke.2 (Prod.ext hflag rfl)
      rw [hhead]
    | true =>
      have hout : hashmap.put_link_out p c st ke.1 ke.2 =
          ((true, (hashmap.put_link_out p c st ke.1 ke.2).1.2),
            (hashmap.put_link_out p c st ke.1 ke.2).2) := Prod.ext (Prod.ext hflag rfl) rfl
      exact (put_link_out_splice p c st _ ke.1 ke.2 _ hout).2.2.2.1

theorem puts_self_indexing {α : Type} (p : Params) (puts : List (List Byte × α)) :
    ∀ call ∈ puts.map (fun ke => Call.put ke.1 ke.2), call.self_indexing p = true := by
  intro call hcall
  rw [List.mem_map] at hcall
  obtain ⟨ke, _, rfl⟩ := hcall
  rfl

/-! ## The claims -/

theorem first_loop_sound (p : Params) (mem key : List Byte) :
    ∀ (fuel link r : Nat), hashmap.first_loop p mem key fuel link = some r →
      ChainSearch p mem key link r := by
  intro fuel
  induction fuel with
  | zero => intro link r h; simp [hashmap.first_loop] at h
  | succ n ih =>
    intro link r h
    unfold hashmap.first_loop at h
    by_cases ht : link = terminal p
    · subst ht
      simp [is_terminal] at h
      subst h
      exact ChainSearch.ended _ rfl
    · simp only [is_terminal, beq_iff_eq, ht, if_false] at h
      by_cases hr : link_to_position p link < mem.length
      · simp only [offset, hr, if_true] at h
        by_cases hk : peek mem (link_to_position p link + p.W) p.K = key.take p.K
        · simp [hk] at h
          subst h
          exact ChainSearch.found link ht hr hk
        · simp only [beq_iff_eq, hk, if_false] at h
          exact ChainSearch.next link r ht hr hk (ih _ _ h)
      · simp [offset, hr] at h
        subst h
        exact ChainSearch.fault link ht hr

theorem first_loop_complete (p : Params) (mem key : List Byte) (link r : Nat)
    (h : ChainSearch p mem key link r) :
    ∃ fuel, hashmap.first_loop p mem key fuel link = some r := by
  induction h with
  | ended link ht => exact ⟨1, by simp [hashmap.first_loop, is_terminal, ht]⟩
  | fault link ht hr => exact ⟨1, by simp [hashmap.first_loop, is_terminal, ht, offset, hr]⟩
  | found link ht hr hk =>
    exact ⟨1, by simp [hashmap.first_loop, is_terminal, ht, offset, hr, hk]⟩
  | next link result ht hr hk _ ih =>
    obtain ⟨fuel, hf⟩ := ih
    exact ⟨fuel + 1, by simp [hashmap.first_loop, is_terminal, ht, offset, hr, hk, hf]⟩

/-- More fuel never changes a result already produced. -/
theorem first_loop_mono (p : Params) (mem key : List Byte) :
    ∀ (fuel extra link r : Nat), hashmap.first_loop p mem key fuel link = some r →
      hashmap.first_loop p mem key (fuel + extra) link = some r := by
  intro fuel
  induction fuel with
  | zero => intro extra link r h; simp [hashmap.first_loop] at h
  | succ n ih =>
    intro extra link r h
    have e : n + 1 + extra = (n + extra) + 1 := by omega
    rw [e]
    unfold hashmap.first_loop at h ⊢
    by_cases ht : is_terminal p link = true
    · simpa [ht] using h
    · simp only [ht] at h ⊢
      cases ho : offset mem (link_to_position p link) with
      | none => simpa [ho] using h
      | some off =>
        simp only [ho] at h ⊢
        by_cases hk : (peek mem (off + p.W) p.K == key.take p.K) = true
        · simpa [hk] using h
        · simp only [hk] at h ⊢
          exact ih extra _ r h

/-- Claim C1: `hashmap::first(key)` computes exactly the reference chain search
(from `head.top(key)` along the next fields, first link whose stored key equals
the key, terminal at the end of the chain, at a link resolving to no offset, or
when the body serves no accessor), its result does not depend on the fuel
given, and `exists(key)` is the negated terminal test of that result. -/
theorem first_refines_chain_search (p : Params) (st : State) (key : List Byte) :
    (∀ r, (∃ fuel, hashmap.first p st key fuel = some r) ↔ reference_first p st key r) ∧
    (∀ fuel extra r, hashmap.first p st key fuel = some r →
      hashmap.first p st key (fuel + extra) = some r) ∧
    (∀ fuel, hashmap.exists p st key fuel =
      (hashmap.first p st key fuel).map fun r => decide (r ≠ terminal p)) := by
  refine ⟨?_, ?_, ?_⟩
  · intro r
    unfold hashmap.first reference_first manager.get
    cases hm : st.body.mapped with
    | false =>
      simp only [Bool.false_eq_true, if_false, Option.some.injEq, exists_const]
      exact eq_comm
    | true =>
      simp only [if_true]
      constructor
      · rintro ⟨fuel, hf⟩
        exact first_loop_sound p _ key fuel _ r hf
      · intro h
        exact first_loop_complete p _ key _ r h
  · intro fuel extra r
    unfold hashmap.first manager.get
    cases hm : st.body.mapped with
    | false => simp
    | true => simpa using first_loop_mono p _ key fuel extra _ r
  · intro fuel
    unfold hashmap.exists
    cases hashmap.first p st key fuel with
    | none => rfl
    | some r => by_cases hr : r = terminal p <;> simp [is_terminal, hr]

/-- Witness for `first_refines_chain_search`: in the table `tiny` after two puts
under the key `[7]`, the reference search yields link 1, and so does `first`
with more fuel than needed. -/
theorem first_refines_chain_search_witness :
    reference_first tiny two_puts [7] 1 ∧
    hashmap.first tiny two_puts [7] (1 + 5) = some 1 :=
  have h := first_refines_chain_search tiny two_puts [7]
  ⟨(h.1 1).mp ⟨1, by decide⟩, h.2.1 1 5 1 (by decide)⟩

/-- The flag of `put(key, element)` is the flag of `put_link(link&, key, element)`,
whose out link is the allocated one. -/
theorem put_true_iff {α : Type} (p : Params) (c : Codec α) (st : State)
    (key : List Byte) (e : α) (h : (hashmap.put p c st key e).1 = true) :
    hashmap.put_link_out p c st key e =
      ((true, (hashmap.allocate p st (c.count e)).1), (hashmap.put p c st key e).2) := by
  have h1 : (hashmap.put_link_out p c st key e).1.1 = true := by
    by_contra hne
    simp [hashmap.put, hashmap.put_link, hne, is_terminal] at h
  have h2 : (hashmap.put_link_out p c st key e).1.2 = (hashmap.allocate p st (c.count e)).1 := by
    rw [put_link_out_eq]
  apply Prod.ext
  · exact Prod.ext h1 h2
  · rfl

/-- Claim C2: when `put(K, e)` returns true for a key of `K` bytes, in a body
whose count is a link value, and `from_data` inverts `to_data` on the reader
`get` builds, then `first(K)` is the link allocated by that put and `get` of that
link returns true with the inserted element. -/
theorem put_then_first_and_get {α : Type} (p : Params) (c : Codec α) (st : State)
    (key : List Byte) (e : α)
    (hkey : key.length = p.K)
    (hcap : hashmap.count p st ≤ terminal p)
    (hinv : ∀ rest out,
      c.from_data ⟨true, limited p ((c.to_data e).1.flatten ++ rest)⟩ out = (true, e))
    (hput : (hashmap.put p c st key e).1 = true) :
    (∀ fuel, hashmap.first p (hashmap.put p c st key e).2 key (fuel + 1)
      = some (hashmap.allocate p st (c.count e)).1) ∧
    (∀ out, hashmap.get p c (hashmap.put p c st key e).2
      (hashmap.allocate p st (c.count e)).1 out = (true, e)) :=
  put_link_out_lookup p c st _ key e _ hkey hcap hinv (put_true_iff p c st key e hput)

/-- Witness for `put_then_first_and_get`: `put([7], 5)` into the fresh table `tiny`. -/
theorem put_then_first_and_get_witness :
    hashmap.first tiny (hashmap.put tiny byte_codec fresh [7] 5).2 [7] 1 = some 0 ∧
    hashmap.get tiny byte_codec (hashmap.put tiny byte_codec fresh [7] 5).2 0 9 = (true, 5) :=
  have h := put_then_first_and_get tiny byte_codec fresh [7] 5 (by decide) (by decide)
    (fun _ _ => rfl) (by decide)
  ⟨h.1 0, h.2 9⟩

/-- A `put_link(key, element)` that returns a non-terminal link succeeded. -/
theorem put_link_ne_terminal {α : Type} (p : Params) (c : Codec α) (st st' : State)
    (key : List Byte) (e : α) (link : Nat)
    (h : hashmap.put_link p c st key e = (link, st')) (hl : link ≠ terminal p) :
    hashmap.put_link_out p c st key e = ((true, link), st') := by
  unfold hashmap.put_link at h
  simp only [Prod.mk.injEq] at h
  obtain ⟨h1, h2⟩ := h
  cases hf : (hashmap.put_link_out p c st key e).1.1 with
  | false =>
    rw [hf] at h1
    simp only [Bool.false_eq_true, if_false] at h1
    exact absurd h1.symm hl
  | true =>
    rw [hf] at h1
    simp only [if_true] at h1
    exact Prod.ext (Prod.ext hf h1) h2

/-- Claim C3: after a successful `put_link(key, e)` returning link `L` (in a body
whose count is a link value), the bucket `head_.index(key)` holds `L`, the next
field of the element at `L` holds the head `H` that bucket held before, and
every other bucket entry is unchanged. -/
theorem put_link_splices_at_head {α : Type} (p : Params) (c : Codec α) (st st' : State)
    (key : List Byte) (e : α) (L : Nat)
    (hcap : hashmap.count p st ≤ terminal p)
    (hput : hashmap.put_link p c st key e = (L, st')) (hL : L ≠ terminal p) :
    head.top p st'.head (head.index p key) = L ∧
    decode (peek st'.body.data (link_to_position p L) p.W)
      = head.top p st.head (head.index p key) ∧
    (∀ i, i ≠ head.index p key → head.top p st'.head i = head.top p st.head i) := by
  obtain ⟨s1, s2, s3, _, _⟩ :=
    put_link_out_splice p c st st' key e L (put_link_ne_terminal p c st st' key e L hput hL)
  exact ⟨s1 hcap, s2, s3⟩

/-- Witness for `put_link_splices_at_head`: `put_link([7], 5)` into the fresh
table returns link 0, bucket 1 holds it, its next field is terminal, bucket 0
stays terminal. -/
theorem put_link_splices_at_head_witness :
    head.top tiny one_put.head 1 = 0 ∧ decode (peek one_put.body.data 0 1) = 255 ∧
    head.top tiny one_put.head 0 = 255 :=
  have h := put_link_splices_at_head tiny byte_codec fresh one_put [7] 5 0
    (by decide) (by decide) (by decide)
  ⟨h.1, h.2.1, h.2.2 0 (by decide)⟩

/-- Claim C4: two elements put in that order with the same key into a freshly
created table, returning links `L1` then `L2` (the count after the first put
being a link value): `first(key)` is `L2`, the next field of `L2` is `L1`, the
next field of `L1` is terminal, and `get(L1)`, `get(L2)` return the first and
the second element. -/
theorem duplicate_keys_newest_first {α : Type} (p : Params) (c : Codec α)
    (st0 st s1 s2 : State) (key : List Byte) (e1 e2 : α) (L1 L2 : Nat)
    (hkey : key.length = p.K)
    (hcreate : hashmap.create p st0 = (true, st))
    (h1 : hashmap.put_link p c st key e1 = (L1, s1)) (hL1 : L1 ≠ terminal p)
    (h2 : hashmap.put_link p c s1 key e2 = (L2, s2)) (hL2 : L2 ≠ terminal p)
    (hcap : hashmap.count p s1 ≤ terminal p)
    (hinv1 : ∀ rest out,
      c.from_data ⟨true, limited p ((c.to_data e1).1.flatten ++ rest)⟩ out = (true, e1))
    (hinv2 : ∀ rest out,
      c.from_data ⟨true, limited p ((c.to_data e2).1.flatten ++ rest)⟩ out = (true, e2)) :
    (∀ fuel, hashmap.first p s2 key (fuel + 1) = some L2) ∧
    decode (peek s2.body.data (link_to_position p L2) p.W) = L1 ∧
    decode (peek s2.body.data (link_to_position p L1) p.W) = terminal p ∧
    (∀ out, hashmap.get p c s2 L1 out = (true, e1)) ∧
    (∀ out, hashmap.get p c s2 L2 out = (true, e2)) := by
  obtain ⟨hW, c1, c2, c3, c4⟩ := create_true p st0 st hcreate
  have hout1 := put_link_ne_terminal p c st s1 key e1 L1 h1 hL1
  have hout2 := put_link_ne_terminal p c s1 s2 key e2 L2 h2 hL2
  -- the first put
  have hcount0 : manager.count p st.body = 0 := by
    simp [manager.count, position_to_link, c3]
  obtain ⟨a1, _, _, _, _, _, _, _, _, _⟩ := put_link_out_true p c st s1 key e1 L1 hout1
  have hL1z : L1 = 0 := by rw [a1, hcount0]
  obtain ⟨p1, p2, p3, p4, p5⟩ := put_link_out_payload p c st s1 key e1 L1 hout1
  obtain ⟨t1, t2, _, _, _⟩ := put_link_out_splice p c st s1 key e1 L1 hout1
  have htop1 : head.top p s1.head (head.index p key) = L1 := t1 (by rw [hcount0]; omega)
  rw [top_fresh p st.head c4] at t2
  -- the second put
  obtain ⟨b1, _, _, _, _, _, _, _, _, _⟩ := put_link_out_true p c s1 s2 key e2 L2 hout2
  obtain ⟨q1, q2, q3, q4, q5⟩ := put_link_out_payload p c s1 s2 key e2 L2 hout2
  obtain ⟨u1, u2, _, _, _⟩ := put_link_out_splice p c s1 s2 key e2 L2 hout2
  obtain ⟨f1, _, _, f4, f5⟩ := put_link_out_frame p c s1 key e2
  rw [hout2] at f1 f4 f5
  simp only at f1 f4 f5
  obtain ⟨l1, l2⟩ := put_link_out_lookup p c s1 s2 key e2 L2 hkey hcap hinv2 hout2
  -- the frontier after the first put is the end of its body
  have hfront : link_to_position p (manager.count p s1.body) = s1.body.data.length := by
    rw [p2, c3]
    unfold manager.count position_to_link link_to_position
    rw [p2, c3]
    simp only [List.length_nil, Nat.zero_add, link_to_position]
    rw [Nat.mul_div_cancel _ (stride_pos p)]
  have hpos1 : link_to_position p L1 = 0 := by rw [hL1z]; simp [link_to_position]
  rw [hpos1] at p3 p4 p5 t2
  simp only [Nat.zero_add] at p3 p4 p5
  refine ⟨l1, ?_, ?_, ?_, l2⟩
  · rw [u2, htop1]
  · rw [hpos1, f5 0 p.W (by rw [hfront]; omega), t2]
  · intro out
    apply get_of_peek p c s2 L1 e1 (c.to_data e1).1.flatten
      (by rw [hL1z] at hL1 ⊢; exact hL1) (by rw [f1]; exact p1)
    · rw [hpos1]; unfold index_size; omega
    · rw [hpos1]; omega
    · rw [hpos1]
      unfold index_size
      rw [Nat.zero_add, ← hkey, f5 _ _ (by rw [hfront]; omega)]
      exact p5
    · exact hinv1

/-- Witness for `duplicate_keys_newest_first`: the bytes 5 then 6 put under the
key `[7]` into the fresh table `tiny`. -/
theorem duplicate_keys_newest_first_witness :
    hashmap.first tiny two_puts [7] 1 = some 1 ∧
    decode (peek two_puts.body.data 3 1) = 0 ∧
    decode (peek two_puts.body.data 0 1) = 255 ∧
    hashmap.get tiny byte_codec two_puts 0 9 = (true, 5) ∧
    hashmap.get tiny byte_codec two_puts 1 9 = (true, 6) :=
  have h := duplicate_keys_newest_first tiny byte_codec blank fresh one_put two_puts [7] 5 6 0 1
    (by decide) (by decide) (by decide) (by decide) (by decide) (by decide) (by decide)
    (fun _ _ => rfl) (fun _ _ => rfl)
  ⟨h.1 0, h.2.1, h.2.2.1, h.2.2.2.1 9, h.2.2.2.2 9⟩

/-- Claim C5 (deferred index commit): when the allocated link resolves to no
memory or `to_data` returns false, `put_link(link&, key, e)` returns false,
`put_link(key, e)` returns terminal, `put(key, e)` returns false, the header is
byte for byte what it was and the next field of the allocated element is not
written; likewise `put(link, key, e)` returns false and leaves the header and
the next field alone when its link resolves to no memory or `to_data` returns
false. -/
theorem failed_put_never_pushes {α : Type} (p : Params) (c : Codec α) (st : State)
    (link : Nat) (key : List Byte) (e : α) :
    (put_stops p c (hashmap.allocate p st (c.count e)).2
        (hashmap.allocate p st (c.count e)).1 key e = true →
      (hashmap.put_link_out p c st key e).1.1 = false ∧
      (hashmap.put_link p c st key e).1 = terminal p ∧
      (hashmap.put p c st key e).1 = false ∧
      (hashmap.put_link_out p c st key e).2.head = st.head ∧
      (hashmap.put_link p c st key e).2.head = st.head ∧
      (hashmap.put p c st key e).2.head = st.head ∧
      (∀ pos, manager.get_link p (hashmap.allocate p st (c.count e)).2.body
          (hashmap.allocate p st (c.count e)).1 = some pos →
        peek (hashmap.put p c st key e).2.body.data pos p.W
          = peek (hashmap.allocate p st (c.count e)).2.body.data pos p.W)) ∧
    (put_stops p c st link key e = true →
      (hashmap.put_at p c st link key e).1 = false ∧
      (hashmap.put_at p c st link key e).2.head = st.head ∧
      (∀ pos, manager.get_link p st.body link = some pos →
        peek (hashmap.put_at p c st link key e).2.body.data pos p.W
          = peek st.body.data pos p.W)) := by
  have key_fact : ∀ (s : State) (l : Nat), put_stops p c s l key e = true →
      (hashmap.put_at p c s l key e).1 = false ∧
      (hashmap.put_at p c s l key e).2.head = s.head ∧
      (∀ pos, manager.get_link p s.body l = some pos →
        peek (hashmap.put_at p c s l key e).2.body.data pos p.W
          = peek s.body.data pos p.W) := by
    intro s l hs
    unfold put_stops at hs
    unfold hashmap.put_at
    cases hg : manager.get_link p s.body l with
    | none => exact ⟨rfl, rfl, fun pos hpos => by simp at hpos⟩
    | some pos =>
      rw [hg] at hs
      simp only [Bool.not_eq_true'] at hs
      simp only [hs, Bool.false_and, Bool.false_eq_true, if_false, true_and]
      intro pos' hpos'
      simp only [Option.some.injEq] at hpos'
      subst hpos'
      exact (run_element_sink p c e s.body.data pos key (c.count e)).2.1 pos p.W
        (Nat.le_refl _)
  refine ⟨?_, key_fact st link⟩
  intro hs
  obtain ⟨f1, f2, f3⟩ := key_fact _ _ hs
  have hhead : (hashmap.allocate p st (c.count e)).2.head = st.head := rfl
  have e1 : (hashmap.put_link_out p c st key e).1.1 = false := by
    rw [put_link_out_eq]; exact f1
  have e2 : (hashmap.put_link_out p c st key e).2.head = st.head := by
    rw [put_link_out_eq]; exact f2.trans hhead
  have e3 : (hashmap.put p c st key e).2 = (hashmap.put_at p c
      (hashmap.allocate p st (c.count e)).2 (hashmap.allocate p st (c.count e)).1 key e).2 := by
    show (hashmap.put_link_out p c st key e).2 = _
    rw [put_link_out_eq]
  refine ⟨e1, ?_, ?_, e2, e2, e2, ?_⟩
  · simp [hashmap.put_link, e1]
  · simp [hashmap.put, hashmap.put_link, e1, is_terminal]
  · intro pos hpos
    rw [e3]
    exact f3 pos hpos

/-- Witness for `failed_put_never_pushes`: an element whose `count()` is terminal
makes the allocation fail, and an element writing two bytes into a one-byte
record makes `to_data` return false. -/
theorem failed_put_never_pushes_witness :
    (hashmap.put tiny void_codec fresh [7] 5).1 = false ∧
    (hashmap.put tiny void_codec fresh [7] 5).2.head = fresh.head ∧
    (hashmap.put_at tiny wide_codec one_allocated 0 [7] 5).1 = false ∧
    (hashmap.put_at tiny wide_codec one_allocated 0 [7] 5).2.head = one_allocated.head ∧
    peek (hashmap.put_at tiny wide_codec one_allocated 0 [7] 5).2.body.data 0 1
      = peek one_allocated.body.data 0 1 :=
  have h1 := (failed_put_never_pushes tiny void_codec fresh 0 [7] 5).1 (by decide)
  have h2 := (failed_put_never_pushes tiny wide_codec one_allocated 0 [7] 5).2 (by decide)
  ⟨h1.2.2.1, h1.2.2.2.2.2.1, h2.1, h2.2.1, h2.2.2 0 (by decide)⟩

/-- Claim C8: when `create()` returns true, whatever the bucket count and the
previous content of the files, the body count is zero, `head.body_count` is
zero, every bucket is terminal, `first(key)` is terminal and `exists(key)` is
false for every key. -/
theorem create_gives_empty_table (p : Params) (st0 st : State)
    (h : hashmap.create p st0 = (true, st)) :
    hashmap.count p st = 0 ∧ head.get_body_count p st.head = some 0 ∧
    (∀ i, head.top p st.head i = terminal p) ∧
    (∀ i, hashmap.top p st i = terminal p) ∧
    (∀ key fuel, hashmap.first p st key (fuel + 1) = some (terminal p)) ∧
    (∀ key fuel, hashmap.exists p st key (fuel + 1) = some false) := by
  obtain ⟨hW, c1, c2, c3, c4⟩ := create_true p st0 st h
  have htop : ∀ i, head.top p st.head i = terminal p := top_fresh p st.head c4
  have hfirst : ∀ key fuel, hashmap.first p st key (fuel + 1) = some (terminal p) := by
    intro key fuel
    unfold hashmap.first manager.get
    split
    · simp
    · rename_i mem hmem
      rw [htop]
      simp [hashmap.first_loop, is_terminal]
  refine ⟨?_, ?_, htop, ?_, hfirst, ?_⟩
  · simp [hashmap.count, manager.count, position_to_link, c3]
  · unfold head.get_body_count
    rw [c1, c4]
    simp only [List.length_append, length_encode, List.length_replicate, Bool.true_and]
    rw [if_pos (by simp), peek_append_left _ _ _ _ (by rw [length_encode]; omega), peek_zero,
      List.take_of_length_le (by rw [length_encode]), decode_encode]
    simp
  · intro i
    unfold hashmap.top
    split
    · rfl
    · exact htop i
  · intro key fuel
    simp [hashmap.exists, hfirst, is_terminal]

/-- Witness for `create_gives_empty_table`: `create()` of the table `tiny` over
two empty files. -/
theorem create_gives_empty_table_witness :
    hashmap.count tiny fresh = 0 ∧ head.get_body_count tiny fresh.head = some 0 ∧
    head.top tiny fresh.head 1 = 255 ∧ hashmap.first tiny fresh [7] 1 = some 255 ∧
    hashmap.exists tiny fresh [7] 1 = some false :=
  have h := create_gives_empty_table tiny blank fresh (by decide)
  ⟨h.1, h.2.1, h.2.2.1 1, h.2.2.2.2.1 [7] 0, h.2.2.2.2.2 [7] 0⟩

/-- What a successful `head_.set_body_count(manager_.count())` leaves behind,
the count being a link value: the header records the count, the body and the
buckets are as before, and recording the count again changes nothing. -/
theorem persisted_count (p : Params) (st st' : State)
    (hcap : hashmap.count p st ≤ terminal p)
    (hs : head.set_body_count p st.head (manager.count p st.body) = (true, st'.head))
    (hbody : st'.body = st.body) :
    head.get_body_count p st'.head = some (manager.count p st'.body) ∧
    st'.body = st.body ∧
    (∀ i, head.top p st'.head i = head.top p st.head i) ∧
    hashmap.verify p st' = head.verify p st'.head ∧
    hashmap.backup p st' = (true, st') := by
  obtain ⟨m1, m2, m3⟩ := set_body_count_true p _ _ _ hs
  have hlt : manager.count p st.body < 256 ^ p.W := by
    have := terminal_lt p
    unfold hashmap.count at hcap
    omega
  have hcount : head.get_body_count p st'.head = some (manager.count p st'.body) := by
    rw [m3, hbody]
    unfold head.get_body_count
    simp only [length_poke, m1, Bool.true_and]
    rw [if_pos (by simpa using m2)]
    have := peek_poke_self st.head.data 0 (encode p.W (manager.count p st.body))
      (by rw [length_encode]; omega)
    rw [length_encode] at this
    rw [this, decode_encode, Nat.mod_eq_of_lt hlt]
  refine ⟨hcount, hbody, ?_, ?_, ?_⟩
  · intro i
    rw [m3]
    unfold head.top head.accessible
    simp only [length_poke]
    rw [peek_poke_disjoint _ _ _ _ _
      (Or.inr (by rw [length_encode]; unfold head.offset; omega))]
  · unfold hashmap.verify
    rw [hcount]
    cases head.verify p st'.head <;> simp
  · unfold hashmap.backup head.set_body_count
    rw [hbody, m3]
    simp only [length_poke, m1, Bool.true_and, poke_poke_same]
    rw [if_pos (by simpa using m2)]
    simp only [Prod.mk.injEq, true_and]
    cases st' with
    | mk hd bd =>
      simp only at m3 hbody
      rw [m3, hbody, m1]

/-- Claim C9: `close()` returns true exactly when the header serves its first
`W` bytes, and so does `backup()`; and when `close()` returns true, and
likewise when `backup()` returns true (the body count being a link value),
`head.body_count` equals `manager.count()`, the body and every bucket entry are
unchanged, `verify()` then agrees with `head.verify()`, and a further
`backup()` returns true and changes nothing. -/
theorem close_backup_persist_count (p : Params) (st : State)
    (hcap : hashmap.count p st ≤ terminal p) :
    ((hashmap.close p st).1 = true ↔
      st.head.mapped = true ∧ p.W ≤ st.head.data.length) ∧
    ((hashmap.backup p st).1 = true ↔
      st.head.mapped = true ∧ p.W ≤ st.head.data.length) ∧
    (∀ st', hashmap.close p st = (true, st') →
      head.get_body_count p st'.head = some (manager.count p st'.body) ∧
      st'.body = st.body ∧
      (∀ i, head.top p st'.head i = head.top p st.head i) ∧
      hashmap.verify p st' = head.verify p st'.head ∧
      hashmap.backup p st' = (true, st')) ∧
    (∀ st', hashmap.backup p st = (true, st') →
      head.get_body_count p st'.head = some (manager.count p st'.body) ∧
      st'.body = st.body ∧
      (∀ i, head.top p st'.head i = head.top p st.head i) ∧
      hashmap.verify p st' = head.verify p st'.head ∧
      hashmap.backup p st' = (true, st')) := by
  refine ⟨?_, ?_, fun st' h => ?_, fun st' h => ?_⟩
  · unfold hashmap.close head.set_body_count
    split_ifs with hc <;> simp_all
  · unfold hashmap.backup head.set_body_count
    split_ifs with hc <;> simp_all
  · unfold hashmap.close at h
    simp only [Prod.mk.injEq] at h
    exact persisted_count p st st' hcap (Prod.ext h.1 (by rw [← h.2])) (by rw [← h.2])
  · unfold hashmap.backup at h
    simp only [Prod.mk.injEq] at h
    exact persisted_count p st st' hcap (Prod.ext h.1 (by rw [← h.2])) (by rw [← h.2])

/-- Witness for `close_backup_persist_count`: `close()` after one put returns
true and records the count 1, and so does `backup()`. -/
theorem close_backup_persist_count_witness :
    (hashmap.close tiny one_put).1 = true ∧
    head.get_body_count tiny (hashmap.close tiny one_put).2.head = some 1 ∧
    (hashmap.close tiny one_put).2.body = one_put.body ∧
    hashmap.verify tiny (hashmap.close tiny one_put).2 = true ∧
    (hashmap.backup tiny one_put).1 = true ∧
    head.get_body_count tiny (hashmap.backup tiny one_put).2.head = some 1 ∧
    hashmap.backup tiny (hashmap.backup tiny one_put).2
      = (true, (hashmap.backup tiny one_put).2) :=
  have h := close_backup_persist_count tiny one_put (by decide)
  have hc := h.2.2.1 (hashmap.close tiny one_put).2 (by decide)
  have hb := h.2.2.2 (hashmap.backup tiny one_put).2 (by decide)
  ⟨h.1.mpr ⟨by decide, by decide⟩, hc.1, hc.2.1, hc.2.2.2.1.trans (by decide),
    h.2.1.mpr ⟨by decide, by decide⟩, hb.1, hb.2.2.2.2⟩

/-- Claim C10: `restore()` returns false and leaves the state as it is when
`head.verify()` fails, when the body count cannot be read, or when the manager
rejects the truncation to `head.body_count`; whenever `restore()` returns true,
`manager.count()` equals `head.body_count` afterwards and `verify()` is true. -/
theorem restore_fails_clean_or_verifies (p : Params) (st : State) :
    ((head.verify p st.head = false ∨ head.get_body_count p st.head = none ∨
        (∃ n, head.get_body_count p st.head = some n ∧
          (manager.truncate p st.body n).1 = false)) →
      hashmap.restore p st = (false, st)) ∧
    (∀ st', hashmap.restore p st = (true, st') →
      head.get_body_count p st'.head = some (manager.count p st'.body) ∧
      hashmap.verify p st' = true) := by
  constructor
  · intro h
    unfold hashmap.restore
    rcases h with h | h | ⟨n, h1, h2⟩
    · simp [h]
    · simp [h]
    · rw [h1]
      simp only [h2]
      have : (manager.truncate p st.body n).2 = st.body := by
        unfold manager.truncate at h2 ⊢
        split
        · rfl
        · rename_i hc
          rw [if_neg hc] at h2
          simp at h2
      rw [this]
      split <;> rfl
  · intro st' h
    unfold hashmap.restore at h
    split at h
    · rename_i hv
      cases hc : head.get_body_count p st.head with
      | none => simp [hc] at h
      | some n =>
        rw [hc] at h
        simp only [Prod.mk.injEq] at h
        obtain ⟨h1, h2⟩ := h
        have ht : manager.truncate p st.body n = (true, (manager.truncate p st.body n).2) :=
          Prod.ext h1 rfl
        obtain ⟨t1, _, _⟩ := count_after_truncate p _ _ _ ht
        subst h2
        simp only
        refine ⟨by rw [hc, t1], ?_⟩
        unfold hashmap.verify
        simp only [hv, if_true, hc, t1, beq_self_eq_true]
    · simp at h

/-- Witness for `restore_fails_clean_or_verifies`: over an empty header file
`restore()` fails and changes nothing; after one put without backup it
succeeds and truncates the body to the recorded count zero. -/
theorem restore_fails_clean_or_verifies_witness :
    hashmap.restore tiny blank = (false, blank) ∧
    head.get_body_count tiny (hashmap.restore tiny one_put).2.head = some 0 ∧
    hashmap.verify tiny (hashmap.restore tiny one_put).2 = true :=
  have h1 := (restore_fails_clean_or_verifies tiny blank).1 (Or.inl (by decide))
  have h2 := (restore_fails_clean_or_verifies tiny one_put).2
    (hashmap.restore tiny one_put).2 (by decide)
  ⟨h1, h2.1, h2.2⟩

/-! ### Tables built by admissible calls -/

/-- A run of writes touches nothing behind the bytes it was given to write. -/
theorem foldl_write_bytes_confined (chunks : List (List Byte)) (s : Sink) (j m : Nat)
    (hj : s.pos + chunks.flatten.length ≤ j) :
    peek (chunks.foldl Sink.write_bytes s).mem j m = peek s.mem j m := by
  induction chunks generalizing s with
  | nil => rfl
  | cons b bs ih =>
    rw [List.foldl_cons]
    simp only [List.flatten_cons, List.length_append] at hj
    by_cases hv : s.valid = true ∧ s.pos + b.length ≤ s.stop
    · have e : s.write_bytes b =
          { s with mem := poke s.mem s.pos b, pos := s.pos + b.length } := by
        simp [Sink.write_bytes, hv.1, hv.2]
      rw [e, ih { s with mem := poke s.mem s.pos b, pos := s.pos + b.length }
        (by simp only; omega)]
      exact peek_poke_disjoint _ _ _ _ _ (Or.inr (by omega))
    · have e : s.write_bytes b = { s with valid := false } := by
        unfold Sink.write_bytes
        rw [if_neg]
        simpa using hv
      rw [e, foldl_write_bytes_invalid _ _ rfl]

/-- The sink a `put` prepares stands at most behind the key, and nothing
behind the key has been written. -/
theorem element_sink_confined (p : Params) (mem : List Byte) (pos : Nat) (key : List Byte)
    (n : Nat) :
    (element_sink p mem pos key n).pos ≤ pos + p.W + key.length ∧
    ∀ j m, pos + p.W + key.length ≤ j →
      peek (element_sink p mem pos key n).mem j m = peek mem j m := by
  unfold element_sink Sink.skip_bytes Sink.write_bytes Sink.set_limit
  by_cases h1 : pos + p.W ≤ mem.length
  · by_cases h2 : pos + p.W + key.length ≤ mem.length
    · cases hsl : is_slab p <;>
        simp [h1, h2] <;>
        exact fun j m hj => peek_poke_disjoint _ _ _ _ _ (Or.inr hj)
    · cases hsl : is_slab p <;> simp [h1, h2]
  · cases hsl : is_slab p <;> simp [h1] <;> omega

/-- Running `to_data` on the sink a `put` prepares touches nothing behind the
bytes of the next field, the key and the element. -/
theorem run_element_sink_confined {α : Type} (p : Params) (c : Codec α) (e : α)
    (mem : List Byte) (pos : Nat) (key : List Byte) (n : Nat) (j m : Nat)
    (hj : pos + p.W + key.length + (c.to_data e).1.flatten.length ≤ j) :
    peek (c.run_to_data e (element_sink p mem pos key n)).1.mem j m = peek mem j m := by
  obtain ⟨h1, h2⟩ := element_sink_confined p mem pos key n
  unfold Codec.run_to_data
  simp only
  rw [foldl_write_bytes_confined _ _ j m (by omega), h2 j m (by omega)]

theorem length_peek_le (mem : List Byte) (i n : Nat) : (peek mem i n).length ≤ n := by
  unfold peek
  simp

/-- Whatever its outcome, `put(link, key, element)` touches no body byte behind
the bytes of the next field, the key and the element. -/
theorem put_at_confined {α : Type} (p : Params) (c : Codec α) (st : State)
    (link : Nat) (key : List Byte) (e : α) (j m : Nat)
    (hj : link_to_position p link + p.W + key.length + (c.to_data e).1.flatten.length ≤ j) :
    peek (hashmap.put_at p c st link key e).2.body.data j m = peek st.body.data j m := by
  unfold hashmap.put_at
  cases hg : manager.get_link p st.body link with
  | none => rfl
  | some pos =>
    obtain ⟨g1, g2, g3, g4⟩ := (get_link_eq_some p st.body link pos).mp hg
    subst g4
    have hr := run_element_sink_confined p c e st.body.data (link_to_position p link) key
      (c.count e) j m hj
    simp only
    split
    · unfold head.push
      split
      · simp only
        have := length_peek_le st.head.data (head.offset p (head.index p key)) p.W
        rw [peek_poke_disjoint _ _ _ _ _ (Or.inr (by omega)), hr]
      · exact hr
    · exact hr

/-- Whatever its outcome, `set(link, element)` touches no body byte behind the
bytes of the `[next, key]` prefix and the element. -/
theorem set_confined {α : Type} (p : Params) (c : Codec α) (st : State) (link : Nat)
    (e : α) (j m : Nat)
    (hj : link_to_position p link + index_size p + (c.to_data e).1.flatten.length ≤ j) :
    peek (hashmap.set p c st link e).2.body.data j m = peek st.body.data j m := by
  unfold hashmap.set
  cases hg : manager.get_link p st.body link with
  | none => rfl
  | some pos =>
    obtain ⟨_, _, _, g4⟩ := (get_link_eq_some p st.body link pos).mp hg
    subst g4
    simp only [Codec.run_to_data]
    have hpos : ∀ s : Sink,
        s = (Sink.mk st.body.data (link_to_position p link) st.body.data.length
          true).skip_bytes (index_size p) →
        s.pos ≤ link_to_position p link + index_size p ∧ s.mem = st.body.data := by
      intro s hs
      subst hs
      unfold Sink.skip_bytes
      split <;> simp
    obtain ⟨h1, h2⟩ := hpos _ rfl
    split
    · rw [foldl_write_bytes_confined _ _ j m (by omega), h2]
    · rw [foldl_write_bytes_confined _ _ j m (by simp only [Sink.set_limit]; omega)]
      simp only [Sink.set_limit]
      rw [h2]

/-- Whatever its outcome, `commit(link, key)` keeps both files' lengths and
mapping flags and every body byte outside the `[next, key]` prefix of the
element; a failing `commit` leaves the header as it was. -/
theorem commit_frame (p : Params) (st : State) (link : Nat) (key : List Byte) :
    (hashmap.commit p st link key).2.body.mapped = st.body.mapped ∧
    (hashmap.commit p st link key).2.body.data.length = st.body.data.length ∧
    (hashmap.commit p st link key).2.head.mapped = st.head.mapped ∧
    (hashmap.commit p st link key).2.head.data.length = st.head.data.length ∧
    (∀ j m, j + m ≤ link_to_position p link ∨ link_to_position p link + index_size p ≤ j →
      peek (hashmap.commit p st link key).2.body.data j m = peek st.body.data j m) ∧
    ((hashmap.commit p st link key).1 = false →
      (hashmap.commit p st link key).2.head = st.head) := by
  unfold hashmap.commit
  cases hg : manager.get_link p st.body link with
  | none => simp
  | some pos =>
    obtain ⟨_, _, _, g4⟩ := (get_link_eq_some p st.body link pos).mp hg
    subst g4
    have hk : (key.take p.K).length ≤ p.K := by simp
    have hframe : ∀ j m,
        j + m ≤ link_to_position p link ∨ link_to_position p link + index_size p ≤ j →
        peek (poke st.body.data (link_to_position p link + p.W) (key.take p.K)) j m
          = peek st.body.data j m := by
      intro j m hjm
      unfold index_size at hjm
      rcases hjm with h | h
      · exact peek_poke_disjoint _ _ _ _ _ (Or.inl (by omega))
      · exact peek_poke_disjoint _ _ _ _ _ (Or.inr (by omega))
    simp only
    unfold head.push
    split
    · simp only [length_poke]
      refine ⟨trivial, trivial, trivial, trivial, ?_, fun h => by simp at h⟩
      intro j m hjm
      have := length_peek_le st.head.data (head.offset p (head.index p key)) p.W
      rw [← hframe j m hjm]
      unfold index_size at hjm
      rcases hjm with h | h
      · exact peek_poke_disjoint _ _ _ _ _ (Or.inl h)
      · exact peek_poke_disjoint _ _ _ _ _ (Or.inr (by omega))
    · simp only [length_poke]
      exact ⟨trivial, trivial, trivial, trivial, hframe, fun _ => trivial⟩

theorem Ledger.holds_iff (p : Params) (led : Ledger) (link bytes : Nat) :
    led.holds p link bytes = true ↔
      ∃ n, (link, n) ∈ led.elements ∧ bytes ≤ link_to_position p n := by
  unfold Ledger.holds
  rw [List.any_eq_true]
  constructor
  · rintro ⟨el, hel, h⟩
    simp only [Bool.and_eq_true, beq_iff_eq, decide_eq_true_eq] at h
    refine ⟨el.2, ?_, h.2⟩
    rw [← h.1]
    exact hel
  · rintro ⟨n, hn, hb⟩
    exact ⟨(link, n), hn, by simp [hb]⟩

theorem Ranked.of_same_next (p : Params) (mem mem' : List Byte) (links : List Nat)
    (h : Ranked p mem links)
    (hsame : ∀ l ∈ links, next_of p mem' l = next_of p mem l) : Ranked p mem' links := by
  induction links with
  | nil => trivial
  | cons l older ih =>
    obtain ⟨h1, h2⟩ := h
    refine ⟨?_, ih h2 (fun x hx => hsame x (List.mem_cons_of_mem _ hx))⟩
    rw [hsame l (List.mem_cons_self _ _)]
    exact h1

/-- The walk from a ranked link ends within as many steps as there are links. -/
theorem Ranked.walk_ends (p : Params) (mem : List Byte) (links : List Nat)
    (h : Ranked p mem links) :
    ∀ l, l = terminal p ∨ l ∈ links → chain_ends p mem links.length l = true := by
  induction links with
  | nil =>
    intro l hl
    rcases hl with hl | hl
    · rw [hl]
      exact chain_ends_terminal p mem _
    · simp at hl
  | cons x older ih =>
    obtain ⟨h1, h2⟩ := h
    intro l hl
    rcases hl with hl | hl
    · rw [hl]
      exact chain_ends_terminal p mem _
    · rcases List.mem_cons.mp hl with hx | ho
      · subst hx
        simp only [List.length_cons, chain_ends, Bool.or_eq_true]
        right
        exact ih h2 _ h1
      · exact chain_ends_mono p mem _ _ l (Nat.le_succ _) (ih h2 l (Or.inr ho))

/-- An indexed link lies below the count. -/
theorem Kept.indexed_lt_count (p : Params) (st : State) (led : Ledger) (h : Kept p st led)
    (l : Nat) (hl : l ∈ led.indexed) : l < manager.count p st.body := by
  obtain ⟨_, hh⟩ := h.owned l hl
  obtain ⟨n, hn, hW⟩ := (Ledger.holds_iff p led l p.W).mp hh
  have := h.inside (l, n) hn
  simp only at this
  exact link_lt_count p st.body l h.width h.aligned (by omega)

/-- There are at most `count()` indexed links. -/
theorem Kept.indexed_le (p : Params) (st : State) (led : Ledger) (h : Kept p st led) :
    led.indexed.length ≤ manager.count p st.body := by
  have hsub : led.indexed ⊆ List.range (manager.count p st.body) := by
    intro l hl
    rw [List.mem_range]
    exact h.indexed_lt_count p st led l hl
  have := (List.Nodup.subperm h.nodup hsub).length_le
  simpa using this

/-- Chain termination in a kept table. -/
theorem Kept.walks_end (p : Params) (st : State) (led : Ledger) (h : Kept p st led) (b : Nat) :
    chain_ends p st.body.data (hashmap.count p st) (hashmap.top p st b) = true := by
  unfold hashmap.top
  split
  · exact chain_ends_terminal p _ _
  · exact chain_ends_mono p _ _ _ _ (h.indexed_le p st led)
      (Ranked.walk_ends p _ _ h.ranked _ (h.tops b))

/-- A write inside one element that spares the next field of that element when
it is indexed leaves the next field of every indexed link as it was. -/
theorem Kept.next_kept (p : Params) (st : State) (led : Ledger) (mem' : List Byte)
    (L n lo hi : Nat) (h : Kept p st led) (hel : (L, n) ∈ led.elements)
    (hlo : link_to_position p L ≤ lo)
    (hhi : hi ≤ link_to_position p L + link_to_position p n)
    (hown : L ∈ led.indexed → link_to_position p L + p.W ≤ lo)
    (hframe : ∀ j m, j + m ≤ lo ∨ hi ≤ j → peek mem' j m = peek st.body.data j m) :
    ∀ l ∈ led.indexed, next_of p mem' l = next_of p st.body.data l := by
  intro l hl
  unfold next_of
  apply congrArg
  apply hframe
  obtain ⟨_, hh⟩ := h.owned l hl
  obtain ⟨k, hk, hW⟩ := (Ledger.holds_iff p led l p.W).mp hh
  by_cases hL : l = L
  · subst hL
    left
    exact hown hl
  · rcases h.apart (l, k) hk (L, n) hel hL with ha | ha
    · left
      simp only at ha
      omega
    · right
      simp only at ha
      omega

/-- The invariant survives a write inside one element that keeps the header
and spares the next field of that element when it is indexed. -/
theorem Kept.written (p : Params) (st st' : State) (led : Ledger) (L n lo hi : Nat)
    (h : Kept p st led) (hel : (L, n) ∈ led.elements)
    (hlo : link_to_position p L ≤ lo)
    (hhi : hi ≤ link_to_position p L + link_to_position p n)
    (hown : L ∈ led.indexed → link_to_position p L + p.W ≤ lo)
    (hhead : st'.head = st.head) (hlen : st'.body.data.length = st.body.data.length)
    (hframe : ∀ j m, j + m ≤ lo ∨ hi ≤ j →
      peek st'.body.data j m = peek st.body.data j m) : Kept p st' led := by
  refine ⟨h.width, by rw [hhead]; exact h.head_mapped, by rw [hhead]; exact h.head_size,
    by rw [hlen]; exact h.aligned, by rw [hlen]; exact h.inside, h.apart, h.nodup, h.owned,
    by rw [hhead]; exact h.tops, ?_⟩
  exact Ranked.of_same_next p _ _ _ h.ranked
    (h.next_kept p st led _ L n lo hi hel hlo hhi hown hframe)

/-- The invariant survives the indexing of an allocated element that holds its
next field and was not indexed: the bucket now holds its link, its next field
the previous head of the bucket, and nothing outside the element changed. -/
theorem Kept.indexing (p : Params) (st st' : State) (led : Ledger) (L n idx : Nat)
    (h : Kept p st led) (hcap : manager.count p st.body ≤ terminal p)
    (hel : (L, n) ∈ led.elements) (hW : p.W ≤ link_to_position p n)
    (hnew : L ∉ led.indexed) (hL : L ≠ terminal p)
    (hacc : head.accessible p st.head idx = true)
    (hhead : st'.head = { st.head with
      data := poke st.head.data (head.offset p idx) (encode p.W L) })
    (hlen : st'.body.data.length = st.body.data.length)
    (hframe : ∀ j m,
      j + m ≤ link_to_position p L ∨ link_to_position p L + link_to_position p n ≤ j →
      peek st'.body.data j m = peek st.body.data j m)
    (hnext : next_of p st'.body.data L = head.top p st.head idx) :
    Kept p st' { led with indexed := L :: led.indexed } := by
  have hin := h.inside (L, n) hel
  simp only at hin
  have hlt : L < manager.count p st.body :=
    link_lt_count p st.body L h.width h.aligned (by omega)
  have hterm := terminal_lt p
  obtain ⟨f1, _, _⟩ := head_frame_after_poke p st.head idx (encode p.W L) (length_encode _ _)
  refine ⟨h.width, by rw [hhead]; exact h.head_mapped, ?_, by rw [hlen]; exact h.aligned,
    by rw [hlen]; exact h.inside, h.apart, List.nodup_cons.mpr ⟨hnew, h.nodup⟩, ?_, ?_, ?_⟩
  · rw [hhead]
    simp only [length_poke]
    exact h.head_size
  · intro l hl
    rcases List.mem_cons.mp hl with hx | ho
    · subst hx
      exact ⟨hL, (Ledger.holds_iff p _ _ _).mpr ⟨n, hel, hW⟩⟩
    · exact h.owned l ho
  · intro i
    rw [hhead]
    by_cases hi : i = idx
    · subst hi
      right
      rw [top_after_poke p st.head i L hacc (by omega)]
      exact List.mem_cons_self _ _
    · rw [f1 i hi]
      rcases h.tops i with ht | ht
      · exact Or.inl ht
      · exact Or.inr (List.mem_cons_of_mem _ ht)
  · refine ⟨?_, ?_⟩
    · rw [hnext]
      exact h.tops idx
    · exact Ranked.of_same_next p _ _ _ h.ranked
        (h.next_kept p st led _ L n (link_to_position p L)
          (link_to_position p L + link_to_position p n) hel (le_refl _) (le_refl _)
          (fun hc => absurd hc hnew) hframe)

theorem peek_beyond (mem : List Byte) (j m : Nat) (h : mem.length ≤ j) : peek mem j m = [] := by
  unfold peek
  rw [List.drop_eq_nil_of_le h, List.take_nil]

/-- The invariant after `create()`, nothing being allocated or indexed. -/
theorem Kept.created (p : Params) (st0 st : State)
    (h : hashmap.create p st0 = (true, st)) : Kept p st ⟨[], []⟩ := by
  obtain ⟨hW, c1, _, c3, c4⟩ := create_true p st0 st h
  refine ⟨hW, c1, ?_, ?_, ?_, ?_, List.nodup_nil, ?_, ?_, trivial⟩
  · rw [c4]
    simp [head.size, length_encode]
  · rw [c3]
    exact dvd_zero _
  · intro el hel
    simp at hel
  · intro a ha
    simp at ha
  · intro l hl
    simp at hl
  · intro i
    exact Or.inl (top_fresh p st.head c4 i)

/-- An allocation keeps the invariant, the new element entering the book; the
element is the last of the body and its link is not indexed. -/
theorem Kept.allocation (p : Params) (st : State) (led : Ledger) (n : Nat)
    (h : Kept p st led) :
    Kept p (hashmap.allocate p st n).2 (led.allocated p (hashmap.allocate p st n).1 n) ∧
    ((hashmap.allocate p st n).1 ≠ terminal p →
      ((hashmap.allocate p st n).1, n)
        ∈ (led.allocated p (hashmap.allocate p st n).1 n).elements ∧
      (hashmap.allocate p st n).1 ∉ led.indexed ∧
      (hashmap.allocate p st n).2.body.data.length
        = link_to_position p (hashmap.allocate p st n).1 + link_to_position p n) := by
  rcases allocate_cases p st n with ⟨ha, _⟩ | ⟨_, _, ha⟩
  · rw [ha]
    simp only [Ledger.allocated, is_terminal, beq_self_eq_true, if_true]
    exact ⟨h, fun hne => absurd rfl hne⟩
  · rw [ha]
    simp only
    have hfront := frontier_eq_length p st.body h.aligned
    have hext : Kept p { st with body := { st.body with
        data := st.body.data ++ List.replicate (link_to_position p n) 0 } } led := by
      refine ⟨h.width, h.head_mapped, h.head_size, ?_, ?_, h.apart, h.nodup, h.owned,
        h.tops, ?_⟩
      · simp only [List.length_append, List.length_replicate, link_to_position]
        exact Dvd.dvd.add h.aligned (Dvd.intro_left _ rfl)
      · intro el hel
        have := h.inside el hel
        simp only [List.length_append, List.length_replicate]
        omega
      · apply Ranked.of_same_next p _ _ _ h.ranked
        intro l hl
        unfold next_of
        apply congrArg
        apply peek_append_left
        obtain ⟨_, hh⟩ := h.owned l hl
        obtain ⟨k, hk, hW⟩ := (Ledger.holds_iff p led l p.W).mp hh
        have := h.inside (l, k) hk
        simp only at this
        omega
    refine ⟨?_, fun hne => ?_⟩
    · unfold Ledger.allocated
      split
      · exact hext
      · refine ⟨hext.width, hext.head_mapped, hext.head_size, hext.aligned, ?_, ?_,
          hext.nodup, ?_, hext.tops, hext.ranked⟩
        · intro el hel
          rcases List.mem_cons.mp hel with hx | ho
          · subst hx
            simp only [List.length_append, List.length_replicate]
            rw [hfront]
          · exact hext.inside el ho
        · intro a ha' b hb hab
          rcases List.mem_cons.mp ha' with hx | ho
          · rcases List.mem_cons.mp hb with hy | ho'
            · subst hx
              subst hy
              exact absurd rfl hab
            · subst hx
              right
              simp only
              rw [hfront]
              exact h.inside b ho'
          · rcases List.mem_cons.mp hb with hy | ho'
            · subst hy
              left
              simp only
              rw [hfront]
              exact h.inside a ho
            · exact h.apart a ho b ho' hab
        · intro l hl
          obtain ⟨h1, h2⟩ := h.owned l hl
          refine ⟨h1, ?_⟩
          rw [Ledger.holds_iff] at h2 ⊢
          obtain ⟨k, hk, hW⟩ := h2
          exact ⟨k, List.mem_cons_of_mem _ hk, hW⟩
    · unfold Ledger.allocated
      rw [if_neg (by simpa [is_terminal] using hne)]
      refine ⟨List.mem_cons_self _ _, ?_, ?_⟩
      · intro hc
        exact absurd (h.indexed_lt_count p st led _ hc) (lt_irrefl _)
      · simp only [List.length_append, List.length_replicate]
        rw [hfront]

/-- A `put(link, key, element)` on an allocated element that is not indexed and
holds the bytes written, or is the last of the body, keeps the invariant; the
link is indexed when the call returns true. -/
theorem Kept.on_put_at {α : Type} (p : Params) (c : Codec α) (st : State) (led : Ledger)
    (L : Nat) (key : List Byte) (e : α) (n : Nat)
    (h : Kept p st led) (hcap : manager.count p st.body ≤ terminal p)
    (hel : (L, n) ∈ led.elements) (hnew : L ∉ led.indexed)
    (hfit : p.W + key.length + (c.to_data e).1.flatten.length ≤ link_to_position p n ∨
      st.body.data.length ≤ link_to_position p L + link_to_position p n) :
    Kept p (hashmap.put_at p c st L key e).2
      (led.pushed (hashmap.put_at p c st L key e).1 L) := by
  obtain ⟨f1, f2, f3, f4, f5⟩ := put_at_frame p c st L key e
  have hframe : ∀ j m,
      j + m ≤ link_to_position p L ∨ link_to_position p L + link_to_position p n ≤ j →
      peek (hashmap.put_at p c st L key e).2.body.data j m = peek st.body.data j m := by
    intro j m hjm
    rcases hjm with hjm | hjm
    · exact f5 j m hjm
    · rcases hfit with hfit | hfit
      · exact put_at_confined p c st L key e j m (by omega)
      · rw [peek_beyond _ j m (by omega), peek_beyond _ j m (by omega)]
  cases hflag : (hashmap.put_at p c st L key e).1 with
  | false =>
    simp only [Ledger.pushed, Bool.false_eq_true, if_false]
    exact Kept.written p st _ led L n _ _ h hel (le_refl _) (le_refl _)
      (fun hc => absurd hc hnew)
      (put_at_false p c st _ L key e (Prod.ext hflag rfl)) f2 hframe
  | true =>
    simp only [Ledger.pushed, if_true]
    obtain ⟨q1, q2, q3, q4, q5, q6, q7, q8⟩ :=
      put_at_true p c st _ L key e (Prod.ext hflag rfl)
    have hacc : head.offset p (head.index p key) + p.W ≤ st.head.data.length := by
      simp only [head.accessible, Bool.and_eq_true, decide_eq_true_eq] at q6
      exact q6.2
    have hHb : (peek st.head.data (head.offset p (head.index p key)) p.W).length = p.W :=
      length_peek_of_le _ _ _ hacc
    refine Kept.indexing p st _ led L n (head.index p key) h hcap hel (by omega) hnew q1 q6
      q7 f2 hframe ?_
    unfold next_of
    rw [q8]
    simp only
    have := peek_poke_self
      (poke (poke st.body.data (link_to_position p L + p.W) key)
        (link_to_position p L + p.W + key.length) (c.to_data e).1.flatten)
      (link_to_position p L)
      (peek st.head.data (head.offset p (head.index p key)) p.W)
      (by simp only [length_poke]; rw [hHb]; omega)
    rw [hHb] at this
    rw [this]
    unfold head.top
    rw [q6]
    simp

/-- A `commit(link, key)` on an allocated element that is not indexed and holds
the `[next, key]` prefix keeps the invariant; the link is indexed when the call
returns true. -/
theorem Kept.on_commit (p : Params) (st : State) (led : Ledger) (L : Nat) (key : List Byte)
    (n : Nat) (h : Kept p st led) (hcap : manager.count p st.body ≤ terminal p)
    (hel : (L, n) ∈ led.elements) (hnew : L ∉ led.indexed)
    (hfit : index_size p ≤ link_to_position p n) :
    Kept p (hashmap.commit p st L key).2 (led.pushed (hashmap.commit p st L key).1 L) := by
  obtain ⟨f1, f2, f3, f4, f5, f6⟩ := commit_frame p st L key
  have hframe : ∀ j m,
      j + m ≤ link_to_position p L ∨ link_to_position p L + link_to_position p n ≤ j →
      peek (hashmap.commit p st L key).2.body.data j m = peek st.body.data j m := by
    intro j m hjm
    apply f5
    rcases hjm with hjm | hjm
    · exact Or.inl hjm
    · exact Or.inr (by omega)
  cases hflag : (hashmap.commit p st L key).1 with
  | false =>
    simp only [Ledger.pushed, Bool.false_eq_true, if_false]
    exact Kept.written p st _ led L n _ _ h hel (le_refl _) (le_refl _)
      (fun hc => absurd hc hnew) (f6 hflag) f2 hframe
  | true =>
    simp only [Ledger.pushed, if_true]
    obtain ⟨c1, c2, c3, c4, c5, c6⟩ := commit_true p st _ L key (Prod.ext hflag rfl)
    have hacc : head.offset p (head.index p key) + p.W ≤ st.head.data.length := by
      simp only [head.accessible, Bool.and_eq_true, decide_eq_true_eq] at c4
      exact c4.2
    have hHb : (peek st.head.data (head.offset p (head.index p key)) p.W).length = p.W :=
      length_peek_of_le _ _ _ hacc
    have hin := h.inside (L, n) hel
    simp only at hin
    unfold index_size at hfit
    refine Kept.indexing p st _ led L n (head.index p key) h hcap hel (by omega) hnew c1 c4
      c5 f2 hframe ?_
    unfold next_of
    rw [c6]
    simp only
    have := peek_poke_self (poke st.body.data (link_to_position p L + p.W) (key.take p.K))
      (link_to_position p L) (peek st.head.data (head.offset p (head.index p key)) p.W)
      (by rw [length_poke, hHb]; omega)
    rw [hHb] at this
    rw [this]
    unfold head.top
    rw [c4]
    simp

/-- A `set` on a record table keeps the invariant, whatever its link: its
writer is limited to the payload of one record. -/
theorem Kept.set_record {α : Type} (p : Params) (c : Codec α) (st : State) (led : Ledger)
    (link : Nat) (e : α) (hrec : is_slab p = false) (h : Kept p st led) :
    Kept p (hashmap.set p c st link e).2 led := by
  obtain ⟨s1, s2, s3, s4, s5⟩ := set_frame p c st link e
  refine ⟨h.width, by rw [s1]; exact h.head_mapped, by rw [s1]; exact h.head_size,
    by rw [s3]; exact h.aligned, by rw [s3]; exact h.inside, h.apart, h.nodup, h.owned,
    by rw [s1]; exact h.tops, ?_⟩
  apply Ranked.of_same_next p _ _ _ h.ranked
  intro x _
  unfold next_of
  apply congrArg
  have hstride : stride p = p.W + p.K + p.S := by simp [stride, hrec]
  unfold link_to_position index_size at s4 s5
  unfold link_to_position
  rcases Nat.lt_or_ge link x with hlt | hge
  · apply s5 hrec
    have := Nat.mul_le_mul_right (stride p) (Nat.succ_le_of_lt hlt)
    rw [Nat.succ_mul] at this
    omega
  · apply s4
    have := Nat.mul_le_mul_right (stride p) hge
    omega

/-- A `set` on an allocated element that holds the bytes written, or is the
last of the body, keeps the invariant. -/
theorem Kept.set_within {α : Type} (p : Params) (c : Codec α) (st : State) (led : Ledger)
    (L : Nat) (e : α) (n : Nat) (h : Kept p st led) (hel : (L, n) ∈ led.elements)
    (hfit : index_size p + (c.to_data e).1.flatten.length ≤ link_to_position p n ∨
      st.body.data.length ≤ link_to_position p L + link_to_position p n) :
    Kept p (hashmap.set p c st L e).2 led := by
  obtain ⟨s1, s2, s3, s4, s5⟩ := set_frame p c st L e
  refine Kept.written p st _ led L n (link_to_position p L + index_size p)
    (link_to_position p L + link_to_position p n) h hel (by omega) (le_refl _)
    (fun _ => by unfold index_size; omega) s1 s3 ?_
  intro j m hjm
  rcases hjm with hjm | hjm
  · exact s4 j m hjm
  · rcases hfit with hfit | hfit
    · exact set_confined p c st L e j m (by omega)
    · rw [peek_beyond _ j m (by omega), peek_beyond _ j m (by omega)]

/-- No call shortens the body. -/
theorem Call.run_length_le {α : Type} (p : Params) (c : Codec α) (st : State)
    (call : Call α) : st.body.data.length ≤ (call.run p c st).body.data.length := by
  cases call with
  | allocate n =>
    rcases allocate_cases p st n with ⟨ha, _⟩ | ⟨_, _, ha⟩ <;> simp [Call.run, ha]
  | set link e =>
    simp only [Call.run]
    rw [(set_frame p c st link e).2.2.1]
  | set_link e =>
    have hrun : (hashmap.set_link p c st e).2 =
        (hashmap.set p c (hashmap.allocate p st (c.count e)).2
          (hashmap.allocate p st (c.count e)).1 e).2 := rfl
    simp only [Call.run]
    rw [hrun, (set_frame p c _ _ e).2.2.1]
    rcases allocate_cases p st (c.count e) with ⟨ha, _⟩ | ⟨_, _, ha⟩ <;> simp [ha]
  | put key e => exact (put_link_out_frame p c st key e).2.2.2.1
  | put_link key e => exact (put_link_out_frame p c st key e).2.2.2.1
  | put_at link key e =>
    simp only [Call.run]
    rw [(put_at_frame p c st link key e).2.1]
  | commit link key =>
    simp only [Call.run]
    rw [(commit_frame p st link key).2.1]
  | commit_link link key =>
    have hrun : (hashmap.commit_link p st link key).2 = (hashmap.commit p st link key).2 := rfl
    simp only [Call.run]
    rw [hrun, (commit_frame p st link key).2.1]

theorem run_calls_length_le {α : Type} (p : Params) (c : Codec α) (calls : List (Call α)) :
    ∀ st : State, st.body.data.length ≤ (run_calls p c calls st).body.data.length := by
  induction calls with
  | nil => intro st; exact le_refl _
  | cons call rest ih =>
    intro st
    exact le_trans (Call.run_length_le p c st call) (ih (call.run p c st))

theorem Ledger.allocated_indexed (p : Params) (led : Ledger) (link size : Nat) :
    (led.allocated p link size).indexed = led.indexed := by
  unfold Ledger.allocated
  split <;> rfl

/-- A `put_link(link&, key, element)` keeps the invariant: its element enters
the book and is indexed when the call returns true. -/
theorem Kept.on_put_link {α : Type} (p : Params) (c : Codec α) (st : State) (led : Ledger)
    (key : List Byte) (e : α) (h : Kept p st led)
    (hcap : manager.count p (hashmap.put_link_out p c st key e).2.body ≤ terminal p) :
    Kept p (hashmap.put_link_out p c st key e).2
      ((led.allocated p (hashmap.allocate p st (c.count e)).1 (c.count e)).pushed
        (hashmap.put_link_out p c st key e).1.1 (hashmap.put_link_out p c st key e).1.2) := by
  rw [put_link_out_eq] at hcap ⊢
  simp only at hcap ⊢
  obtain ⟨ka, kb⟩ := Kept.allocation p st led (c.count e) h
  by_cases hne : (hashmap.allocate p st (c.count e)).1 = terminal p
  · have hfail : hashmap.put_at p c (hashmap.allocate p st (c.count e)).2
        (hashmap.allocate p st (c.count e)).1 key e
        = (false, (hashmap.allocate p st (c.count e)).2) := by
      unfold hashmap.put_at
      rw [(get_link_eq_none p _ _).mpr (Or.inl hne)]
    rw [hfail]
    simp only [Ledger.pushed, Bool.false_eq_true, if_false]
    exact ka
  · obtain ⟨b1, b2, b3⟩ := kb hne
    refine Kept.on_put_at p c _ _ _ key e (c.count e) ka ?_ b1 ?_ (Or.inr (le_of_eq b3))
    · exact le_trans (count_mono p _ _ (le_of_eq (put_at_frame p c _ _ key e).2.1.symm)) hcap
    · rw [Ledger.allocated_indexed]
      exact b2

/-- One admissible call keeps the invariant, as long as the count stays a
link value. -/
theorem Kept.on_call {α : Type} (p : Params) (c : Codec α) (st : State) (led : Ledger)
    (call : Call α) (hadm : call.admissible p c st led = true) (h : Kept p st led)
    (hcap : manager.count p (call.run p c st).body ≤ terminal p) :
    Kept p (call.run p c st) (call.track p c st led) := by
  have hcap0 : manager.count p st.body ≤ terminal p :=
    le_trans (count_mono p _ _ (Call.run_length_le p c st call)) hcap
  have hcommit : ∀ link key,
      ((manager.get_link p st.body link).isNone ||
        (!led.indexed.contains link && led.holds p link (index_size p))) = true →
      Kept p (hashmap.commit p st link key).2
        (led.pushed (hashmap.commit p st link key).1 link) := by
    intro link key hadm
    simp only [Bool.or_eq_true, Option.isNone_iff_eq_none, Bool.and_eq_true,
      Bool.not_eq_true'] at hadm
    rcases hadm with hg | ⟨hnc, hh⟩
    · have hfail : hashmap.commit p st link key = (false, st) := by
        unfold hashmap.commit
        rw [hg]
      rw [hfail]
      exact h
    · have hnew : link ∉ led.indexed := by simpa using hnc
      obtain ⟨n, hn, hfit⟩ := (Ledger.holds_iff p led _ _).mp hh
      exact Kept.on_commit p st led link key n h hcap0 hn hnew hfit
  cases call with
  | allocate n => exact (Kept.allocation p st led n h).1
  | set link e =>
    simp only [Call.admissible, Bool.or_eq_true, Bool.not_eq_true',
      Option.isNone_iff_eq_none] at hadm
    simp only [Call.run, Call.track]
    rcases hadm with (hrec | hg) | hh
    · exact Kept.set_record p c st led link e hrec h
    · have hfail : hashmap.set p c st link e = (false, st) := by
        unfold hashmap.set
        rw [hg]
      rw [hfail]
      exact h
    · obtain ⟨n, hn, hfit⟩ := (Ledger.holds_iff p led _ _).mp hh
      exact Kept.set_within p c st led link e n h hn (Or.inl hfit)
  | set_link e =>
    have hrun : (hashmap.set_link p c st e).2 =
        (hashmap.set p c (hashmap.allocate p st (c.count e)).2
          (hashmap.allocate p st (c.count e)).1 e).2 := rfl
    simp only [Call.run, Call.track]
    rw [hrun]
    obtain ⟨ka, kb⟩ := Kept.allocation p st led (c.count e) h
    by_cases hne : (hashmap.allocate p st (c.count e)).1 = terminal p
    · have hfail : (hashmap.set p c (hashmap.allocate p st (c.count e)).2
          (hashmap.allocate p st (c.count e)).1 e).2 = (hashmap.allocate p st (c.count e)).2 := by
        unfold hashmap.set
        rw [(get_link_eq_none p _ _).mpr (Or.inl hne)]
      rw [hfail]
      exact ka
    · obtain ⟨b1, b2, b3⟩ := kb hne
      exact Kept.set_within p c _ _ _ e (c.count e) ka b1 (Or.inr (le_of_eq b3))
  | put key e => exact Kept.on_put_link p c st led key e h hcap
  | put_link key e => exact Kept.on_put_link p c st led key e h hcap
  | put_at link key e =>
    simp only [Call.admissible, Bool.or_eq_true, Option.isNone_iff_eq_none,
      Bool.and_eq_true, Bool.not_eq_true'] at hadm
    simp only [Call.run, Call.track]
    rcases hadm with hg | ⟨hnc, hh⟩
    · have hfail : hashmap.put_at p c st link key e = (false, st) := by
        unfold hashmap.put_at
        rw [hg]
      rw [hfail]
      exact h
    · have hnew : link ∉ led.indexed := by simpa using hnc
      obtain ⟨n, hn, hfit⟩ := (Ledger.holds_iff p led _ _).mp hh
      exact Kept.on_put_at p c st led link key e n h hcap0 hn hnew (Or.inl hfit)
  | commit link key => exact hcommit link key hadm
  | commit_link link key => exact hcommit link key hadm

/-- Admissible calls keep the invariant as long as the final count is a link
value. -/
theorem Kept.on_calls {α : Type} (p : Params) (c : Codec α) (calls : List (Call α)) :
    ∀ (st : State) (led : Ledger), admissible_run p c calls st led = true →
      Kept p st led → manager.count p (run_calls p c calls st).body ≤ terminal p →
      ∃ led', Kept p (run_calls p c calls st) led' := by
  induction calls with
  | nil => intro st led _ h _; exact ⟨led, h⟩
  | cons call rest ih =>
    intro st led hadm h hcap
    simp only [admissible_run, Bool.and_eq_true] at hadm
    have hrun : run_calls p c (call :: rest) st = run_calls p c rest (call.run p c st) := rfl
    rw [hrun] at hcap ⊢
    exact ih _ _ hadm.2
      (Kept.on_call p c st led call hadm.1 h
        (le_trans (count_mono p _ _ (run_calls_length_le p c rest _)) hcap)) hcap

/-- Counterexample to claim C6 as stated: in the table `tiny`, after `create()`
and `allocate(1)`, committing link 0 twice (by `commit`, by `commit_link`, or by
`put(link, key, e)`) makes the element its own successor, and a
`put(link, key, e)` of a two-record element on the one-record element at link 0
overwrites the next field of the element behind it; in the slab table
`tiny_slab` a `set` of the first element overwrites the next field of the
second, a `commit` on an element of one byte writes its key over the next field
of the element behind it, and a `commit` on a link inside an element does the
same.  Each time the count is a link value and the walk from bucket 1 does not
reach terminal within `count()` steps. -/
theorem indexing_a_link_twice_makes_a_cycle :
    hashmap.create tiny blank = (true, fresh) ∧
    hashmap.count tiny
      (run_calls tiny byte_codec [.allocate 1, .commit 0 [7], .commit 0 [7]] fresh)
      ≤ terminal tiny ∧
    acyclic tiny
      (run_calls tiny byte_codec [.allocate 1, .commit 0 [7], .commit 0 [7]] fresh) = false ∧
    acyclic tiny
      (run_calls tiny byte_codec [.allocate 1, .commit_link 0 [7], .commit_link 0 [7]] fresh)
      = false ∧
    acyclic tiny
      (run_calls tiny byte_codec [.allocate 1, .put_at 0 [7] 5, .put_at 0 [7] 5] fresh)
      = false ∧
    hashmap.create tiny_slab blank = (true, fresh_slab) ∧
    hashmap.count tiny_slab
      (run_calls tiny_slab slab_codec [.put [7] [5], .put [7] [6], .set 0 [9, 3]] fresh_slab)
      ≤ terminal tiny_slab ∧
    acyclic tiny_slab
      (run_calls tiny_slab slab_codec [.put [7] [5], .put [7] [6], .set 0 [9, 3]] fresh_slab)
      = false ∧
    hashmap.count tiny
      (run_calls tiny pair_codec [.allocate 1, .put [7] 5, .put_at 0 [7] 9] fresh)
      ≤ terminal tiny ∧
    acyclic tiny
      (run_calls tiny pair_codec [.allocate 1, .put [7] 5, .put_at 0 [7] 9] fresh) = false ∧
    acyclic tiny_slab
      (run_calls tiny_slab slab_codec [.allocate 1, .put [7] [5], .commit 0 [1]] fresh_slab)
      = false ∧
    acyclic tiny_slab
      (run_calls tiny_slab slab_codec [.put [7] [5], .put [7] [6], .commit 2 [3]] fresh_slab)
      = false := by
  decide

/-- Claim C6 (amended): in every state reached from a successful `create()` by
a sequence of calls of the public mutators in which `put(link, key, e)`,
`commit` and `commit_link` are applied only to the link of an allocated element
that has not been indexed before and holds the bytes the call writes, and in
which a `set` on a slab table writes within the element allocated at its link
(calls on a link that resolves to no memory fail without a write and are
admitted as well), and whose count is a link value, the walk from `top(B)`
along the next fields reaches terminal within `count()` steps, for every
bucket `B`. -/
theorem admissible_chains_end {α : Type} (p : Params) (c : Codec α) (st0 st : State)
    (calls : List (Call α))
    (hcreate : hashmap.create p st0 = (true, st))
    (hadm : admissible_run p c calls st ⟨[], []⟩ = true)
    (hcap : hashmap.count p (run_calls p c calls st) ≤ terminal p) :
    (∀ b, chain_ends p (run_calls p c calls st).body.data
      (hashmap.count p (run_calls p c calls st))
      (hashmap.top p (run_calls p c calls st) b) = true) ∧
    acyclic p (run_calls p c calls st) = true := by
  obtain ⟨led, hk⟩ := Kept.on_calls p c calls st ⟨[], []⟩ hadm
    (Kept.created p st0 st hcreate) hcap
  have hall := fun b => hk.walks_end p _ led b
  refine ⟨hall, ?_⟩
  unfold acyclic
  rw [List.all_eq_true]
  intro b _
  exact hall b

/-- Witness for `admissible_chains_end`: in the record table `tiny` two
elements are allocated, set and committed in the reverse order of their
allocation, a third is put and a fourth allocated and put at its link; in the
slab table `tiny_slab` an element of three bytes is allocated, set and
committed. -/
theorem admissible_chains_end_witness :
    acyclic tiny (run_calls tiny byte_codec
      [.allocate 1, .allocate 1, .set 1 9, .commit 1 [7], .set 0 8, .commit_link 0 [7],
        .put [7] 6, .allocate 1, .put_at 3 [7] 5] fresh) = true ∧
    hashmap.top tiny (run_calls tiny byte_codec
      [.allocate 1, .allocate 1, .set 1 9, .commit 1 [7], .set 0 8, .commit_link 0 [7],
        .put [7] 6, .allocate 1, .put_at 3 [7] 5] fresh) 1 = 3 ∧
    acyclic tiny_slab (run_calls tiny_slab slab_codec
      [.allocate 3, .set 0 [9], .commit 0 [7]] fresh_slab) = true ∧
    hashmap.top tiny_slab (run_calls tiny_slab slab_codec
      [.allocate 3, .set 0 [9], .commit 0 [7]] fresh_slab) 1 = 0 :=
  ⟨(admissible_chains_end tiny byte_codec blank fresh
      [.allocate 1, .allocate 1, .set 1 9, .commit 1 [7], .set 0 8, .commit_link 0 [7],
        .put [7] 6, .allocate 1, .put_at 3 [7] 5]
      (by decide) (by decide) (by decide)).2,
    by decide,
    (admissible_chains_end tiny_slab slab_codec blank fresh_slab
      [.allocate 3, .set 0 [9], .commit 0 [7]] (by decide) (by decide) (by decide)).2,
    by decide⟩

/-- Claim C11: `hashmap::verify()` is true exactly when `head.verify()` holds
(the header file is `W + N*W` bytes long), the body count is readable, and the
count read equals `manager.count()`; being a function of the state alone, it
modifies nothing. -/
theorem verify_iff_header_and_count (p : Params) (st : State) :
    (hashmap.verify p st = true ↔
      head.verify p st.head = true ∧
      ∃ count, head.get_body_count p st.head = some count ∧
        count = manager.count p st.body) ∧
    (head.verify p st.head = true ↔ st.head.data.length = p.W + p.N * p.W) := by
  constructor
  · unfold hashmap.verify
    cases hv : head.verify p st.head with
    | false => simp
    | true =>
      cases hc : head.get_body_count p st.head with
      | none => simp
      | some count => simp
  · simp [head.verify, head.size]

/-- Witness for `verify_iff_header_and_count`: after one put and `backup()` the
table `tiny` verifies, its header being 3 bytes long and recording count 1. -/
theorem verify_iff_header_and_count_witness :
    hashmap.verify tiny (hashmap.backup tiny one_put).2 = true ∧
    (hashmap.backup tiny one_put).2.head.data.length = 1 + 2 * 1 :=
  have h := verify_iff_header_and_count tiny (hashmap.backup tiny one_put).2
  ⟨h.1.mpr ⟨by decide, 1, by decide, by decide⟩, h.2.mp (by decide)⟩

/-- Claim C14: for a link that is terminal or out of range of the body,
`get(link, element)` returns false with the caller's element untouched,
whatever `from_data` would do, and `set(link, element)` returns false with the
state, hence every byte of the body, unchanged. -/
theorem get_set_reject_unresolved_link {α : Type} (p : Params) (c : Codec α) (st : State)
    (link : Nat) (out e : α)
    (h : link = terminal p ∨ st.body.data.length ≤ link_to_position p link) :
    hashmap.get p c st link out = (false, out) ∧
    hashmap.set p c st link e = (false, st) := by
  have hg : manager.get_link p st.body link = none := by
    rw [get_link_eq_none]
    rcases h with h | h
    · exact Or.inl h
    · exact Or.inr (Or.inr h)
  unfold hashmap.get hashmap.set
  rw [hg]
  exact ⟨rfl, rfl⟩

/-- Witness for `get_set_reject_unresolved_link`: the terminal link 255 and the
link 4 past the two elements of `two_puts`. -/
theorem get_set_reject_unresolved_link_witness :
    hashmap.get tiny byte_codec two_puts 255 9 = (false, 9) ∧
    hashmap.set tiny byte_codec two_puts 255 8 = (false, two_puts) ∧
    hashmap.get tiny byte_codec two_puts 4 9 = (false, 9) ∧
    hashmap.set tiny byte_codec two_puts 4 8 = (false, two_puts) :=
  have h1 := get_set_reject_unresolved_link tiny byte_codec two_puts 255 9 8
    (Or.inl (by decide))
  have h2 := get_set_reject_unresolved_link tiny byte_codec two_puts 4 9 8
    (Or.inr (by decide))
  ⟨h1.1, h1.2, h2.1, h2.2⟩

/-- A successful `set(link, element)`: the link resolves, the bytes of `to_data`
fit behind the `[next, key]` prefix (within `Size` on a record table), and
they are the only bytes written. -/
theorem set_true {α : Type} (p : Params) (c : Codec α) (st st' : State) (link : Nat)
    (e : α) (h : hashmap.set p c st link e = (true, st')) :
    link ≠ terminal p ∧ st.body.mapped = true ∧
    link_to_position p link < st.body.data.length ∧
    link_to_position p link + index_size p + (c.to_data e).1.flatten.length
      ≤ st.body.data.length ∧
    (is_slab p = false → (c.to_data e).1.flatten.length ≤ p.S) ∧
    st' = { st with body := { st.body with
      data := poke st.body.data (link_to_position p link + index_size p)
        (c.to_data e).1.flatten } } := by
  unfold hashmap.set at h
  cases hg : manager.get_link p st.body link with
  | none => simp [hg] at h
  | some pos =>
    obtain ⟨g1, g2, g3, g4⟩ := (get_link_eq_some p st.body link pos).mp hg
    subst g4
    simp only [hg, Codec.run_to_data, Prod.mk.injEq, Bool.and_eq_true] at h
    obtain ⟨⟨_, hvalid⟩, hst⟩ := h
    by_cases hfit : link_to_position p link + index_size p ≤ st.body.data.length
    · have hskip : (Sink.mk st.body.data (link_to_position p link) st.body.data.length
          true).skip_bytes (index_size p) =
          ⟨st.body.data, link_to_position p link + index_size p, st.body.data.length, true⟩ := by
        simp [Sink.skip_bytes, hfit]
      rw [hskip] at hvalid hst
      cases hsl : is_slab p with
      | true =>
        simp only [hsl, if_true] at hvalid hst
        obtain ⟨_, _, _, w4, w5⟩ := foldl_write_bytes (c.to_data e).1
          ⟨st.body.data, link_to_position p link + index_size p, st.body.data.length, true⟩
          (Nat.le_refl _) (fun _ => hfit)
        obtain ⟨_, hle⟩ := w4.mp hvalid
        obtain ⟨m1, _⟩ := w5 hvalid
        simp only at hle m1
        refine ⟨g1, g2, g3, hle, fun hc => by simp at hc, ?_⟩
        rw [← hst, m1]
      | false =>
        simp only [hsl, Bool.false_eq_true, if_false, Sink.set_limit] at hvalid hst
        obtain ⟨_, _, _, w4, w5⟩ := foldl_write_bytes (c.to_data e).1
          ⟨st.body.data, link_to_position p link + index_size p,
            min st.body.data.length (link_to_position p link + index_size p + p.S), true⟩
          (Nat.min_le_left _ _) (fun _ => by simp only [Nat.le_min]; omega)
        obtain ⟨_, hle⟩ := w4.mp hvalid
        obtain ⟨m1, _⟩ := w5 hvalid
        simp only [Nat.le_min] at hle m1
        refine ⟨g1, g2, g3, hle.1, fun _ => by omega, ?_⟩
        rw [← hst, m1]
    · have hskip : (Sink.mk st.body.data (link_to_position p link) st.body.data.length
          true).skip_bytes (index_size p) =
          ⟨st.body.data, link_to_position p link, st.body.data.length, false⟩ := by
        simp [Sink.skip_bytes, hfit]
      rw [hskip] at hvalid
      cases hsl : is_slab p <;>
        simp only [hsl, if_true, Bool.false_eq_true, if_false, Sink.set_limit] at hvalid <;>
        rw [foldl_write_bytes_invalid _ _ rfl] at hvalid <;>
        simp at hvalid

/-- Counterexample to claim C13 as stated: in the slab table `tiny_slab` with
two elements of three bytes at the links 0 and 3, `set(0, [9, 3])` returns
true and, beside the one payload byte of element 0, overwrites byte 3 of the
body, the next field of the element at link 3, which read 0 before and reads 3
afterwards. -/
theorem slab_set_writes_past_its_element :
    is_slab tiny_slab = true ∧
    hashmap.count tiny_slab two_slabs = 6 ∧
    head.top tiny_slab two_slabs.head 1 = 3 ∧
    slab_codec.count [5] = 3 ∧
    (hashmap.set tiny_slab slab_codec two_slabs 0 [9, 3]).1 = true ∧
    peek two_slabs.body.data 3 1 = [0] ∧
    peek (hashmap.set tiny_slab slab_codec two_slabs 0 [9, 3]).2.body.data 3 1 = [3] ∧
    next_of tiny_slab two_slabs.body.data 3 = 0 ∧
    next_of tiny_slab (hashmap.set tiny_slab slab_codec two_slabs 0 [9, 3]).2.body.data 3
      = 3 := by
  decide

/-- Claim C13 (amended): after `set(link, e)` returns true the first
`index_size` bytes of the element (next field and key), the header (every
bucket entry and `head.body_count`) and `manager.count()` are unchanged, and
`get(link, out)` yields the element set, for a codec whose `from_data` inverts
`to_data`; the only bytes that change are those `to_data` wrote right behind
the `[next, key]` prefix.  On a record table these are at most `Size` bytes, so
no byte outside the payload of the element changes; on a slab table nothing
holds them within the element. -/
theorem set_changes_payload_only {α : Type} (p : Params) (c : Codec α) (st st' : State)
    (link : Nat) (e : α)
    (hinv : ∀ rest out,
      c.from_data ⟨true, limited p ((c.to_data e).1.flatten ++ rest)⟩ out = (true, e))
    (h : hashmap.set p c st link e = (true, st')) :
    peek st'.body.data (link_to_position p link) (index_size p)
      = peek st.body.data (link_to_position p link) (index_size p) ∧
    st'.head = st.head ∧
    (∀ i, head.top p st'.head i = head.top p st.head i) ∧
    head.get_body_count p st'.head = head.get_body_count p st.head ∧
    manager.count p st'.body = manager.count p st.body ∧
    (∀ out, hashmap.get p c st' link out = (true, e)) ∧
    (is_slab p = false → ∀ j m,
      j + m ≤ link_to_position p link + index_size p ∨
        link_to_position p link + index_size p + p.S ≤ j →
      peek st'.body.data j m = peek st.body.data j m) ∧
    (∀ j m,
      j + m ≤ link_to_position p link + index_size p ∨
        link_to_position p link + index_size p + (c.to_data e).1.flatten.length ≤ j →
      peek st'.body.data j m = peek st.body.data j m) ∧
    peek st'.body.data (link_to_position p link + index_size p)
      (c.to_data e).1.flatten.length = (c.to_data e).1.flatten ∧
    (is_slab p = false → (c.to_data e).1.flatten.length ≤ p.S) := by
  obtain ⟨s1, s2, s3, s4, s5, s6⟩ := set_true p c st st' link e h
  subst s6
  refine ⟨?_, rfl, fun _ => rfl, rfl, ?_, ?_, ?_, ?_, peek_poke_self _ _ _ s4, s5⟩
  · exact peek_poke_disjoint _ _ _ _ _ (Or.inl (Nat.le_refl _))
  · simp [manager.count, length_poke]
  · intro out
    exact get_of_peek p c
      { st with body := { st.body with
          data := poke st.body.data (link_to_position p link + index_size p)
            (c.to_data e).1.flatten } }
      link e (c.to_data e).1.flatten s1 s2
      (by simpa [length_poke] using s4) (by simpa [length_poke] using s3)
      (peek_poke_self _ _ _ s4) hinv out
  · intro hrec j m hjm
    have hd := s5 hrec
    rcases hjm with hjm | hjm
    · exact peek_poke_disjoint _ _ _ _ _ (Or.inl hjm)
    · exact peek_poke_disjoint _ _ _ _ _ (Or.inr (by omega))
  · intro j m hjm
    rcases hjm with hjm | hjm
    · exact peek_poke_disjoint _ _ _ _ _ (Or.inl hjm)
    · exact peek_poke_disjoint _ _ _ _ _ (Or.inr hjm)

/-- Witness for `set_changes_payload_only`: the payload of the first element of
`two_puts` set to 9. -/
theorem set_changes_payload_only_witness :
    peek (hashmap.set tiny byte_codec two_puts 0 9).2.body.data 0 2
      = peek two_puts.body.data 0 2 ∧
    (hashmap.set tiny byte_codec two_puts 0 9).2.head = two_puts.head ∧
    manager.count tiny (hashmap.set tiny byte_codec two_puts 0 9).2.body = 2 ∧
    hashmap.get tiny byte_codec (hashmap.set tiny byte_codec two_puts 0 9).2 0 1 = (true, 9) ∧
    peek (hashmap.set tiny byte_codec two_puts 0 9).2.body.data 3 3
      = peek two_puts.body.data 3 3 :=
  have h := set_changes_payload_only tiny byte_codec two_puts
    (hashmap.set tiny byte_codec two_puts 0 9).2 0 9 (fun _ _ => rfl) (by decide)
  ⟨h.1, h.2.1, h.2.2.2.2.1, h.2.2.2.2.2.1 1,
    h.2.2.2.2.2.2.1 (by decide) 3 3 (Or.inr (by decide))⟩

/-- Claim C12: when `commit(L, K)` returns true for a link value `L` whose
element prefix lies in the body and a key of `K` bytes, the key field of the
element equals the key, the bucket `head_.index(K)` holds `L`, the next field of
`L` holds the previous head of that bucket, no byte outside the `[next, key]`
prefix of the element changes (so the payload is unchanged), `first(K)` is `L`
and `commit_link` returns `L`; when `L` resolves to no memory, `commit` returns
false, `commit_link` returns terminal, and the state is unchanged. -/
theorem commit_indexes_element (p : Params) (st : State) (L : Nat) (key : List Byte) :
    (∀ st', key.length = p.K → L ≤ terminal p →
      link_to_position p L + index_size p ≤ st.body.data.length →
      hashmap.commit p st L key = (true, st') →
      peek st'.body.data (link_to_position p L + p.W) p.K = key ∧
      head.top p st'.head (head.index p key) = L ∧
      decode (peek st'.body.data (link_to_position p L) p.W)
        = head.top p st.head (head.index p key) ∧
      (∀ j m, j + m ≤ link_to_position p L ∨ link_to_position p L + index_size p ≤ j →
        peek st'.body.data j m = peek st.body.data j m) ∧
      (∀ fuel, hashmap.first p st' key (fuel + 1) = some L) ∧
      hashmap.commit_link p st L key = (L, st')) ∧
    (manager.get_link p st.body L = none →
      hashmap.commit p st L key = (false, st) ∧
      hashmap.commit_link p st L key = (terminal p, st)) := by
  constructor
  · intro st' hkey hL halloc h
    obtain ⟨c1, c2, c3, c4, c5, c6⟩ := commit_true p st st' L key h
    have hacc : head.offset p (head.index p key) + p.W ≤ st.head.data.length := by
      simp only [head.accessible, Bool.and_eq_true, decide_eq_true_eq] at c4
      exact c4.2
    have hHb : (peek st.head.data (head.offset p (head.index p key)) p.W).length = p.W :=
      length_peek_of_le _ _ _ hacc
    have htake : key.take p.K = key := by rw [← hkey, List.take_length]
    rw [htake] at c6
    unfold index_size at halloc
    have hlt := terminal_lt p
    have htop : head.top p st'.head (head.index p key) = L := by
      rw [c5]
      exact top_after_poke p st.head _ L c4 (by omega)
    have hkeyfield : peek st'.body.data (link_to_position p L + p.W) p.K = key := by
      rw [c6]
      simp only
      rw [peek_poke_disjoint _ _ _ _ _ (Or.inr (by rw [hHb])), ← hkey,
        peek_poke_self _ _ _ (by omega)]
    refine ⟨hkeyfield, htop, ?_, ?_, ?_, ?_⟩
    · rw [c6]
      simp only
      have := peek_poke_self (poke st.body.data (link_to_position p L + p.W) key)
        (link_to_position p L) (peek st.head.data (head.offset p (head.index p key)) p.W)
        (by rw [length_poke, hHb]; omega)
      rw [hHb] at this
      rw [this]
      unfold head.top
      rw [c4]
      simp
    · intro j m hjm
      rw [c6]
      simp only
      unfold index_size at hjm
      rcases hjm with hjm | hjm
      · rw [peek_poke_disjoint _ _ _ _ _ (Or.inl hjm),
          peek_poke_disjoint _ _ _ _ _ (Or.inl (by omega))]
      · rw [peek_poke_disjoint _ _ _ _ _ (Or.inr (by rw [hHb]; omega)),
          peek_poke_disjoint _ _ _ _ _ (Or.inr (by omega))]
    · intro fuel
      unfold hashmap.first manager.get
      have hm : st'.body.mapped = true := by rw [c6]; exact c2
      rw [hm, htop]
      simp only [if_true]
      unfold hashmap.first_loop
      have hnt : is_terminal p L = false := by simp [is_terminal, c1]
      have hoff : offset st'.body.data (link_to_position p L) = some (link_to_position p L) := by
        unfold offset
        rw [if_pos]
        rw [c6]
        simpa [length_poke] using c3
      rw [hnt, hoff]
      simp only [Bool.false_eq_true, if_false]
      rw [hkeyfield, htake]
      simp
    · unfold hashmap.commit_link
      rw [h]
      rfl
  · intro hg
    have hc : hashmap.commit p st L key = (false, st) := by
      unfold hashmap.commit
      rw [hg]
    refine ⟨hc, ?_⟩
    unfold hashmap.commit_link
    rw [hc]
    rfl

/-- Witness for `commit_indexes_element`: link 0 of `one_allocated` committed
under the key `[7]`, and a commit of the terminal link 255. -/
theorem commit_indexes_element_witness :
    peek (hashmap.commit tiny one_allocated 0 [7]).2.body.data 1 1 = [7] ∧
    head.top tiny (hashmap.commit tiny one_allocated 0 [7]).2.head 1 = 0 ∧
    decode (peek (hashmap.commit tiny one_allocated 0 [7]).2.body.data 0 1) = 255 ∧
    hashmap.first tiny (hashmap.commit tiny one_allocated 0 [7]).2 [7] 1 = some 0 ∧
    hashmap.commit tiny one_allocated 255 [7] = (false, one_allocated) ∧
    hashmap.commit_link tiny one_allocated 255 [7] = (255, one_allocated) :=
  have h1 := (commit_indexes_element tiny one_allocated 0 [7]).1
    (hashmap.commit tiny one_allocated 0 [7]).2 (by decide) (by decide) (by decide)
    (by decide)
  have h2 := (commit_indexes_element tiny one_allocated 255 [7]).2 (by decide)
  ⟨h1.1, h1.2.1, h1.2.2.1, h1.2.2.2.2.1 0, h2.1, h2.2⟩

/-! ## file_storage -/

set_option maxRecDepth 4096

theorem two_pow_floor_log2_loop_le (fuel n : Nat) (h : 0 < n) :
    2 ^ floor_log2_loop fuel n ≤ n := by
  induction fuel generalizing n with
  | zero => simpa [floor_log2_loop] using h
  | succ k ih =>
    unfold floor_log2_loop
    split
    · simpa using h
    · have h2 : 0 < n / 2 := Nat.div_pos (by omega) (by decide)
      have := ih (n / 2) h2
      rw [pow_succ]
      omega

theorem to_double_small (n : Nat) (h : n < 2 ^ 53) : to_double n = n := by
  unfold to_double
  rw [if_pos h]

/-- A number of at most 53 significant bits is a `binary64` value. -/
theorem to_double_exact (x k : Nat) (h : x < 2 ^ 53) : to_double (x * 2 ^ k) = x * 2 ^ k := by
  unfold to_double
  split
  · rfl
  · rename_i hn
    have hpos : 0 < x * 2 ^ k := by
      have : 0 < 2 ^ 53 := by positivity
      omega
    have hle := two_pow_floor_log2_loop_le (x * 2 ^ k) (x * 2 ^ k) hpos
    have hlt : 2 ^ floor_log2 (x * 2 ^ k) < 2 ^ (53 + k) := by
      calc 2 ^ floor_log2 (x * 2 ^ k) ≤ x * 2 ^ k := hle
        _ < 2 ^ 53 * 2 ^ k := Nat.mul_lt_mul_of_pos_right h (by positivity)
        _ = 2 ^ (53 + k) := (pow_add 2 53 k).symm
    have hs : floor_log2 (x * 2 ^ k) - 52 ≤ k := by
      have := (Nat.pow_lt_pow_iff_right (by decide : 1 < 2)).mp hlt
      omega
    have hdvd : 2 ^ (floor_log2 (x * 2 ^ k) - 52) ∣ x * 2 ^ k :=
      Dvd.dvd.mul_left (pow_dvd_pow 2 hs) x
    have hp : 0 < 2 ^ (floor_log2 (x * 2 ^ k) - 52) := by positivity
    have hr : x * 2 ^ k % 2 ^ (floor_log2 (x * 2 ^ k) - 52) = 0 :=
      Nat.mod_eq_zero_of_dvd hdvd
    simp only [hr]
    rw [if_neg (by omega)]
    exact Nat.div_mul_cancel hdvd

theorem double_quotient_default : double_quotient 150 100 = (6755399441055744, 52) := by
  decide

theorem double_quotient_one : double_quotient 100 100 = (4503599627370496, 52) := by
  decide

/-- With the default expansion of 50 percent the factor is `1.5` exactly, and
the product is exact while `3 * required` has at most 53 bits. -/
theorem double_product_default (required : Nat) (h : required < 2 ^ 51) :
    double_product required file_storage.default_expansion = required * 150 / 100 := by
  have h1 : to_double (to_double file_storage.default_expansion + 100) = 150 := by decide
  unfold double_product
  simp only [h1, double_quotient_default, to_double_small required (by omega)]
  have h2 : required * 6755399441055744 = (required * 3) * 2 ^ 51 := by ring
  rw [h2, to_double_exact _ _ (by omega)]
  omega

/-- A product that fits `size_t` is converted as it is. -/
theorem scaled_fits (out_of_range required expansion : Nat)
    (h : double_product required expansion < 2 ^ 64) :
    scaled out_of_range required expansion = double_product required expansion := by
  unfold scaled
  rw [if_pos h]

theorem scaled_default (out_of_range required : Nat) (h : required < 2 ^ 51) :
    scaled out_of_range required file_storage.default_expansion = required * 150 / 100 := by
  rw [scaled_fits _ _ _ (by rw [double_product_default required h]; omega),
    double_product_default required h]

/-- With no expansion the factor is `1` exactly, and the product is `required`
while it has at most 53 bits. -/
theorem double_product_zero (required : Nat) (h : required < 2 ^ 53) :
    double_product required 0 = required := by
  have h1 : to_double (to_double 0 + 100) = 100 := by decide
  unfold double_product
  simp only [h1, double_quotient_one, to_double_small required h]
  have h2 : required * 4503599627370496 = required * 2 ^ 52 := by ring
  rw [h2, to_double_exact _ _ h]
  rw [Nat.mul_div_cancel _ (by positivity)]

/-- The product with the factor of `resize` is exact up to `2 ^ 53`. -/
theorem double_product_zero_le (required : Nat) (h : required ≤ 2 ^ 53) :
    double_product required 0 = required := by
  rcases Nat.lt_or_ge required (2 ^ 53) with hlt | hge
  · exact double_product_zero required hlt
  · have he : required = 2 ^ 53 := by omega
    subst he
    decide

theorem scaled_zero_le (out_of_range required : Nat) (h : required ≤ 2 ^ 53) :
    scaled out_of_range required 0 = required := by
  rw [scaled_fits _ _ _ (by rw [double_product_zero_le required h]; omega),
    double_product_zero_le required h]

theorem scaled_zero (out_of_range required : Nat) (h : required < 2 ^ 53) :
    scaled out_of_range required 0 = required := by
  rw [scaled_fits _ _ _ (by rw [double_product_zero required h]; omega),
    double_product_zero required h]


/-- The `unmap()` member never changes the flag: its one assignment to
`mapped_` stores `true`, on the path where the flag is already `true`. -/
theorem unmap_flag (sys : Sys) (s : FileStorage) :
    (file_storage.unmap sys s).2.mapped = s.mapped := by
  unfold file_storage.unmap
  cases hm : s.mapped
  · simp [hm]
  · simp only [if_true]
    split_ifs <;> rfl

/-- The private `map(size)` succeeds exactly when `::mmap` does not return
`MAP_FAILED`; it leaves the flag, the logical size and the settings alone. -/
theorem map_size_frame (sys : Sys) (s : FileStorage) (size : Nat) :
    ((file_storage.map_size sys s size).1 = true ↔ sys.mmap ≠ Pointer.failed) ∧
    (file_storage.map_size sys s size).2.mapped = s.mapped ∧
    (file_storage.map_size sys s size).2.logical_size = s.logical_size ∧
    (file_storage.map_size sys s size).2.minimum = s.minimum ∧
    (file_storage.map_size sys s size).2.expansion = s.expansion ∧
    ((file_storage.map_size sys s size).1 = true →
      (file_storage.map_size sys s size).2.capacity = (if size = 0 then s.minimum else size)) := by
  unfold file_storage.map_size file_storage.validate
  by_cases h0 : size = 0 <;> by_cases hf : sys.mmap = Pointer.failed <;> simp [h0, hf]

/-- A successful `truncate_mapped(size)` leaves the capacity at `size` (at
`minimum_` when `size` is zero and the file is mapped afresh) and keeps the
flag, the logical size and the settings. -/
theorem truncate_mapped_true (mremap_maymove : Bool) (sys : Sys) (s s' : FileStorage)
    (size : Nat)
    (h : file_storage.truncate_mapped mremap_maymove sys s size = (true, s')) :
    (s'.capacity = size ∨ (size = 0 ∧ s'.capacity = s.minimum)) ∧
    s'.mapped = s.mapped ∧ s'.logical_size = s.logical_size ∧
    s'.minimum = s.minimum ∧ s'.expansion = s.expansion := by
  unfold file_storage.truncate_mapped at h
  cases mremap_maymove
  · simp only [Bool.false_eq_true, if_false] at h
    have hf := map_size_frame sys (file_storage.unmap_ sys s).2 size
    split_ifs at h with h1 h2
    · rw [h] at hf
      obtain ⟨-, f1, f2, f3, f4, f5⟩ := hf
      simp only [file_storage.unmap_] at f1 f2 f3 f4 f5
      refine ⟨?_, f1, f2, f3, f4⟩
      have := f5 trivial
      by_cases h0 : size = 0
      · right; simpa [h0] using this
      · left; simpa [h0] using this
    · simp at h
    · simp at h
  · simp only [if_true] at h
    split_ifs at h with h1
    · unfold file_storage.remap file_storage.validate at h
      simp only [if_true] at h
      split_ifs at h with h2
      · simp at h
      · simp only [Prod.mk.injEq, true_and] at h
        subst h
        simp
    · simp at h

/-- The outcomes of `reserve(required, minimum, expansion)` on a mapped store. -/
theorem reserve_with_ok (mremap_maymove : Bool) (sys : Sys) (s s' : FileStorage)
    (required minimum expansion : Nat) (ptr : Pointer) (hm : s.mapped = true)
    (h : file_storage.reserve_with mremap_maymove sys s required minimum expansion
      = (Except.ok ptr, s')) :
    s'.logical_size = required ∧ s'.mapped = true ∧ ptr = s'.data ∧
    s'.minimum = s.minimum ∧ s'.expansion = s.expansion ∧
    (required ≤ s.capacity → s' = { s with logical_size := required }) ∧
    (s.capacity < required →
      s'.capacity = max minimum (scaled sys.out_of_range required expansion) ∨
      (max minimum (scaled sys.out_of_range required expansion) = 0 ∧
        s'.capacity = s.minimum)) := by
  unfold file_storage.reserve_with at h
  rw [if_pos hm] at h
  by_cases hc : s.capacity < required
  · rw [if_pos hc] at h
    simp only at h
    cases hr : file_storage.truncate_mapped mremap_maymove sys s
        (max minimum (scaled sys.out_of_range required expansion)) with
    | mk ok s1 =>
      rw [hr] at h
      cases ok
      · simp at h
      · simp only [if_true, Prod.mk.injEq, Except.ok.injEq] at h
        obtain ⟨hp, hs'⟩ := h
        obtain ⟨f0, f1, f2, f3, f4⟩ := truncate_mapped_true _ _ _ _ _ hr
        subst hs'
        refine ⟨rfl, by simpa [hm] using f1, hp.symm, f3, f4, fun hle => by omega,
          fun _ => ?_⟩
        simpa using f0
  · rw [if_neg hc] at h
    simp only [Prod.mk.injEq, Except.ok.injEq] at h
    obtain ⟨hp, hs'⟩ := h
    subst hs'
    exact ⟨rfl, hm, hp.symm, rfl, rfl, fun _ => rfl, fun hlt => absurd hlt hc⟩

theorem lt_two_pow_floor_log2_loop (fuel n : Nat) (h : n ≤ fuel) :
    n < 2 ^ (floor_log2_loop fuel n + 1) := by
  induction fuel generalizing n with
  | zero => simp [floor_log2_loop]; omega
  | succ k ih =>
    unfold floor_log2_loop
    split
    · simpa using (by omega : n < 2)
    · have := ih (n / 2) (by omega)
      rw [pow_succ]
      omega

/-- Rounding to `binary64` never goes below a `binary64` value that the
number reaches. -/
theorem to_double_ge (n x k : Nat) (hx : x < 2 ^ 53) (h : x * 2 ^ k ≤ n) :
    x * 2 ^ k ≤ to_double n := by
  unfold to_double
  split
  · exact h
  · rename_i hn
    have hn : 2 ^ 53 ≤ n := by omega
    have hlo := two_pow_floor_log2_loop_le n n (by omega)
    have hhi := lt_two_pow_floor_log2_loop n n (le_refl n)
    change 2 ^ floor_log2 n ≤ n at hlo
    change n < 2 ^ (floor_log2 n + 1) at hhi
    have hl : 53 ≤ floor_log2 n := by
      have : 2 ^ 53 < 2 ^ (floor_log2 n + 1) := lt_of_le_of_lt hn hhi
      have := (Nat.pow_lt_pow_iff_right (by decide : 1 < 2)).mp this
      omega
    generalize floor_log2 n = l at hlo hhi hl
    have hp : 0 < 2 ^ (l - 52) := by positivity
    have hq : x * 2 ^ k ≤ n / 2 ^ (l - 52) * 2 ^ (l - 52) := by
      by_cases hs : l - 52 ≤ k
      · have e : x * 2 ^ k = x * 2 ^ (k - (l - 52)) * 2 ^ (l - 52) := by
          rw [mul_assoc, ← pow_add, Nat.sub_add_cancel hs]
        rw [e]
        apply Nat.mul_le_mul_right
        rw [Nat.le_div_iff_mul_le hp, ← e]
        exact h
      · have h1 : x * 2 ^ k < 2 ^ 53 * 2 ^ k := Nat.mul_lt_mul_of_pos_right hx (by positivity)
        have h2 : 2 ^ 53 * 2 ^ k ≤ 2 ^ 52 * 2 ^ (l - 52) := by
          rw [← pow_add, ← pow_add]
          exact Nat.pow_le_pow_right (by decide) (by omega)
        have h3 : 2 ^ 52 ≤ n / 2 ^ (l - 52) := by
          rw [Nat.le_div_iff_mul_le hp, ← pow_add]
          have : 52 + (l - 52) = l := by omega
          rw [this]
          exact hlo
        have h4 := Nat.mul_le_mul_right (2 ^ (l - 52)) h3
        omega
    simp only
    split_ifs
    · have : n / 2 ^ (l - 52) * 2 ^ (l - 52) ≤ (n / 2 ^ (l - 52) + 1) * 2 ^ (l - 52) :=
        Nat.mul_le_mul_right _ (Nat.le_succ _)
      omega
    · exact hq

/-- The quotient of a number of at least 100 by 100 is at least one. -/
theorem double_quotient_ge_one (a : Nat) (h : 100 ≤ a) :
    2 ^ (double_quotient a 100).2 ≤ (double_quotient a 100).1 := by
  unfold double_quotient
  simp only
  have hlo := two_pow_floor_log2_loop_le (a / 100) (a / 100) (by omega)
  change 2 ^ floor_log2 (a / 100) ≤ a / 100 at hlo
  generalize floor_log2 (a / 100) = l at hlo
  by_cases hl : l ≤ 52
  · simp only [hl, if_true]
    have hq : 2 ^ (52 - l) ≤ a * 2 ^ (52 - l) / 100 := by
      rw [Nat.le_div_iff_mul_le (by decide)]
      rw [mul_comm]
      exact Nat.mul_le_mul_right _ h
    split_ifs
    · exact Nat.le_succ_of_le hq
    · exact hq
  · simp only [hl, if_false]
    have hs : 2 ^ (l - 52) ≤ 2 ^ l := Nat.pow_le_pow_right (by decide) (by omega)
    have hp : 0 < 2 ^ (l - 52) := by positivity
    have hq : 1 ≤ a / (100 * 2 ^ (l - 52)) := by
      rw [Nat.le_div_iff_mul_le (by positivity), one_mul]
      have : 100 * 2 ^ (l - 52) ≤ 100 * (a / 100) :=
        Nat.mul_le_mul_left _ (le_trans hs hlo)
      omega
    have h1 : 1 ≤ a / (100 * 2 ^ (l - 52)) * 2 ^ (l - 52) := Nat.mul_pos hq hp
    split_ifs
    · have : a / (100 * 2 ^ (l - 52)) * 2 ^ (l - 52)
          ≤ (a / (100 * 2 ^ (l - 52)) + 1) * 2 ^ (l - 52) :=
        Nat.mul_le_mul_right _ (Nat.le_succ _)
      simp only [pow_zero]
      omega
    · simpa using h1

/-- Up to `2 ^ 53` the product is never below the required size. -/
theorem double_product_ge (required expansion : Nat) (hr : required ≤ 2 ^ 53) :
    required ≤ double_product required expansion := by
  unfold double_product
  simp only
  have ha : 100 ≤ to_double (to_double expansion + 100) := by
    have := to_double_ge (to_double expansion + 100) 100 0 (by decide) (by omega)
    omega
  have hf := double_quotient_ge_one _ ha
  generalize double_quotient (to_double (to_double expansion + 100)) 100 = f at hf ⊢
  have hreq : to_double required = required := by
    by_cases h53 : required < 2 ^ 53
    · exact to_double_small required h53
    · have : required = 2 ^ 52 * 2 ^ 1 := by omega
      rw [this]
      exact to_double_exact _ _ (by decide)
  rw [hreq]
  have hP : required * 2 ^ f.2 ≤ to_double (required * f.1) := by
    by_cases h53 : required < 2 ^ 53
    · exact to_double_ge _ _ _ h53 (Nat.mul_le_mul_left _ hf)
    · have e : required = 2 ^ 52 * 2 ^ 1 := by omega
      have e2 : required * 2 ^ f.2 = 2 ^ 52 * 2 ^ (1 + f.2) := by
        rw [e, mul_assoc, ← pow_add]
      rw [e2]
      apply to_double_ge _ _ _ (by decide)
      rw [← e2]
      exact Nat.mul_le_mul_left _ hf
  rw [Nat.le_div_iff_mul_le (by positivity)]
  exact hP

/-- After a normal return of `reserve(required, minimum, expansion)` on a
mapped store the logical size is `required`, the capacity is untouched when it
already covered `required`, and it covers `required` when that is at most
`2 ^ 53` and the product fits `size_t`. -/
theorem reserve_with_fits (mremap_maymove : Bool) (sys : Sys) (s s' : FileStorage)
    (required minimum expansion : Nat) (ptr : Pointer) (hm : s.mapped = true)
    (h : file_storage.reserve_with mremap_maymove sys s required minimum expansion
      = (Except.ok ptr, s')) :
    s'.logical_size = required ∧
    (required ≤ s.capacity → s'.capacity = s.capacity) ∧
    (required ≤ 2 ^ 53 → double_product required expansion < 2 ^ 64 →
      required ≤ s'.capacity) := by
  obtain ⟨hl, -, -, -, -, hkeep, hgrow⟩ := reserve_with_ok _ _ _ _ _ _ _ _ hm h
  refine ⟨hl, fun hle => by rw [hkeep hle], fun h53 h64 => ?_⟩
  by_cases hle : required ≤ s.capacity
  · rw [hkeep hle]
    exact hle
  · have hcap := hgrow (by omega)
    rw [scaled_fits _ _ _ h64] at hcap
    have hge := double_product_ge required expansion h53
    have hmax : double_product required expansion
        ≤ max minimum (double_product required expansion) := le_max_right _ _
    rcases hcap with hcap | ⟨h0, -⟩
    · omega
    · omega

/-! ### The claims on file_storage -/

/-- Claim C15 (the code departs from it): `unmap()` leaves the flag as it found
it, for every store and every outcome of the system calls, because its only
assignment is `mapped_ = true`; on the mapped store `open_store`, with every
system call succeeding, `unmap()` returns true and `mapped()` is still true. -/
theorem unmap_keeps_mapped_flag (sys : Sys) (s : FileStorage) :
    file_storage.is_mapped (file_storage.unmap sys s).2 = file_storage.is_mapped s ∧
    file_storage.is_mapped open_store = true ∧
    (file_storage.unmap all_succeed open_store).1 = true ∧
    file_storage.is_mapped (file_storage.unmap all_succeed open_store).2 = true :=
  ⟨unmap_flag sys s, by decide, by decide, by decide⟩

/-- Claim C16: `map()` on a mapped store returns false and changes nothing; on
an unmapped store it returns true exactly when the private `map(capacity_)`
succeeds (`::mmap` does not return `MAP_FAILED`) and `::madvise` succeeds, and
the flag afterwards equals the result: true on success, false on any failure. -/
theorem map_sets_flag_on_success_only (sys : Sys) (s : FileStorage) :
    (s.mapped = true → file_storage.map sys s = (false, s)) ∧
    (s.mapped = false →
      ((file_storage.map sys s).1 = true ↔
        (file_storage.map_size sys s s.capacity).1 = true ∧ sys.madvise = true) ∧
      ((file_storage.map_size sys s s.capacity).1 = true ↔ sys.mmap ≠ Pointer.failed) ∧
      file_storage.is_mapped (file_storage.map sys s).2 = (file_storage.map sys s).1) := by
  refine ⟨fun hm => ?_, fun hm => ⟨?_, (map_size_frame sys s s.capacity).1, ?_⟩⟩
  · unfold file_storage.map
    rw [if_pos hm]
  · unfold file_storage.map
    simp only [hm, Bool.false_eq_true, if_false]
    split_ifs <;> simp_all
  · have hf := (map_size_frame sys s s.capacity).2.1
    unfold file_storage.map file_storage.is_mapped
    simp only [hm, Bool.false_eq_true, if_false]
    split_ifs with h1 h2
    · rfl
    · simpa [hm] using hf
    · simpa [hm] using hf

/-- Witness for `map_sets_flag_on_success_only`: the mapped `open_store`, and
the unmapped store over a file of 8 bytes whose `map()` succeeds. -/
theorem map_sets_flag_on_success_only_witness :
    file_storage.map all_succeed open_store = (false, open_store) ∧
    file_storage.is_mapped
      (file_storage.map all_succeed (file_storage.construct 8 1 50)).2 = true :=
  ⟨(map_sets_flag_on_success_only all_succeed open_store).1 (by decide),
   ((map_sets_flag_on_success_only all_succeed (file_storage.construct 8 1 50)).2
      (by decide)).2.2.trans (by decide)⟩

/-- Claim C17: `access()` throws the closed-store exception exactly when the
store is not mapped; on a mapped store it returns the accessor assigned
`data_`; in both cases the store (capacity and logical size included) is
unchanged. -/
theorem access_closed_iff_unmapped (s : FileStorage) :
    ((file_storage.access s).1 = Except.error Failure.closed ↔ s.mapped = false) ∧
    (s.mapped = true → (file_storage.access s).1 = Except.ok s.data) ∧
    (file_storage.access s).2 = s := by
  unfold file_storage.access
  cases hm : s.mapped <;> simp

/-- Witness for `access_closed_iff_unmapped`: the mapped `open_store` yields
its data pointer. -/
theorem access_closed_iff_unmapped_witness :
    (file_storage.access open_store).1 = Except.ok (Pointer.addr 4096) :=
  (access_closed_iff_unmapped open_store).2.1 (by decide)

/-- Claim C18: on an unmapped store `resize(required)` and `reserve(required)`
throw the closed-store exception and leave the store (logical size, capacity
and data pointer included) unchanged, for every required size. -/
theorem resize_reserve_closed_when_unmapped (mremap_maymove : Bool) (sys : Sys)
    (s : FileStorage) (required : Nat) (h : s.mapped = false) :
    file_storage.resize mremap_maymove sys s required = (Except.error Failure.closed, s) ∧
    file_storage.reserve mremap_maymove sys s required = (Except.error Failure.closed, s) := by
  unfold file_storage.resize file_storage.reserve file_storage.reserve_with
  simp [h]

/-- Witness for `resize_reserve_closed_when_unmapped`: the store over a file of
8 bytes before any `map()`. -/
theorem resize_reserve_closed_when_unmapped_witness :
    file_storage.resize true all_succeed (file_storage.construct 8 1 50) 100
      = (Except.error Failure.closed, file_storage.construct 8 1 50) ∧
    file_storage.reserve true all_succeed (file_storage.construct 8 1 50) 100
      = (Except.error Failure.closed, file_storage.construct 8 1 50) :=
  resize_reserve_closed_when_unmapped true all_succeed (file_storage.construct 8 1 50) 100
    (by decide)

/-- Claim C19 (the code departs from it above `2 ^ 53`): when `resize(required)`
or `reserve(required)` returns normally on a mapped store, the logical size is
`required` and a capacity that already covered `required` is unchanged; for
`required ≤ 2 ^ 53` the capacity covers `required` after `resize`, and after
`reserve` when the product `required * ((expansion + 100.0) / 100.0)` is below
`2 ^ 64`.  But `resize(2 ^ 53 + 1)` on `open_store` returns normally with a
capacity of `2 ^ 53`, one below the logical size, because `required` is rounded
when it is converted to `double`; and `reserve(2 ^ 53)` on `wide_store`, whose
product `2 ^ 64 + 2 ^ 53` does not fit `size_t`, returns normally with the
capacity at the minimum 1 where the conversion delivers zero. -/
theorem resize_rounds_capacity_below_required (mremap_maymove : Bool) (sys : Sys)
    (s s' : FileStorage) (required : Nat) (ptr : Pointer) :
    (s.mapped = true →
      file_storage.resize mremap_maymove sys s required = (Except.ok ptr, s') →
      s'.logical_size = required ∧
      (required ≤ s.capacity → s'.capacity = s.capacity) ∧
      (required ≤ 2 ^ 53 → required ≤ s'.capacity)) ∧
    (s.mapped = true →
      file_storage.reserve mremap_maymove sys s required = (Except.ok ptr, s') →
      s'.logical_size = required ∧
      (required ≤ s.capacity → s'.capacity = s.capacity) ∧
      (required ≤ 2 ^ 53 → double_product required s.expansion < 2 ^ 64 →
        required ≤ s'.capacity)) ∧
    (open_store.mapped = true ∧
      (file_storage.resize true all_succeed open_store 9007199254740993).1
        = Except.ok (Pointer.addr 8192) ∧
      (file_storage.resize true all_succeed open_store 9007199254740993).2.logical_size
        = 9007199254740993 ∧
      (file_storage.resize true all_succeed open_store 9007199254740993).2.capacity
        = 9007199254740992) ∧
    (wide_store.mapped = true ∧
      double_product 9007199254740992 wide_store.expansion = 2 ^ 64 + 2 ^ 53 ∧
      (file_storage.reserve true all_succeed wide_store 9007199254740992).1
        = Except.ok (Pointer.addr 8192) ∧
      (file_storage.reserve true all_succeed wide_store 9007199254740992).2.logical_size
        = 9007199254740992 ∧
      (file_storage.reserve true all_succeed wide_store 9007199254740992).2.capacity
        = 1) := by
  refine ⟨fun hm h => ?_, fun hm h => ?_, ⟨by decide, by rfl, by decide, by decide⟩,
    ⟨by decide, by decide, by rfl, by decide, by decide⟩⟩
  · obtain ⟨g1, g2, g3⟩ := reserve_with_fits _ _ _ _ _ _ _ _ hm h
    refine ⟨g1, g2, fun h53 => g3 h53 ?_⟩
    rw [double_product_zero_le required h53]
    omega
  · exact reserve_with_fits _ _ _ _ _ _ _ _ hm h

/-- Witness for `resize_rounds_capacity_below_required`: `resize(100)` on
`open_store` (capacity 8) leaves the logical size at 100 and a capacity of at
least 100. -/
theorem resize_rounds_capacity_below_required_witness :
    (file_storage.resize true all_succeed open_store 100).2.logical_size = 100 ∧
    100 ≤ (file_storage.resize true all_succeed open_store 100).2.capacity :=
  have h := (resize_rounds_capacity_below_required true all_succeed open_store
    (file_storage.resize true all_succeed open_store 100).2 100 (Pointer.addr 8192)).1
    (by decide) (by rfl)
  ⟨h.1, h.2.2 (by decide)⟩

/-- Counterexample to claim C20 as stated: on the mapped `odd_store` (minimum
1, expansion 13 percent, capacity 8) `reserve(100)` succeeds and leaves the
capacity at 112, while `max(1, floor(100 * 113 / 100))` is 113; and on the
mapped `open_store` (minimum 1, expansion 50 percent) `reserve(2 ^ 64 - 1)`,
whose product does not fit `size_t`, succeeds and leaves the capacity at the
minimum 1 where the conversion delivers zero. -/
theorem reserve_target_is_not_the_integer_floor :
    odd_store.mapped = true ∧ odd_store.capacity < 100 ∧
    (file_storage.reserve true all_succeed odd_store 100).1 = Except.ok (Pointer.addr 8192) ∧
    (file_storage.reserve true all_succeed odd_store 100).2.capacity = 112 ∧
    max odd_store.minimum (100 * (100 + odd_store.expansion) / 100) = 113 ∧
    (file_storage.reserve true all_succeed odd_store 100).2.capacity
      ≠ max odd_store.minimum (100 * (100 + odd_store.expansion) / 100) ∧
    open_store.mapped = true ∧ open_store.capacity < 18446744073709551615 ∧
    (file_storage.reserve true all_succeed open_store 18446744073709551615).1
      = Except.ok (Pointer.addr 8192) ∧
    (file_storage.reserve true all_succeed open_store 18446744073709551615).2.capacity = 1 ∧
    (file_storage.reserve true all_succeed open_store 18446744073709551615).2.capacity
      ≠ max open_store.minimum
        (18446744073709551615 * (100 + open_store.expansion) / 100) :=
  ⟨by decide, by decide, by rfl, by decide, by decide, by decide,
    by decide, by decide, by rfl, by decide, by decide⟩

/-- Claim C20, amended: a successful `reserve(required)` on a mapped store with
`required > capacity` sets the capacity to `max(minimum, t)`, where `t` is the
`binary64` product `required * ((expansion + 100.0) / 100.0)` truncated to an
integer, provided that product is below `2 ^ 64`; `t` is
`floor(required * (100 + expansion) / 100)` for the default expansion of 50
percent when `required < 2 ^ 51`, and `required` for an expansion of zero when
`required < 2 ^ 53`.  A product of `2 ^ 64` or more does not fit `size_t`: the
call goes on with whatever the conversion delivers, and the capacity becomes
the larger of the minimum and that value. -/
theorem reserve_grows_to_scaled_target (mremap_maymove : Bool) (sys : Sys)
    (s s' : FileStorage) (required : Nat) (ptr : Pointer)
    (hm : s.mapped = true) (hc : s.capacity < required)
    (h : file_storage.reserve mremap_maymove sys s required = (Except.ok ptr, s')) :
    (double_product required s.expansion < 2 ^ 64 →
      s'.capacity = max s.minimum (double_product required s.expansion)) ∧
    (s.expansion = file_storage.default_expansion → required < 2 ^ 51 →
      s'.capacity = max s.minimum (required * (100 + s.expansion) / 100)) ∧
    (s.expansion = 0 → required < 2 ^ 53 → s'.capacity = max s.minimum required) ∧
    (2 ^ 64 ≤ double_product required s.expansion →
      s'.capacity = max s.minimum sys.out_of_range) := by
  obtain ⟨-, -, -, -, -, -, hg⟩ := reserve_with_ok _ _ _ _ _ _ _ _ hm h
  have hcap : s'.capacity = max s.minimum (scaled sys.out_of_range required s.expansion) := by
    rcases hg hc with hcap | ⟨h0, hcap⟩
    · exact hcap
    · have : s.minimum ≤ max s.minimum (scaled sys.out_of_range required s.expansion) :=
        le_max_left _ _
      omega
  refine ⟨fun h64 => ?_, fun he hr => ?_, fun he hr => ?_, fun h64 => ?_⟩
  · rw [hcap, scaled_fits _ _ _ h64]
  · rw [hcap, he, scaled_default _ required hr]
    rfl
  · rw [hcap, he, scaled_zero _ required hr]
  · rw [hcap]
    unfold scaled
    rw [if_neg (by omega)]

/-- Witness for `reserve_grows_to_scaled_target`: `reserve(101)` on
`open_store` (minimum 1, expansion 50 percent, capacity 8) leaves the capacity
at 151. -/
theorem reserve_grows_to_scaled_target_witness :
    (file_storage.reserve true all_succeed open_store 101).2.capacity = 151 :=
  ((reserve_grows_to_scaled_target true all_succeed open_store
    (file_storage.reserve true all_succeed open_store 101).2 101 (Pointer.addr 8192)
    (by decide) (by decide) (by rfl)).2.1 (by decide) (by decide)).trans (by decide)

/-- A `reserve(required, minimum, expansion)` that throws the closed-store
exception leaves the store as it was. -/
theorem reserve_with_closed (mremap_maymove : Bool) (sys : Sys) (s : FileStorage)
    (required minimum expansion : Nat)
    (h : (file_storage.reserve_with mremap_maymove sys s required minimum expansion).1
      = Except.error Failure.closed) :
    (file_storage.reserve_with mremap_maymove sys s required minimum expansion).2 = s := by
  unfold file_storage.reserve_with at h ⊢
  cases hm : s.mapped with
  | false => simp
  | true =>
    simp only [hm, if_true] at h
    by_cases hc : s.capacity < required
    · simp only [hc, if_true] at h
      split_ifs at h
      simp at h
    · simp [hc] at h

/-- The `unmap()` member leaves capacity and logical size as they are. -/
theorem unmap_sizes (sys : Sys) (s : FileStorage) :
    (file_storage.unmap sys s).2.capacity = s.capacity ∧
    (file_storage.unmap sys s).2.logical_size = s.logical_size := by
  unfold file_storage.unmap
  cases hm : s.mapped
  · simp
  · simp only [if_true]
    split_ifs <;> exact ⟨rfl, rfl⟩

/-- A successful `map()` of an unmapped store: an empty file is mapped at the
minimum, another file at its size; the logical size stays. -/
theorem map_true (sys : Sys) (s s' : FileStorage) (hm : s.mapped = false)
    (h : file_storage.map sys s = (true, s')) :
    s'.capacity = (if s.capacity = 0 then s.minimum else s.capacity) ∧
    s'.logical_size = s.logical_size ∧ s'.mapped = true ∧ s'.data = sys.mmap ∧
    sys.mmap ≠ Pointer.failed ∧ sys.madvise = true := by
  obtain ⟨f1, -, f3, -, -, f6⟩ := map_size_frame sys s s.capacity
  unfold file_storage.map at h
  simp only [hm, Bool.false_eq_true, if_false] at h
  split_ifs at h with h1 h2
  · simp only [Prod.mk.injEq, true_and] at h
    subst h
    refine ⟨f6 h1, f3, rfl, ?_, f1.mp h1, h2⟩
    unfold file_storage.map_size file_storage.validate
    have hf := f1.mp h1
    split_ifs <;> rfl
  · simp at h
  · simp at h

/-- The `truncate_mapped` member never changes the configured expansion. -/
theorem truncate_mapped_expansion (mremap_maymove : Bool) (sys : Sys) (s : FileStorage)
    (size : Nat) :
    (file_storage.truncate_mapped mremap_maymove sys s size).2.expansion = s.expansion := by
  have hf := fun t => (map_size_frame sys t size).2.2.2.2.1
  unfold file_storage.truncate_mapped
  cases mremap_maymove
  · simp only [Bool.false_eq_true, if_false]
    split_ifs
    · rw [hf]
      rfl
    · rfl
    · rfl
  · simp only [if_true]
    split_ifs
    · unfold file_storage.remap file_storage.validate
      simp only [if_true]
      split_ifs <;> rfl
    · rfl

/-- No member call changes the configured expansion. -/
theorem StoreCall.run_expansion (mremap_maymove : Bool) (sys : Sys) (s : FileStorage)
    (call : StoreCall) :
    (StoreCall.run mremap_maymove sys s call).2.expansion = s.expansion := by
  have hres : ∀ required minimum expansion,
      (file_storage.reserve_with mremap_maymove sys s required minimum
        expansion).2.expansion = s.expansion := by
    intro required minimum expansion
    unfold file_storage.reserve_with
    simp only
    split_ifs
    · exact truncate_mapped_expansion _ _ _ _
    · exact truncate_mapped_expansion _ _ _ _
    · rfl
    · rfl
  cases call with
  | map =>
    simp only [StoreCall.run, file_storage.map]
    have hf := (map_size_frame sys s s.capacity).2.2.2.2.1
    split_ifs
    · rfl
    · exact hf
    · exact hf
    · exact hf
  | flush => rfl
  | unmap =>
    simp only [StoreCall.run, file_storage.unmap]
    split_ifs <;> rfl
  | access =>
    simp only [StoreCall.run, file_storage.access]
    split_ifs <;> rfl
  | resize required => exact hres required 0 0
  | reserve required => exact hres required s.minimum s.expansion

/-- One member call that keeps the mapping, asking for at most `2 ^ 53` bytes
with a product that fits `size_t`, keeps the logical size within the
capacity. -/
theorem StoreCall.run_keeps_fit (mremap_maymove : Bool) (sys : Sys) (s : FileStorage)
    (call : StoreCall) (hfit : s.logical_size ≤ s.capacity)
    (hreq : call.required ≤ 2 ^ 53) (hprod : call.product s.expansion < 2 ^ 64)
    (hk : (StoreCall.run mremap_maymove sys s call).1 = true) :
    (StoreCall.run mremap_maymove sys s call).2.logical_size
      ≤ (StoreCall.run mremap_maymove sys s call).2.capacity := by
  have hres : ∀ minimum expansion required, required ≤ 2 ^ 53 →
      double_product required expansion < 2 ^ 64 →
      returned_or_closed
        (file_storage.reserve_with mremap_maymove sys s required minimum expansion).1 = true →
      (file_storage.reserve_with mremap_maymove sys s required minimum expansion).2.logical_size
        ≤ (file_storage.reserve_with mremap_maymove sys s required minimum
            expansion).2.capacity := by
    intro minimum expansion required h53 h64 hr
    cases hres : (file_storage.reserve_with mremap_maymove sys s required minimum
        expansion).1 with
    | error f =>
      rw [hres] at hr
      cases f with
      | closed => rw [reserve_with_closed _ _ _ _ _ _ hres]; exact hfit
      | resize => simp [returned_or_closed] at hr
    | ok ptr =>
      cases hm : s.mapped with
      | false =>
        unfold file_storage.reserve_with at hres
        simp [hm] at hres
      | true =>
        obtain ⟨g1, -, g3⟩ := reserve_with_fits mremap_maymove sys s _ required minimum
          expansion ptr hm (Prod.ext hres rfl)
        rw [g1]
        exact g3 h53 h64
  cases call with
  | map =>
    simp only [StoreCall.run, Bool.or_eq_true] at hk ⊢
    cases hm : s.mapped with
    | true =>
      unfold file_storage.map
      simp only [hm, if_true]
      exact hfit
    | false =>
      rw [hm] at hk
      simp only [Bool.false_eq_true, false_or] at hk
      obtain ⟨m1, m2, -⟩ := map_true sys s _ hm (Prod.ext hk rfl)
      rw [m1, m2]
      split_ifs with h0
      · omega
      · exact hfit
  | flush => exact hfit
  | unmap =>
    simp only [StoreCall.run]
    rw [(unmap_sizes sys s).1, (unmap_sizes sys s).2]
    exact hfit
  | access =>
    simp only [StoreCall.run, file_storage.access]
    split_ifs <;> exact hfit
  | resize required => exact hres 0 0 required hreq hprod hk
  | reserve required => exact hres s.minimum s.expansion required hreq hprod hk

/-- Claim C21: on a mapped store `resize(required)` and `reserve(required)` with
`required ≤ capacity` return the accessor over the unchanged data pointer and
change the logical size only, whatever the system calls would answer: no
truncate and no remap takes place. -/
theorem resize_within_capacity_sets_logical_only (mremap_maymove : Bool) (sys : Sys)
    (s : FileStorage) (required : Nat) (hm : s.mapped = true)
    (hc : required ≤ s.capacity) :
    file_storage.resize mremap_maymove sys s required
      = (Except.ok s.data, { s with logical_size := required }) ∧
    file_storage.reserve mremap_maymove sys s required
      = (Except.ok s.data, { s with logical_size := required }) := by
  have hn : ¬ s.capacity < required := by omega
  unfold file_storage.resize file_storage.reserve file_storage.reserve_with
  simp only [if_pos hm, if_neg hn]
  exact ⟨trivial, trivial⟩

/-- Witness for `resize_within_capacity_sets_logical_only`: `resize(5)` and
`reserve(5)` on `open_store` (capacity 8) with every system call failing. -/
theorem resize_within_capacity_sets_logical_only_witness :
    file_storage.resize true all_fail open_store 5
      = (Except.ok open_store.data, { open_store with logical_size := 5 }) ∧
    file_storage.reserve true all_fail open_store 5
      = (Except.ok open_store.data, { open_store with logical_size := 5 }) :=
  resize_within_capacity_sets_logical_only true all_fail open_store 5 (by decide) (by decide)

/-- Counterexample to claim C22 as stated: over a file of 8 bytes, a `map()`
whose `::mmap` fails leaves the capacity at 0 and the logical size at 8; after
a successful `map()`, a `reserve(100)` whose `::mremap` fails throws and leaves
the capacity at 0 and the logical size at 8; a `resize(2 ^ 53 + 1)` leaves the
capacity at `2 ^ 53`, one below the logical size; and with an expansion of
204800 percent a `reserve(2 ^ 53)`, whose product does not fit `size_t`,
leaves the capacity at 1 where the conversion delivers zero. -/
theorem failed_mapping_drops_capacity_below_logical :
    (run_store true [(mmap_fails, StoreCall.map)]
      (file_storage.construct_default 8)).capacity = 0 ∧
    (run_store true [(mmap_fails, StoreCall.map)]
      (file_storage.construct_default 8)).logical_size = 8 ∧
    (run_store true [(all_succeed, StoreCall.map),
        ({ all_succeed with mremap := Pointer.failed }, StoreCall.reserve 100)]
      (file_storage.construct_default 8)).capacity = 0 ∧
    (run_store true [(all_succeed, StoreCall.map),
        ({ all_succeed with mremap := Pointer.failed }, StoreCall.reserve 100)]
      (file_storage.construct_default 8)).logical_size = 8 ∧
    (run_store true [(all_succeed, StoreCall.map),
        (all_succeed, StoreCall.resize 9007199254740993)]
      (file_storage.construct_default 8)).capacity = 9007199254740992 ∧
    (run_store true [(all_succeed, StoreCall.map),
        (all_succeed, StoreCall.resize 9007199254740993)]
      (file_storage.construct_default 8)).logical_size = 9007199254740993 ∧
    (run_store true [(all_succeed, StoreCall.map),
        (all_succeed, StoreCall.reserve 9007199254740992)]
      (file_storage.construct 8 1 204800)).capacity = 1 ∧
    (run_store true [(all_succeed, StoreCall.map),
        (all_succeed, StoreCall.reserve 9007199254740992)]
      (file_storage.construct 8 1 204800)).logical_size = 9007199254740992 := by
  decide

/-- Claim C22, amended: in every state reached from construction by a sequence
of `map`, `flush`, `unmap`, `access`, `resize` and `reserve` calls that keeps
the mapping (no `map()` of an unmapped store fails, no `resize` or `reserve`
throws the resize failure), asks for at most `2 ^ 53` bytes each time and
never multiplies to a product of `2 ^ 64` or more (the `double` that `resize`
or `reserve` converts to `size_t` fits it), the logical size is at most the
capacity, whatever the other outcomes of the system calls. -/
theorem logical_within_capacity_while_mapping_kept (mremap_maymove : Bool)
    (size minimum expansion : Nat) (calls : List (Sys × StoreCall))
    (hreq : ∀ sc ∈ calls, sc.2.required ≤ 2 ^ 53)
    (hprod : ∀ sc ∈ calls, sc.2.product expansion < 2 ^ 64)
    (hk : mapping_kept mremap_maymove calls
      (file_storage.construct size minimum expansion) = true) :
    (run_store mremap_maymove calls
      (file_storage.construct size minimum expansion)).logical_size
      ≤ (run_store mremap_maymove calls
        (file_storage.construct size minimum expansion)).capacity := by
  have key : ∀ (calls : List (Sys × StoreCall)) (s : FileStorage),
      s.logical_size ≤ s.capacity → s.expansion = expansion →
      (∀ sc ∈ calls, sc.2.required ≤ 2 ^ 53) →
      (∀ sc ∈ calls, sc.2.product expansion < 2 ^ 64) →
      mapping_kept mremap_maymove calls s = true →
      (run_store mremap_maymove calls s).logical_size
        ≤ (run_store mremap_maymove calls s).capacity := by
    intro calls
    induction calls with
    | nil => intro s hfit _ _ _ _; exact hfit
    | cons sc rest ih =>
      intro s hfit he hreq hprod hk
      obtain ⟨sys, call⟩ := sc
      simp only [mapping_kept, Bool.and_eq_true] at hk
      simp only [run_store]
      exact ih _
        (StoreCall.run_keeps_fit mremap_maymove sys s call hfit
          (hreq (sys, call) (List.mem_cons_self _ _))
          (by rw [he]; exact hprod (sys, call) (List.mem_cons_self _ _)) hk.1)
        ((StoreCall.run_expansion mremap_maymove sys s call).trans he)
        (fun sc hsc => hreq sc (List.mem_cons_of_mem _ hsc))
        (fun sc hsc => hprod sc (List.mem_cons_of_mem _ hsc)) hk.2
  exact key calls _ (le_refl _) rfl hreq hprod hk

/-- Witness for `logical_within_capacity_while_mapping_kept`: an empty file is
mapped, grown by `reserve(10)` and `reserve(20)`, shrunk by `resize(5)`, and
unmapped. -/
theorem logical_within_capacity_while_mapping_kept_witness :
    (run_store true [(all_succeed, StoreCall.map), (all_succeed, StoreCall.reserve 10),
        (all_succeed, StoreCall.reserve 20), (all_succeed, StoreCall.resize 5),
        (all_fail, StoreCall.unmap)] (file_storage.construct 0 1 50)).logical_size
      ≤ (run_store true [(all_succeed, StoreCall.map), (all_succeed, StoreCall.reserve 10),
        (all_succeed, StoreCall.reserve 20), (all_succeed, StoreCall.resize 5),
        (all_fail, StoreCall.unmap)] (file_storage.construct 0 1 50)).capacity :=
  logical_within_capacity_while_mapping_kept true 0 1 50 _ (by decide) (by decide)
    (by decide)

/-- Claim C24: on a store that is not mapped `flush()` and `unmap()` return true
and leave the store (mapped, capacity, logical size and data pointer) as it
is, whatever the system calls would answer: none of them is made. -/
theorem flush_unmap_unmapped_are_noops (sys : Sys) (s : FileStorage)
    (h : s.mapped = false) :
    file_storage.flush sys s = true ∧ file_storage.unmap sys s = (true, s) := by
  unfold file_storage.flush file_storage.unmap
  simp [h]

/-- Witness for `flush_unmap_unmapped_are_noops`: the store of a file of 8
bytes before `map()`, with every system call failing. -/
theorem flush_unmap_unmapped_are_noops_witness :
    file_storage.flush all_fail (file_storage.construct_default 8) = true ∧
    file_storage.unmap all_fail (file_storage.construct_default 8)
      = (true, file_storage.construct_default 8) :=
  flush_unmap_unmapped_are_noops all_fail (file_storage.construct_default 8) (by decide)

/-! ## The manager on its own -/

/-- A successful `allocate(n)` on a storage that serves memory: the body grows
by `n` zeroed units and the count held before is returned. -/
theorem manager_allocate_true (p : Params) (b : Storage) (n : Nat)
    (hm : b.mapped = true) (hn : n ≠ terminal p) :
    manager.allocate p b n = (manager.count p b,
      { b with data := b.data ++ List.replicate (link_to_position p n) 0 }) := by
  unfold manager.allocate is_terminal
  simp [hn, hm]

/-- The count after appending whole units. -/
theorem count_append_units (p : Params) (b : Storage) (n : Nat) :
    manager.count p { b with data := b.data ++ List.replicate (link_to_position p n) 0 }
      = manager.count p b + n := by
  unfold manager.count position_to_link link_to_position
  simp only [List.length_append, List.length_replicate]
  exact Nat.add_mul_div_right _ _ (stride_pos p)

/-- Every link returned by a sequence of non-terminal allocations is at least
the count the sequence started from. -/
theorem allocate_all_ge (p : Params) (sizes : List Nat) (b : Storage)
    (hm : b.mapped = true) (hs : ∀ n ∈ sizes, n ≠ terminal p) :
    ∀ l ∈ (manager.allocate_all p sizes b).1, manager.count p b ≤ l := by
  induction sizes generalizing b with
  | nil => intro l hl; simp [manager.allocate_all] at hl
  | cons n rest ih =>
    intro l hl
    have hn := hs n (List.mem_cons_self _ _)
    simp only [manager.allocate_all, manager_allocate_true p b n hm hn,
      List.mem_cons] at hl
    rcases hl with hl | hl
    · omega
    · have := ih { b with data := b.data ++ List.replicate (link_to_position p n) 0 } hm
        (fun m hmem => hs m (List.mem_cons_of_mem _ hmem)) l hl
      rw [count_append_units] at this
      omega

/-- The outcome of `truncate(link)` in full. -/
theorem truncate_cases (p : Params) (b : Storage) (link : Nat) :
    ((link = terminal p ∨ Storage.capacity b < link_to_position p link) ∧
      manager.truncate p b link = (false, b)) ∨
    (link ≠ terminal p ∧ link_to_position p link ≤ Storage.capacity b ∧
      (manager.truncate p b link).1 = true ∧
      manager.count p (manager.truncate p b link).2 = link ∧
      (manager.truncate p b link).2.data.length = link_to_position p link ∧
      Storage.capacity (manager.truncate p b link).2 = Storage.capacity b) := by
  by_cases hc : link = terminal p ∨ Storage.capacity b < link_to_position p link
  · left
    refine ⟨hc, ?_⟩
    unfold manager.truncate
    rw [if_pos]
    simpa [is_terminal] using hc
  · right
    have hc' : ¬ (is_terminal p link || decide (Storage.capacity b < link_to_position p link))
        = true := by
      simpa [is_terminal] using hc
    have ht : manager.truncate p b link = (true, (manager.truncate p b link).2) := by
      unfold manager.truncate
      rw [if_neg hc']
    have hlen : (manager.truncate p b link).2.data.length = link_to_position p link := by
      unfold manager.truncate
      rw [if_neg hc']
      simp only [List.length_take, List.length_append, List.length_replicate]
      omega
    refine ⟨fun h => hc (Or.inl h), by omega, by rw [ht], (count_after_truncate p _ _ _ ht).1,
      hlen, ?_⟩
    have hres : (manager.truncate p b link).2.reserved = Storage.capacity b := by
      unfold manager.truncate
      rw [if_neg hc']
    unfold Storage.capacity at hc ⊢
    rw [hres, hlen]
    unfold Storage.capacity
    omega

/-! ### The claims on the manager -/

/-- Claim C25: on a storage that serves memory, `allocate(n)` with a
non-terminal `n` that keeps the count a link value (`count + n` at most
terminal, the largest value of a `W`-byte link) returns the count held before
the call, itself a link value, and increases the count by exactly `n`; the
body grows by `n` bytes in slab mode and by `n` records in record mode. -/
theorem allocate_returns_count_and_adds (p : Params) (b : Storage) (n : Nat)
    (hm : b.mapped = true) (hn : n ≠ terminal p)
    (hcap : manager.count p b + n ≤ terminal p) :
    (manager.allocate p b n).1 = manager.count p b ∧
    (manager.allocate p b n).1 ≤ terminal p ∧
    manager.count p (manager.allocate p b n).2 = manager.count p b + n ∧
    manager.count p (manager.allocate p b n).2 ≤ terminal p ∧
    (p.S = 0 → (manager.allocate p b n).2.data.length = b.data.length + n) ∧
    (p.S ≠ 0 →
      (manager.allocate p b n).2.data.length = b.data.length + n * (p.W + p.K + p.S)) := by
  rw [manager_allocate_true p b n hm hn]
  refine ⟨rfl, by simp only; omega, count_append_units p b n,
    by rw [count_append_units p b n]; exact hcap, fun h0 => ?_, fun h0 => ?_⟩
  · simp [link_to_position, stride, is_slab, h0]
  · simp [link_to_position, stride, is_slab, h0]

/-- Witness for `allocate_returns_count_and_adds`: `allocate(42)` on the empty
slab body returns 0 and the size becomes 42. -/
theorem allocate_returns_count_and_adds_witness :
    (manager.allocate slab32 (buffer_storage []) 42).1 = 0 ∧
    manager.count slab32 (manager.allocate slab32 (buffer_storage []) 42).2 = 42 :=
  have h := allocate_returns_count_and_adds slab32 (buffer_storage []) 42 (by decide)
    (by decide) (by decide)
  ⟨h.1, h.2.2.1⟩

/-- Claim C26: `allocate` of the terminal value returns terminal and leaves the
storage, hence the size, as it is, for every table (slab or record) and every
body (empty or not). -/
theorem allocate_terminal_is_noop (p : Params) (b : Storage) :
    manager.allocate p b (terminal p) = (terminal p, b) ∧
    manager.count p (manager.allocate p b (terminal p)).2 = manager.count p b := by
  have h : manager.allocate p b (terminal p) = (terminal p, b) := by
    unfold manager.allocate is_terminal
    simp
  exact ⟨h, by rw [h]⟩

/-- Counterexample to claim C27 as stated: on the record manager of the tests,
`allocate(0)` twice on an empty body returns 0 and 0, and `allocate(eof)`
followed by `allocate(1)` on a body of one record returns 65535 and then 1. -/
theorem allocation_links_can_repeat_or_fall :
    (manager.allocate_all record16 [0, 0] (buffer_storage [])).1 = [0, 0] ∧
    ¬ List.Pairwise (fun l1 l2 => l1 < l2)
      (manager.allocate_all record16 [0, 0] (buffer_storage [])).1 ∧
    (manager.allocate_all record16 [terminal record16, 1]
      (buffer_storage (List.replicate 7 255))).1 = [65535, 1] ∧
    ¬ List.Pairwise (fun l1 l2 => l1 < l2)
      (manager.allocate_all record16 [terminal record16, 1]
        (buffer_storage (List.replicate 7 255))).1 := by
  decide

/-- Claim C27, amended: on a storage that serves memory, the links returned by
a sequence of `allocate(n_i)` calls with non-terminal sizes, the count staying
a link value throughout (the count before the first call plus all the sizes is
at most terminal), never decrease and are link values below that sum, and they
are strictly increasing when every size is at least one unit: a link returned
earlier is below every link returned later, and all are below terminal. -/
theorem allocation_links_increase (p : Params) (sizes : List Nat) (b : Storage)
    (hm : b.mapped = true) (hs : ∀ n ∈ sizes, n ≠ terminal p)
    (hcap : manager.count p b + sizes.sum ≤ terminal p) :
    List.Pairwise (fun l1 l2 => l1 ≤ l2) (manager.allocate_all p sizes b).1 ∧
    (∀ l ∈ (manager.allocate_all p sizes b).1, l ≤ terminal p) ∧
    ((∀ n ∈ sizes, 0 < n) →
      List.Pairwise (fun l1 l2 => l1 < l2) (manager.allocate_all p sizes b).1 ∧
      ∀ l ∈ (manager.allocate_all p sizes b).1, l < terminal p) := by
  have key : ∀ (sizes : List Nat) (b : Storage), b.mapped = true →
      (∀ n ∈ sizes, n ≠ terminal p) →
      List.Pairwise (fun l1 l2 => l1 ≤ l2) (manager.allocate_all p sizes b).1 ∧
      (∀ l ∈ (manager.allocate_all p sizes b).1, l ≤ manager.count p b + sizes.sum) ∧
      ((∀ n ∈ sizes, 0 < n) →
        List.Pairwise (fun l1 l2 => l1 < l2) (manager.allocate_all p sizes b).1 ∧
        ∀ l ∈ (manager.allocate_all p sizes b).1, l < manager.count p b + sizes.sum) := by
    intro sizes
    induction sizes with
    | nil => intro b _ _; simp [manager.allocate_all]
    | cons n rest ih =>
      intro b hm hs
      have hn := hs n (List.mem_cons_self _ _)
      have hrest : ∀ m ∈ rest, m ≠ terminal p :=
        fun m hmem => hs m (List.mem_cons_of_mem _ hmem)
      have hge := allocate_all_ge p rest
        { b with data := b.data ++ List.replicate (link_to_position p n) 0 } hm hrest
      have hi := ih { b with data := b.data ++ List.replicate (link_to_position p n) 0 } hm
        hrest
      simp only [count_append_units] at hge hi
      simp only [manager.allocate_all, manager_allocate_true p b n hm hn, List.pairwise_cons,
        List.mem_cons, List.sum_cons]
      refine ⟨⟨fun l hl => ?_, hi.1⟩, fun l hl => ?_, fun hpos => ⟨⟨fun l hl => ?_, ?_⟩,
        fun l hl => ?_⟩⟩
      · have := hge l hl
        omega
      · rcases hl with hl | hl
        · omega
        · have := hi.2.1 l hl
          omega
      · have := hge l hl
        have := hpos n (Or.inl rfl)
        omega
      · exact (hi.2.2 (fun m hmem => hpos m (Or.inr hmem))).1
      · have hn0 := hpos n (Or.inl rfl)
        rcases hl with hl | hl
        · omega
        · have := (hi.2.2 (fun m hmem => hpos m (Or.inr hmem))).2 l hl
          omega
  obtain ⟨k1, k2, k3⟩ := key sizes b hm hs
  refine ⟨k1, fun l hl => le_trans (k2 l hl) hcap, fun hpos => ⟨(k3 hpos).1, fun l hl => ?_⟩⟩
  have := (k3 hpos).2 l hl
  omega

/-- Witness for `allocation_links_increase`: `allocate(1)` and `allocate(2)` on
a body of one record return the links 1 and 2. -/
theorem allocation_links_increase_witness :
    List.Pairwise (fun l1 l2 => l1 < l2)
      (manager.allocate_all record16 [1, 2] (buffer_storage (List.replicate 7 255))).1 ∧
    (manager.allocate_all record16 [1, 2] (buffer_storage (List.replicate 7 255))).1 = [1, 2] :=
  ⟨((allocation_links_increase record16 [1, 2] (buffer_storage (List.replicate 7 255))
    (by decide) (by decide) (by decide)).2.2 (by decide)).1, by decide⟩

/-- Counterexample to claim C28 as stated: on the slab manager of the tests over
a body of 42 bytes, `truncate(21)` returns true and leaves the count at 21, and
then `truncate(42)`, a link beyond the current count, returns true and makes
the count 42. -/
theorem truncate_beyond_count_succeeds :
    (manager.truncate slab32 (buffer_storage (List.replicate 42 255)) 21).1 = true ∧
    manager.count slab32
      (manager.truncate slab32 (buffer_storage (List.replicate 42 255)) 21).2 = 21 ∧
    42 ≠ terminal slab32 ∧
    (manager.truncate slab32
      (manager.truncate slab32 (buffer_storage (List.replicate 42 255)) 21).2 42).1 = true ∧
    manager.count slab32 (manager.truncate slab32
      (manager.truncate slab32 (buffer_storage (List.replicate 42 255)) 21).2 42).2 = 42 := by
  decide

/-- Claim C28, amended: `truncate(link)` returns false and leaves the storage
as it is exactly when the link is terminal or lies beyond the capacity of the
storage; otherwise it returns true and the count becomes the link
(`truncate(0)` empties the body).  While the capacity is the logical size,
lying beyond the capacity is being beyond the current count. -/
theorem truncate_fails_beyond_capacity (p : Params) (b : Storage) (link : Nat) :
    ((manager.truncate p b link).1 = false ↔
      link = terminal p ∨ Storage.capacity b < link_to_position p link) ∧
    ((manager.truncate p b link).1 = false → (manager.truncate p b link).2 = b) ∧
    ((manager.truncate p b link).1 = true →
      manager.count p (manager.truncate p b link).2 = link) ∧
    ((manager.truncate p b 0).1 = true → (manager.truncate p b 0).2.data = []) ∧
    (Storage.capacity b = b.data.length →
      (Storage.capacity b < link_to_position p link ↔ manager.count p b < link)) := by
  have hbound : Storage.capacity b = b.data.length →
      (Storage.capacity b < link_to_position p link ↔ manager.count p b < link) := by
    intro hcap
    rw [hcap]
    unfold manager.count position_to_link link_to_position
    rw [Nat.div_lt_iff_lt_mul (stride_pos p)]
  have hzero : (manager.truncate p b 0).1 = true → (manager.truncate p b 0).2.data = [] := by
    intro h0
    rcases truncate_cases p b 0 with ⟨-, hf⟩ | ⟨-, -, -, -, hlen, -⟩
    · rw [hf] at h0
      simp at h0
    · rw [link_to_position, Nat.zero_mul] at hlen
      exact List.length_eq_zero.mp hlen
  rcases truncate_cases p b link with ⟨hc, hf⟩ | ⟨h1, h2, h3, h4, -, -⟩
  · refine ⟨⟨fun _ => hc, fun _ => by rw [hf]⟩, fun _ => by rw [hf], fun ht => ?_, hzero,
      hbound⟩
    rw [hf] at ht
    simp at ht
  · refine ⟨⟨fun hf => ?_, fun hc => ?_⟩, fun hf => ?_, fun _ => h4, hzero, hbound⟩
    · rw [h3] at hf
      simp at hf
    · rcases hc with hc | hc
      · exact absurd hc h1
      · omega
    · rw [h3] at hf
      simp at hf

/-- Witness for `truncate_fails_beyond_capacity`: on a body of one record,
`truncate(2)` fails and changes nothing, `truncate(0)` empties the body. -/
theorem truncate_fails_beyond_capacity_witness :
    manager.truncate record16 (buffer_storage (List.replicate 7 255)) 2
      = (false, buffer_storage (List.replicate 7 255)) ∧
    (manager.truncate record16 (buffer_storage (List.replicate 7 255)) 0).2.data = [] :=
  ⟨Prod.ext (by decide)
    ((truncate_fails_beyond_capacity record16 (buffer_storage (List.replicate 7 255)) 2).2.1
      (by decide)),
   (truncate_fails_beyond_capacity record16 (buffer_storage (List.replicate 7 255)) 0).2.2.2.1
      (by decide)⟩

/-- Claim C29: for a body of `n` units (`n` not the terminal value) and every
`h`, in particular every `h < n`, after `truncate(h)` has returned true the
size is `h`, and `truncate(n)` then returns true and makes the size `n` again,
in slab and in record mode. -/
theorem truncate_restores_up_to_capacity (p : Params) (b b1 : Storage) (h : Nat)
    (hn : manager.count p b ≠ terminal p)
    (ht : manager.truncate p b h = (true, b1)) :
    manager.count p b1 = h ∧
    (manager.truncate p b1 (manager.count p b)).1 = true ∧
    manager.count p (manager.truncate p b1 (manager.count p b)).2 = manager.count p b := by
  have hfit : link_to_position p (manager.count p b) ≤ b.data.length :=
    Nat.div_mul_le_self _ _
  rcases truncate_cases p b h with ⟨-, hf⟩ | ⟨-, -, -, c4, -, c6⟩
  · rw [hf] at ht
    simp at ht
  · rw [ht] at c4 c6
    simp only at c4 c6
    rcases truncate_cases p b1 (manager.count p b) with ⟨hc, -⟩ | ⟨-, -, d3, d4, -, -⟩
    · exfalso
      rcases hc with hc | hc
      · exact hn hc
      · rw [c6] at hc
        unfold Storage.capacity at hc
        omega
    · exact ⟨c4, d3, d4⟩

/-- Witness for `truncate_restores_up_to_capacity`: the slab body of 42 bytes
truncated to 21 and back to 42. -/
theorem truncate_restores_up_to_capacity_witness :
    manager.count slab32
      (manager.truncate slab32 (buffer_storage (List.replicate 42 255)) 21).2 = 21 ∧
    (manager.truncate slab32
      (manager.truncate slab32 (buffer_storage (List.replicate 42 255)) 21).2
      (manager.count slab32 (buffer_storage (List.replicate 42 255)))).1 = true :=
  have h := truncate_restores_up_to_capacity slab32 (buffer_storage (List.replicate 42 255))
    (manager.truncate slab32 (buffer_storage (List.replicate 42 255)) 21).2 21
    (by decide) (by decide)
  ⟨h.1, h.2.1⟩

/-- Claim C30: a record manager without key, with links of `W` bytes and
records of `S > 0` payload bytes, reports the body length divided by the stride
`W + S`, rounded down; a slab manager reports the body length in bytes; an
empty body reports 0. -/
theorem count_is_length_over_stride (p : Params) (b : Storage) :
    (p.S ≠ 0 → p.K = 0 → manager.count p b = b.data.length / (p.W + p.S)) ∧
    (p.S = 0 → manager.count p b = b.data.length) ∧
    (b.data = [] → manager.count p b = 0) := by
  unfold manager.count position_to_link stride is_slab
  refine ⟨fun hs hk => ?_, fun hs => ?_, fun hb => ?_⟩
  · simp [hs, hk]
  · simp [hs]
  · simp [hb]

/-- Witness for `count_is_length_over_stride`: the stride of 9 bytes over 9 and
297 bytes gives 1 and 33, the stride of 7 bytes over 7 bytes gives 1, the slab
of 42 bytes gives 42, and the empty record body gives 0. -/
theorem count_is_length_over_stride_witness :
    manager.count record32 (buffer_storage (List.replicate 9 255)) = 1 ∧
    manager.count record32 (buffer_storage (List.replicate 297 255)) = 33 ∧
    manager.count record16 (buffer_storage (List.replicate 7 255)) = 1 ∧
    manager.count slab32 (buffer_storage (List.replicate 42 255)) = 42 ∧
    manager.count record32 (buffer_storage []) = 0 :=
  ⟨((count_is_length_over_stride record32 (buffer_storage (List.replicate 9 255))).1
      (by decide) (by decide)).trans (by decide),
   ((count_is_length_over_stride record32 (buffer_storage (List.replicate 297 255))).1
      (by decide) (by decide)).trans (by decide),
   ((count_is_length_over_stride record16 (buffer_storage (List.replicate 7 255))).1
      (by decide) (by decide)).trans (by decide),
   ((count_is_length_over_stride slab32 (buffer_storage (List.replicate 42 255))).2.1
      (by decide)).trans (by decide),
   (count_is_length_over_stride record32 (buffer_storage [])).2.2 (by decide)⟩

/-! ### The remaining claims -/

/-- Claim C31: `manager::get(link)` is null when the link is terminal or its
position lies at or past the end of the body; otherwise, on a storage that
serves memory, the accessor begins at the position of the link, `link` itself
in slab mode and `link * stride` in record mode, and the bytes seen through it
are the body bytes from that position on, the first being the body byte
there. -/
theorem manager_get_begins_at_link (p : Params) (b : Storage) (link : Nat) :
    ((link = terminal p ∨ b.data.length ≤ link_to_position p link) →
      manager.get_link p b link = none ∧ manager.get_data p b link = none) ∧
    (b.mapped = true → link ≠ terminal p → link_to_position p link < b.data.length →
      manager.get_link p b link = some (link_to_position p link) ∧
      manager.get_data p b link = some (b.data.drop (link_to_position p link)) ∧
      (b.data.drop (link_to_position p link))[0]? = b.data[link_to_position p link]? ∧
      (b.data[link_to_position p link]?).isSome = true) ∧
    (p.S = 0 → link_to_position p link = link) ∧
    (p.S ≠ 0 → link_to_position p link = link * (p.W + p.K + p.S)) := by
  refine ⟨fun h => ?_, fun hm ht hr => ?_, fun h0 => ?_, fun h0 => ?_⟩
  · have hn : manager.get_link p b link = none := by
      rw [get_link_eq_none]
      rcases h with h | h
      · exact Or.inl h
      · exact Or.inr (Or.inr h)
    exact ⟨hn, by rw [manager.get_data, hn]; rfl⟩
  · have hs : manager.get_link p b link = some (link_to_position p link) :=
      (get_link_eq_some p b link _).mpr ⟨ht, hm, hr, rfl⟩
    refine ⟨hs, by rw [manager.get_data, hs]; rfl, by simp, ?_⟩
    rw [List.getElem?_eq_getElem hr]
    rfl
  · simp [link_to_position, stride, is_slab, h0]
  · simp [link_to_position, stride, is_slab, h0]

/-- Witness for `manager_get_begins_at_link`: over the bytes `00 .. 0f`, with
two-byte links and `Size` 6, `get(1)` begins at byte 8; in slab mode `get(9)`
begins at byte 9. -/
theorem manager_get_begins_at_link_witness :
    manager.get_link record16_6 (buffer_storage sixteen_bytes) 1 = some 8 ∧
    manager.get_data record16_6 (buffer_storage sixteen_bytes) 1
      = some [8, 9, 10, 11, 12, 13, 14, 15] ∧
    manager.get_link slab16 (buffer_storage sixteen_bytes) 9 = some 9 :=
  have h1 := (manager_get_begins_at_link record16_6 (buffer_storage sixteen_bytes) 1).2.1
    (by decide) (by decide) (by decide)
  have h2 := (manager_get_begins_at_link slab16 (buffer_storage sixteen_bytes) 9).2.1
    (by decide) (by decide) (by decide)
  ⟨h1.1, h1.2.1, h2.1⟩

/-- Claim C33: `arraymap::get(link, record)` returns false with the record as
passed, `from_data` not being reached, when the link is terminal or the body
yields no memory for the position of the link; otherwise `from_data` receives
a valid reader that starts at byte `link * Size` and is limited to `Size`
bytes in record mode, and starts at byte `link` in slab mode. -/
theorem arraymap_get_reads_at_link {α : Type} (p : Params) (c : Codec α) (b : Storage)
    (link : Nat) (record : α) :
    ((link = terminal p ∨ storage.get b (arraymap.link_to_position p link) = none) →
      arraymap.get p c b link record = (false, record)) ∧
    (link ≠ terminal p → storage.get b (arraymap.link_to_position p link) ≠ none →
      (is_slab p = false → arraymap.get p c b link record
        = c.from_data ⟨true, (b.data.drop (link * p.S)).take p.S⟩ record) ∧
      (is_slab p = true → arraymap.get p c b link record
        = c.from_data ⟨true, b.data.drop link⟩ record)) ∧
    (storage.get b (arraymap.link_to_position p link) = none ↔
      (b.mapped = false ∨ b.data.length ≤ arraymap.link_to_position p link)) := by
  have hget : ∀ pos, storage.get b pos = none ↔ (b.mapped = false ∨ b.data.length ≤ pos) := by
    intro pos
    unfold storage.get manager.get offset
    cases hm : b.mapped with
    | false => simp
    | true =>
      by_cases hr : pos < b.data.length
      · simp [hr]
      · simp [hr]; omega
  have hsome : ∀ pos x, storage.get b pos = some x → x = pos := by
    intro pos x hx
    unfold storage.get manager.get offset at hx
    cases hm : b.mapped with
    | false => simp [hm] at hx
    | true =>
      by_cases hr : pos < b.data.length
      · simp [hm, hr] at hx
        exact hx.symm
      · simp [hm, hr] at hx
  refine ⟨fun h => ?_, fun ht hs => ?_, hget _⟩
  · unfold arraymap.get arraymap.at
    rcases h with h | h
    · simp [is_terminal, h]
    · rw [h]
      split_ifs <;> rfl
  · cases hg : storage.get b (arraymap.link_to_position p link) with
    | none => exact absurd hg hs
    | some x =>
      have hx := hsome _ _ hg
      subst hx
      have hnt : is_terminal p link = false := by simp [is_terminal, ht]
      constructor
      · intro hsl
        unfold arraymap.get arraymap.at
        rw [hnt, hg]
        simp [limited, arraymap.link_to_position, hsl]
      · intro hsl
        unfold arraymap.get arraymap.at
        rw [hnt, hg]
        simp [limited, arraymap.link_to_position, hsl]

/-- Witness for `arraymap_get_reads_at_link`: over the bytes `00 .. 0f` with
records of 5 bytes, `get(2)` reads the bytes 10 to 14, and `get(4)`, whose
position 20 is past the end, returns false. -/
theorem arraymap_get_reads_at_link_witness :
    arraymap.get record16 probe_codec (buffer_storage sixteen_bytes) 2 []
      = (true, [10, 11, 12, 13, 14]) ∧
    arraymap.get record16 probe_codec (buffer_storage sixteen_bytes) 4 [] = (false, []) :=
  ⟨(((arraymap_get_reads_at_link record16 probe_codec (buffer_storage sixteen_bytes) 2 []).2.1
      (by decide) (by decide)).1 (by decide)).trans (by decide),
   (arraymap_get_reads_at_link record16 probe_codec (buffer_storage sixteen_bytes) 4 []).1
      (Or.inr (by decide))⟩

/-- Claim C35: `restore()` and `verify()` never write the header: `verify()` is
a function of the state that returns a flag only, and after `restore()` the
header file, hence every bucket entry and `head.body_count`, is as before; the
body keeps its mapping flag, and of its bytes only the logical end moves: the
old and the new body agree on every byte in front of both ends. -/
theorem restore_and_verify_keep_header (p : Params) (st : State) :
    (hashmap.restore p st).2.head = st.head ∧
    (∀ i, head.top p (hashmap.restore p st).2.head i = head.top p st.head i) ∧
    head.get_body_count p (hashmap.restore p st).2.head = head.get_body_count p st.head ∧
    (hashmap.restore p st).2.body.mapped = st.body.mapped ∧
    (∀ j, j < st.body.data.length → j < (hashmap.restore p st).2.body.data.length →
      (hashmap.restore p st).2.body.data[j]? = st.body.data[j]?) := by
  have hhead : (hashmap.restore p st).2.head = st.head := by
    unfold hashmap.restore
    split_ifs
    · split <;> rfl
    · rfl
  have hbody : (hashmap.restore p st).2.body = st.body ∨
      ∃ n, (hashmap.restore p st).2.body = (manager.truncate p st.body n).2 := by
    unfold hashmap.restore
    split_ifs
    · split
      · exact Or.inl rfl
      · exact Or.inr ⟨_, rfl⟩
    · exact Or.inl rfl
  refine ⟨hhead, fun i => by rw [hhead], by rw [hhead], ?_, ?_⟩
  · rcases hbody with h | ⟨n, h⟩
    · rw [h]
    · rw [h]
      unfold manager.truncate
      split_ifs <;> rfl
  · intro j hj hj'
    rcases hbody with h | ⟨n, h⟩
    · rw [h]
    · rw [h] at hj' ⊢
      unfold manager.truncate at hj' ⊢
      split_ifs at hj' ⊢
      · rfl
      · simp only [List.length_take, List.length_append, List.length_replicate] at hj'
        simp only
        rw [List.getElem?_take, if_pos (by omega), List.getElem?_append_left hj]

/-- Witness for `restore_and_verify_keep_header`: `restore()` of the table that
crashed in its second put keeps the header and the first byte of the body. -/
theorem restore_and_verify_keep_header_witness :
    (hashmap.restore tiny crashed_at_once).2.head = crashed_at_once.head ∧
    (hashmap.restore tiny crashed_at_once).2.body.data[0]? = crashed_at_once.body.data[0]? :=
  have h := restore_and_verify_keep_header tiny crashed_at_once
  ⟨h.1, h.2.2.2.2 0 (by decide) (by decide)⟩

/-- Claim C36: `put_link(link, key, e)` gives the same flag, the same out link
and the same final header and body as `link = allocate(e.count())` followed by
`put(link, key, e)`, for every state, key and element. -/
theorem put_link_is_allocate_then_put {α : Type} (p : Params) (c : Codec α) (st : State)
    (key : List Byte) (e : α) :
    (hashmap.put_link_out p c st key e).1.1
      = (hashmap.put_at p c (hashmap.allocate p st (c.count e)).2
          (hashmap.allocate p st (c.count e)).1 key e).1 ∧
    (hashmap.put_link_out p c st key e).1.2 = (hashmap.allocate p st (c.count e)).1 ∧
    (hashmap.put_link_out p c st key e).2.head
      = (hashmap.put_at p c (hashmap.allocate p st (c.count e)).2
          (hashmap.allocate p st (c.count e)).1 key e).2.head ∧
    (hashmap.put_link_out p c st key e).2.body
      = (hashmap.put_at p c (hashmap.allocate p st (c.count e)).2
          (hashmap.allocate p st (c.count e)).1 key e).2.body := by
  rw [put_link_out_eq]
  exact ⟨rfl, rfl, rfl, rfl⟩

/-- Claim C39: the `strong_bk` record has no payload: `to_data` returns the
validity of the writer and hands it back untouched (no byte written, position
unchanged), `from_data` returns the validity of the reader and hands it back
untouched (no byte read), whatever bytes it holds, and `operator==` is true for
every pair of records; as the element of a hash map it writes nothing into the
memory it is given. -/
theorem strong_bk_has_no_payload (sink : Sink) (source : Source) (a b : strong_bk.record) :
    strong_bk.record.to_data sink a = (sink.valid, sink) ∧
    strong_bk.record.from_data source a = ((source.valid, a), source) ∧
    strong_bk.record.equals a b = true ∧
    (strong_bk.codec.to_data a).1.flatten = [] ∧
    strong_bk.codec.run_to_data a sink = (sink, sink.valid) ∧
    (∀ bytes, strong_bk.codec.from_data ⟨source.valid, bytes⟩ a = (source.valid, a)) :=
  ⟨rfl, rfl, rfl, rfl, by simp [Codec.run_to_data, strong_bk.codec], fun _ => rfl⟩

/-- Claim C37 (the code departs from it above `2 ^ 53`): `resize(required)` is
`reserve(required, 0, 0)`, and on a mapped store with `required > capacity` a
successful `resize` sets the capacity to exactly `required` for every
configured minimum and expansion, as long as `required ≤ 2 ^ 53`; but
`resize(2 ^ 53 + 1)` on `odd_store` succeeds and leaves the capacity at
`2 ^ 53`, because `required` is rounded when it is converted to `double`. -/
theorem resize_sets_capacity_to_required (mremap_maymove : Bool) (sys : Sys)
    (s s' : FileStorage) (required : Nat) (ptr : Pointer) :
    file_storage.resize mremap_maymove sys s required
      = file_storage.reserve_with mremap_maymove sys s required 0 0 ∧
    (s.mapped = true → s.capacity < required → required ≤ 2 ^ 53 →
      file_storage.resize mremap_maymove sys s required = (Except.ok ptr, s') →
      s'.capacity = required) ∧
    (odd_store.mapped = true ∧ odd_store.capacity < 9007199254740993 ∧
      (file_storage.resize true all_succeed odd_store 9007199254740993).1
        = Except.ok (Pointer.addr 8192) ∧
      (file_storage.resize true all_succeed odd_store 9007199254740993).2.capacity
        = 9007199254740992) := by
  refine ⟨rfl, fun hm hc h53 h => ?_, by decide, by decide, by rfl, by decide⟩
  obtain ⟨-, -, -, -, -, -, hg⟩ := reserve_with_ok _ _ _ _ _ _ _ _ hm h
  have hcap := hg hc
  rw [scaled_zero_le sys.out_of_range required h53] at hcap
  rcases hcap with hcap | ⟨h0, -⟩
  · rw [hcap]
    exact Nat.max_eq_right (Nat.zero_le _)
  · have : required ≤ max 0 required := le_max_right _ _
    omega

/-- Witness for `resize_sets_capacity_to_required`: `resize(100)` on
`odd_store` (minimum 1, expansion 13 percent, capacity 8) leaves the capacity
at 100. -/
theorem resize_sets_capacity_to_required_witness :
    (file_storage.resize true all_succeed odd_store 100).2.capacity = 100 :=
  (resize_sets_capacity_to_required true all_succeed odd_store
    (file_storage.resize true all_succeed odd_store 100).2 100 (Pointer.addr 8192)).2.1
    (by decide) (by decide) (by decide) (by rfl)

theorem is_put_self_indexing {α : Type} (p : Params) (call : Call α)
    (h : call.is_put = true) : call.self_indexing p = true := by
  cases call <;> simp_all [Call.is_put, Call.self_indexing]

/-- Along a chain in good order every next field is terminal or a smaller link. -/
theorem GoodChain.descends (p : Params) (mem : List Byte) (F : Nat) (h l : Nat)
    (hg : GoodChain p mem F h) (ho : OnChain p mem h l) :
    next_of p mem l ≠ terminal p → next_of p mem l < l := by
  induction ho with
  | head h hh =>
    cases hg with
    | ended => exact absurd rfl hh
    | link _ _ _ hd _ => exact hd
  | behind h l hh _ ih =>
    cases hg with
    | ended => exact absurd rfl hh
    | link _ _ _ _ hnext => exact ih hnext

/-- Membership of a chain in good order survives in any memory that agrees on
the next fields below the frontier. -/
theorem OnChain.kept_in_frame (p : Params) (mem mem' : List Byte) (F : Nat) (h l : Nat)
    (hg : GoodChain p mem F h) (ho : OnChain p mem h l)
    (hframe : ∀ x, link_to_position p x + p.W ≤ F →
      peek mem' (link_to_position p x) p.W = peek mem (link_to_position p x) p.W) :
    OnChain p mem' h l := by
  induction ho with
  | head h hh => exact OnChain.head h hh
  | behind h l hh _ ih =>
    cases hg with
    | ended => exact absurd rfl hh
    | link _ _ hb _ hnext =>
      have hn : next_of p mem' h = next_of p mem h := by
        unfold next_of
        rw [hframe h hb]
      refine OnChain.behind h l hh ?_
      rw [hn]
      exact ih hnext

/-- A `put_link(link&, key, element)` keeps every element on its chain, and a
successful one puts the new element at the head of the chain of its bucket. -/
theorem put_link_out_keeps_chains {α : Type} (p : Params) (c : Codec α) (st : State)
    (key : List Byte) (e : α) (h : Inv p st) (hcap : manager.count p st.body ≤ terminal p) :
    (∀ i l, OnChain p st.body.data (head.top p st.head i) l →
      OnChain p (hashmap.put_link_out p c st key e).2.body.data
        (head.top p (hashmap.put_link_out p c st key e).2.head i) l) ∧
    ((hashmap.put_link_out p c st key e).1.1 = true →
      OnChain p (hashmap.put_link_out p c st key e).2.body.data
        (head.top p (hashmap.put_link_out p c st key e).2.head (head.index p key))
        (hashmap.put_link_out p c st key e).1.2) := by
  obtain ⟨f1, f2, f3, f4, f5⟩ := put_link_out_frame p c st key e
  rw [frontier_eq_length p st.body h.aligned] at f5
  have hframe : ∀ x, link_to_position p x + p.W ≤ st.body.data.length →
      peek (hashmap.put_link_out p c st key e).2.body.data (link_to_position p x) p.W
        = peek st.body.data (link_to_position p x) p.W := fun x hx => f5 _ _ hx
  cases hflag : (hashmap.put_link_out p c st key e).1.1 with
  | false =>
    have hhead : (hashmap.put_link_out p c st key e).2.head = st.head := by
      rw [put_link_out_eq] at hflag ⊢
      simp only at hflag ⊢
      exact put_at_false p c (hashmap.allocate p st (c.count e)).2 _
        (hashmap.allocate p st (c.count e)).1 key e (Prod.ext hflag rfl)
    refine ⟨fun i l ho => ?_, fun hf => by simp at hf⟩
    rw [hhead]
    exact OnChain.kept_in_frame p _ _ _ _ _ (h.chains i) ho hframe
  | true =>
    have hout : hashmap.put_link_out p c st key e =
        ((true, (hashmap.put_link_out p c st key e).1.2),
          (hashmap.put_link_out p c st key e).2) := Prod.ext (Prod.ext hflag rfl) rfl
    generalize (hashmap.put_link_out p c st key e).1.2 = link at hout
    generalize (hashmap.put_link_out p c st key e).2 = st' at *
    obtain ⟨-, k2, -⟩ := put_link_out_true p c st st' key e link hout
    obtain ⟨t1, t2, t3, -, -⟩ := put_link_out_splice p c st st' key e link hout
    have t1 := t1 hcap
    have hnext : next_of p st'.body.data link = head.top p st.head (head.index p key) := t2
    have hnew : OnChain p st'.body.data (head.top p st'.head (head.index p key)) link := by
      rw [t1]
      exact OnChain.head link k2
    refine ⟨fun i l ho => ?_, fun _ => hnew⟩
    have hold : OnChain p st'.body.data (head.top p st.head i) l :=
      OnChain.kept_in_frame p _ _ _ _ _ (h.chains i) ho hframe
    by_cases hi : i = head.index p key
    · subst hi
      rw [t1]
      refine OnChain.behind link l k2 ?_
      rw [hnext]
      exact hold
    · rw [t3 i hi]
      exact hold

/-- The elements stored by a sequence of `put` and `put_link` calls on a table
in good order are on the chains of the final table. -/
theorem stored_links_on_chains {α : Type} (p : Params) (c : Codec α)
    (calls : List (Call α)) :
    ∀ (st : State), (∀ call ∈ calls, call.is_put = true) → Inv p st →
      manager.count p (run_calls p c calls st).body ≤ terminal p →
      (∀ i l, OnChain p st.body.data (head.top p st.head i) l →
        OnChain p (run_calls p c calls st).body.data
          (head.top p (run_calls p c calls st).head i) l) ∧
      (∀ l ∈ stored_links p c calls st, ∃ i,
        OnChain p (run_calls p c calls st).body.data
          (head.top p (run_calls p c calls st).head i) l) := by
  induction calls with
  | nil =>
    intro st _ _ _
    exact ⟨fun i l ho => ho, fun l hl => by simp [stored_links] at hl⟩
  | cons call rest ih =>
    intro st hputs hinv hcap
    have hrun : run_calls p c (call :: rest) st = run_calls p c rest (call.run p c st) := rfl
    rw [hrun] at hcap ⊢
    have hrest : ∀ x ∈ rest, x.is_put = true := fun x hx => hputs x (List.mem_cons_of_mem _ hx)
    have hgrow := (Inv.after_calls p c rest (call.run p c st)
      (fun x hx => is_put_self_indexing p x (hrest x hx))).1
    have hstep := Inv.step p c st call
      (is_put_self_indexing p call (hputs call (List.mem_cons_self _ _)))
    have hcap1 : manager.count p (call.run p c st).body ≤ terminal p :=
      le_trans (count_mono p _ _ hgrow) hcap
    have hcap0 : manager.count p st.body ≤ terminal p :=
      le_trans (count_mono p _ _ hstep.1) hcap1
    have hinv1 : Inv p (call.run p c st) := hstep.2 hinv hcap0
    obtain ⟨r1, r2⟩ := ih (call.run p c st) hrest hinv1 hcap
    have hcall := hputs call (List.mem_cons_self _ _)
    have hkey : ∃ key e, call.run p c st = (hashmap.put_link_out p c st key e).2 ∧
        ∀ l ∈ stored_links p c (call :: rest) st,
          ((hashmap.put_link_out p c st key e).1.1 = true ∧
            l = (hashmap.put_link_out p c st key e).1.2) ∨
          l ∈ stored_links p c rest (call.run p c st) := by
      cases call with
      | put key e =>
        refine ⟨key, e, rfl, fun l hl => ?_⟩
        simp only [stored_links, List.mem_append] at hl
        rcases hl with hl | hl
        · left
          split_ifs at hl with hf
          · exact ⟨hf, by simpa using hl⟩
          · simp at hl
        · exact Or.inr hl
      | put_link key e =>
        refine ⟨key, e, rfl, fun l hl => ?_⟩
        simp only [stored_links, List.mem_append] at hl
        rcases hl with hl | hl
        · left
          split_ifs at hl with hf
          · exact ⟨hf, by simpa using hl⟩
          · simp at hl
        · exact Or.inr hl
      | allocate _ => simp [Call.is_put] at hcall
      | set _ _ => simp [Call.is_put] at hcall
      | set_link _ => simp [Call.is_put] at hcall
      | put_at _ _ _ => simp [Call.is_put] at hcall
      | commit _ _ => simp [Call.is_put] at hcall
      | commit_link _ _ => simp [Call.is_put] at hcall
    obtain ⟨key, e, hcr, hmem⟩ := hkey
    obtain ⟨q1, q2⟩ := put_link_out_keeps_chains p c st key e hinv hcap0
    rw [← hcr] at q1 q2
    refine ⟨fun i l ho => r1 i l (q1 i l ho), fun l hl => ?_⟩
    rcases hmem l hl with ⟨hf, hl'⟩ | hl'
    · exact ⟨head.index p key, r1 _ _ (hl' ▸ q2 hf)⟩
    · exact r2 l hl'

/-- Claim C34: in every state reached from a successful `create()` by `put` and
`put_link` calls, the count being a link value, every bucket head is terminal
or below `count()`, and every stored element (each element that one of the
calls stored, and each element on the chain of a bucket) lies below `count()`
and has a next field that is terminal or strictly below its own link. -/
theorem puts_keep_links_descending {α : Type} (p : Params) (c : Codec α) (st0 st : State)
    (calls : List (Call α))
    (hcreate : hashmap.create p st0 = (true, st))
    (hputs : ∀ call ∈ calls, call.is_put = true)
    (hcap : hashmap.count p (run_calls p c calls st) ≤ terminal p) :
    (∀ i, head.top p (run_calls p c calls st).head i = terminal p ∨
      head.top p (run_calls p c calls st).head i < hashmap.count p (run_calls p c calls st)) ∧
    (∀ l ∈ stored_links p c calls st,
      l < hashmap.count p (run_calls p c calls st) ∧
      (next_of p (run_calls p c calls st).body.data l = terminal p ∨
        next_of p (run_calls p c calls st).body.data l < l)) ∧
    (∀ i l, OnChain p (run_calls p c calls st).body.data
        (head.top p (run_calls p c calls st).head i) l →
      l < hashmap.count p (run_calls p c calls st) ∧
      (next_of p (run_calls p c calls st).body.data l = terminal p ∨
        next_of p (run_calls p c calls st).body.data l < l)) := by
  have hsafe : ∀ call ∈ calls, call.self_indexing p = true :=
    fun call hc => is_put_self_indexing p call (hputs call hc)
  have hinv0 : Inv p st := Inv.of_create p st0 st hcreate
  have hinv : Inv p (run_calls p c calls st) :=
    (Inv.after_calls p c calls st hsafe).2 hinv0 hcap
  have hchain : ∀ i l, OnChain p (run_calls p c calls st).body.data
      (head.top p (run_calls p c calls st).head i) l →
      l < hashmap.count p (run_calls p c calls st) ∧
      (next_of p (run_calls p c calls st).body.data l = terminal p ∨
        next_of p (run_calls p c calls st).body.data l < l) := by
    intro i l ho
    obtain ⟨-, hb⟩ := GoodChain.on_chain p _ _ _ _ (hinv.chains i) ho
    refine ⟨link_lt_count p _ l hinv.width hinv.aligned hb, ?_⟩
    by_cases hn : next_of p (run_calls p c calls st).body.data l = terminal p
    · exact Or.inl hn
    · exact Or.inr (GoodChain.descends p _ _ _ _ (hinv.chains i) ho hn)
  refine ⟨fun i => ?_, fun l hl => ?_, hchain⟩
  · by_cases ht : head.top p (run_calls p c calls st).head i = terminal p
    · exact Or.inl ht
    · exact Or.inr (link_lt_count p _ _ hinv.width hinv.aligned
        (GoodChain.bound p _ _ _ (hinv.chains i) ht))
  · obtain ⟨i, ho⟩ := (stored_links_on_chains p c calls st hputs hinv0 hcap).2 l hl
    exact hchain i l ho

/-- Witness for `puts_keep_links_descending`: three insertions under one key
into the table `tiny`; the links 0, 1, 2 are stored, bucket 1 heads the chain
at link 2, and the next field of link 2 is 1. -/
theorem puts_keep_links_descending_witness :
    stored_links tiny byte_codec [.put [7] 5, .put_link [7] 6, .put [7] 9] fresh = [0, 1, 2] ∧
    (next_of tiny
        (run_calls tiny byte_codec [.put [7] 5, .put_link [7] 6, .put [7] 9] fresh).body.data 2
        = terminal tiny ∨
      next_of tiny
        (run_calls tiny byte_codec [.put [7] 5, .put_link [7] 6, .put [7] 9] fresh).body.data 2
        < 2) ∧
    (head.top tiny
        (run_calls tiny byte_codec [.put [7] 5, .put_link [7] 6, .put [7] 9] fresh).head 1
        = terminal tiny ∨
      head.top tiny
        (run_calls tiny byte_codec [.put [7] 5, .put_link [7] 6, .put [7] 9] fresh).head 1
        < hashmap.count tiny
          (run_calls tiny byte_codec [.put [7] 5, .put_link [7] 6, .put [7] 9] fresh)) :=
  have h := puts_keep_links_descending tiny byte_codec blank fresh
    [.put [7] 5, .put_link [7] 6, .put [7] 9] (by decide) (by decide) (by decide)
  ⟨by decide, (h.2.1 2 (by decide)).2, h.1 1⟩

theorem one_ne_terminal (p : Params) : 1 ≠ terminal p := by
  unfold terminal
  rcases Nat.eq_zero_or_pos p.W with h0 | h0
  · simp [h0]
  · have : 256 ^ 1 ≤ 256 ^ p.W := Nat.pow_le_pow_right (by decide) h0
    omega

/-- What `record::create(next, write)` leaves behind when the writes of
`write` fit the payload: the body with one more record, holding `next` and
then the bytes written. -/
theorem record_create_some (p : Params) (b : Storage) (next : Nat)
    (write : List (List Byte)) (hk : p.K = 0) (hs : p.S ≠ 0) (hm : b.mapped = true)
    (hc : manager.count p b ≠ terminal p) (hw : write.flatten.length ≤ p.S) :
    record.create p b next write = some (manager.count p b,
      { b with
        data := poke (poke (b.data ++ List.replicate (p.W + p.S) 0)
            (link_to_position p (manager.count p b)) (encode p.W next))
          (link_to_position p (manager.count p b) + p.W) write.flatten }) ∧
    link_to_position p (manager.count p b) ≤ b.data.length ∧
    stride p = p.W + p.S := by
  have hstride : stride p = p.W + p.S := by
    simp [stride, is_slab, hs, hk]
  have hone : link_to_position p 1 = p.W + p.S := by
    rw [link_to_position, hstride, Nat.one_mul]
  have hpos : link_to_position p (manager.count p b) ≤ b.data.length :=
    Nat.div_mul_le_self _ _
  have hal := manager_allocate_true p b 1 hm (one_ne_terminal p)
  rw [hone] at hal
  have hget : manager.get_link p
      { b with data := b.data ++ List.replicate (p.W + p.S) 0 } (manager.count p b)
      = some (link_to_position p (manager.count p b)) := by
    rw [get_link_eq_some]
    refine ⟨hc, hm, ?_, rfl⟩
    simp only [List.length_append, List.length_replicate]
    omega
  refine ⟨?_, hpos, hstride⟩
  unfold record.create element.allocate
  simp only [hal, hget]
  have hfirst : (Sink.mk (b.data ++ List.replicate (p.W + p.S) 0)
      (link_to_position p (manager.count p b))
      (link_to_position p (manager.count p b) + (p.W + p.S)) true).write_bytes (encode p.W next)
      = Sink.mk (poke (b.data ++ List.replicate (p.W + p.S) 0)
          (link_to_position p (manager.count p b)) (encode p.W next))
        (link_to_position p (manager.count p b) + p.W)
        (link_to_position p (manager.count p b) + (p.W + p.S)) true := by
    unfold Sink.write_bytes
    simp only [length_encode, Bool.true_and]
    rw [if_pos (by simp)]
  rw [hfirst]
  obtain ⟨-, -, -, w4, w5⟩ := foldl_write_bytes write
    (Sink.mk (poke (b.data ++ List.replicate (p.W + p.S) 0)
        (link_to_position p (manager.count p b)) (encode p.W next))
      (link_to_position p (manager.count p b) + p.W)
      (link_to_position p (manager.count p b) + (p.W + p.S)) true)
    (by simp only [length_poke, List.length_append, List.length_replicate]; omega)
    (fun _ => by simp only; omega)
  have hv := w4.mpr ⟨rfl, by simp only; omega⟩
  rw [(w5 hv).1]

/-- Claim C38: on a record manager without key, over a storage that serves
memory and whose count is a link value other than terminal, `create(next,
write)` with writes that fit the payload allocates exactly one record of
`sizeof(Link) + Size` bytes, returns its link (the previous count), stores
`next` little-endian in its first `sizeof(Link)` bytes and the bytes written
right behind, and leaves every byte in front of the record as it was;
`read` on that element presents exactly the `Size` bytes behind the link
field, which begin with the bytes written and are those bytes when `write`
filled the payload. -/
theorem record_create_then_read (p : Params) (b : Storage) (next : Nat)
    (write : List (List Byte)) (hk : p.K = 0) (hs : p.S ≠ 0) (hm : b.mapped = true)
    (hc : manager.count p b ≠ terminal p) (hn : next < 256 ^ p.W)
    (hw : write.flatten.length ≤ p.S) :
    ∃ b', record.create p b next write = some (manager.count p b, b') ∧
      b'.data.length = b.data.length + (p.W + p.S) ∧
      manager.count p b' = manager.count p b + 1 ∧
      peek b'.data (link_to_position p (manager.count p b)) p.W = encode p.W next ∧
      decode (peek b'.data (link_to_position p (manager.count p b)) p.W) = next ∧
      peek b'.data (link_to_position p (manager.count p b) + p.W) write.flatten.length
        = write.flatten ∧
      (∀ j m, j + m ≤ link_to_position p (manager.count p b) →
        peek b'.data j m = peek b.data j m) ∧
      record.read p b' (manager.count p b)
        = some (peek b'.data (link_to_position p (manager.count p b) + p.W) p.S) ∧
      (peek b'.data (link_to_position p (manager.count p b) + p.W) p.S).length = p.S ∧
      (peek b'.data (link_to_position p (manager.count p b) + p.W) p.S).take
        write.flatten.length = write.flatten ∧
      (write.flatten.length = p.S →
        record.read p b' (manager.count p b) = some write.flatten) := by
  obtain ⟨hcreate, hpos, hstride⟩ := record_create_some p b next write hk hs hm hc hw
  refine ⟨_, hcreate, ?_⟩
  simp only
  generalize hP : link_to_position p (manager.count p b) = pos at *
  have hD : (b.data ++ List.replicate (p.W + p.S) (0 : Byte)).length
      = b.data.length + (p.W + p.S) := by
    simp
  have hSpos : 0 < p.S := Nat.pos_of_ne_zero hs
  have hlen : (poke (poke (b.data ++ List.replicate (p.W + p.S) 0) pos (encode p.W next))
      (pos + p.W) write.flatten).length = b.data.length + (p.W + p.S) := by
    rw [length_poke, length_poke, hD]
  have hlink : peek (poke (poke (b.data ++ List.replicate (p.W + p.S) 0) pos (encode p.W next))
      (pos + p.W) write.flatten) pos p.W = encode p.W next := by
    rw [peek_poke_disjoint _ _ _ _ _ (Or.inl (le_refl _))]
    have := peek_poke_self (b.data ++ List.replicate (p.W + p.S) 0) pos (encode p.W next)
      (by rw [length_encode, hD]; omega)
    rwa [length_encode] at this
  have hpay : peek (poke (poke (b.data ++ List.replicate (p.W + p.S) 0) pos
      (encode p.W next)) (pos + p.W) write.flatten) (pos + p.W) write.flatten.length
      = write.flatten :=
    peek_poke_self _ _ _ (by rw [length_poke, hD]; omega)
  have htake : (peek (poke (poke (b.data ++ List.replicate (p.W + p.S) 0) pos
      (encode p.W next)) (pos + p.W) write.flatten) (pos + p.W) p.S).take
      write.flatten.length = write.flatten := by
    have hsub : ∀ (m : List Byte) (i : Nat), (peek m i p.S).take write.flatten.length
        = peek m i write.flatten.length := by
      intro m i
      unfold peek
      rw [List.take_take, Nat.min_eq_left hw]
    rw [hsub, hpay]
  have hread : record.read p
      { b with data := poke (poke (b.data ++ List.replicate (p.W + p.S) 0) pos
          (encode p.W next)) (pos + p.W) write.flatten } (manager.count p b)
      = some (peek (poke (poke (b.data ++ List.replicate (p.W + p.S) 0) pos
          (encode p.W next)) (pos + p.W) write.flatten) (pos + p.W) p.S) := by
    have hg : manager.get_link p
        { b with data := poke (poke (b.data ++ List.replicate (p.W + p.S) 0) pos
            (encode p.W next)) (pos + p.W) write.flatten } (manager.count p b) = some pos := by
      rw [get_link_eq_some]
      refine ⟨hc, hm, ?_, hP.symm⟩
      simp only [hlen, hP]
      omega
    unfold record.read
    rw [hg]
  have hlenS : (peek (poke (poke (b.data ++ List.replicate (p.W + p.S) 0) pos
      (encode p.W next)) (pos + p.W) write.flatten) (pos + p.W) p.S).length = p.S :=
    length_peek_of_le _ _ _ (by rw [hlen]; omega)
  refine ⟨hlen, ?_, hlink, ?_, hpay, ?_, hread, hlenS, htake, fun hfull => ?_⟩
  · unfold manager.count position_to_link
    simp only [hlen]
    rw [hstride, Nat.add_div_right _ (by omega)]
  · rw [hlink, decode_encode, Nat.mod_eq_of_lt hn]
  · intro j m hj
    rw [peek_poke_disjoint _ _ _ _ _ (Or.inl (by omega)),
      peek_poke_disjoint _ _ _ _ _ (Or.inl hj), peek_append_left _ _ _ _ (by omega)]
  · rw [hread]
    congr 1
    exact (List.take_of_length_le (by rw [hlenS]; omega)).symm.trans htake

/-- Witness for `record_create_then_read`: on a body of one record of
`record16`, `create(0, write)` with a write of five bytes returns link 1, and
`read` presents those five bytes. -/
theorem record_create_then_read_witness :
    ∃ b', record.create record16 (buffer_storage (List.replicate 7 9)) 0 [[1, 2, 3], [4, 5]]
        = some (1, b') ∧
      record.read record16 b' 1 = some [1, 2, 3, 4, 5] :=
  have h := record_create_then_read record16 (buffer_storage (List.replicate 7 9)) 0
    [[1, 2, 3], [4, 5]] (by decide) (by decide) (by decide) (by decide) (by decide) (by decide)
  h.elim fun b' hb => ⟨b', hb.1, hb.2.2.2.2.2.2.2.2.2.2 (by decide)⟩

end Database
